import Mathlib

/-!
# kubectl-validate: the lint report of `pkg/cmd/lint.go`

A shallow embedding of `lintMarshal`, `LintError.String` and `getPosition`, and the
properties of the report that `lintMarshal` builds.

Modelling conventions.

* Go `string` values are Lean `String`s, that is well-formed UTF-8 text; `[]byte(s)` of
  the report is the UTF-8 encoding of the `String` the model returns.
* Go `int` is `Int` (no arithmetic is performed on it, only comparison and printing).
* A Go `map[K][]V` is an association list in insertion order (`GoMap`); every `range`
  over a map and every `maps.Keys` call visits the entries in an order chosen by an
  `IterOrder`, which stands for the unspecified iteration order of Go maps. An order is
  `Valid` when every visit is a permutation of the entries.
* The input map `details` is the list of its entries; a Go map has distinct keys, which
  the statements that need it assume as `(mapKeys details).Nodup`.
* The collaborators that live outside the repository (`os.ReadFile`, `yaml.PathString`,
  `parser.ParseBytes`, `(*yaml.Path).FilterFile`, the token position of a node and the
  Unicode table behind `strconv.IsPrint`) are the fields of an `Env`; they are functions
  of their arguments, so the files do not change during a call.
* For the example of the specification, the YAML library is modelled from section 4.1 of
  the specification (`specEnv`); every definition of that model says so.
* The verbs of `fmt.Sprintf` and the functions `strings.Join`, `slices.Sort`,
  `slices.SortFunc`, `cmp.Compare` and `cmp.Or` are written out from the Go standard
  library.
* `lintMarshal` ends in one of three ways: `([]byte, nil)`, `(nil, err)`, or a run-time
  panic when `s.Details` is a nil pointer; the last two are the `Failure` type.
-/

set_option linter.dupNamespace false
set_option maxRecDepth 8000

namespace KubectlValidate

/-! ## Data model -/

/-- The contents of a file as returned by `os.ReadFile`. -/
abbrev Bytes := List Nat

/-- Go `error` values produced by the collaborators. -/
abbrev Error := String

/-- The type `metav1.StatusCause` (`Type'` is the Go field `Type`). -/
structure StatusCause where
  Type' : String
  Message : String
  Field : String
deriving DecidableEq, Repr

/-- The type `metav1.StatusDetails`, restricted to the field the code reads. -/
structure StatusDetails where
  Causes : List StatusCause
deriving DecidableEq, Repr

/-- The type `metav1.Status`; `Details` is a pointer in Go and may be nil (`none`). -/
structure Status where
  Status : String
  Details : Option StatusDetails
deriving DecidableEq, Repr

/-- The constant `metav1.StatusSuccess`. -/
def StatusSuccess : String := "Success"

/-- The constant `nilValue` of `lintMarshal`. -/
def nilValue : String := "<nil>"

/-- The type `Position`. -/
structure Position where
  Line : Int
  Column : Int
deriving DecidableEq, Repr

/-- The type `LintError`. -/
structure LintError where
  File : String
  Line : Int
  Column : Int
  Message : String
deriving DecidableEq, Repr

/-- How a call of `lintMarshal` can end without a report. -/
inductive Failure where
  /-- The statement `return nil, err`. -/
  | err (e : Error)
  /-- A nil pointer dereference (`s.Details.Causes` with `s.Details == nil`). -/
  | nilDeref
deriving DecidableEq, Repr

/-- The collaborators outside the repository. -/
structure Env where
  /-- The type `*yaml.Path`. -/
  Path : Type
  /-- The type `*ast.File`. -/
  File : Type
  /-- The type `ast.Node`. -/
  Node : Type
  /-- The function `os.ReadFile`. -/
  ReadFile : String → Except Error Bytes
  /-- The function `yaml.PathString`. -/
  PathString : String → Except Error Path
  /-- The function `parser.ParseBytes(source, 0)`. -/
  ParseBytes : Bytes → Except Error File
  /-- The method `(*yaml.Path).FilterFile`. -/
  FilterFile : Path → File → Except Error Node
  /-- The value `node.GetToken().Position.Line`. -/
  tokenLine : Node → Int
  /-- The value `node.GetToken().Position.Column`. -/
  tokenColumn : Node → Int
  /-- The Unicode table of `strconv.IsPrint` for runes above U+00FF. -/
  printTable : Char → Bool

/-! ## Go maps and their iteration order -/

/-- A Go `map[K][]V`, as the list of its entries in insertion order. -/
abbrev GoMap (κ V : Type) := List (κ × List V)

/-- The statement `m[k] = append(m[k], v)`. -/
def mapAppend {κ V : Type} [DecidableEq κ] : GoMap κ V → κ → V → GoMap κ V
  | [], k, v => [(k, [v])]
  | (k', vs) :: rest, k, v =>
    if k' = k then (k', vs ++ [v]) :: rest else (k', vs) :: mapAppend rest k v

/-- The expression `m[k]` (the zero value, a nil slice, when the key is absent). -/
def mapGet {κ V : Type} [DecidableEq κ] : List (κ × List V) → κ → List V
  | [], _ => []
  | (k', vs) :: rest, k => if k' = k then vs else mapGet rest k

/-- The keys of a map, in insertion order. -/
def mapKeys {κ V : Type} (m : List (κ × V)) : List κ := m.map Prod.fst

/-- The order in which each map of `lintMarshal` is visited. Every field receives the
entries (or keys) in insertion order and returns them in the order of the visit. -/
structure IterOrder where
  /-- The call `maps.Keys(details)`. -/
  detailsKeys : List String → List String
  /-- The loop `for _, items := range causes` of the given file. -/
  causes : String → GoMap String StatusCause → GoMap String StatusCause
  /-- The call `maps.Keys(errors)` of the given file. -/
  errorsKeys : String → List Position → List Position
  /-- The loop `for field, msgs := range messages` of the given file and position. -/
  messages : String → Position → GoMap String String → GoMap String String

/-- An iteration order visits every entry exactly once. -/
structure IterOrder.Valid (o : IterOrder) : Prop where
  detailsKeys : ∀ l, (o.detailsKeys l).Perm l
  causes : ∀ f l, (o.causes f l).Perm l
  errorsKeys : ∀ f l, (o.errorsKeys f l).Perm l
  messages : ∀ f p l, (o.messages f p l).Perm l

/-- The iteration order that visits every map in insertion order. -/
def insertionOrder : IterOrder where
  detailsKeys := fun l => l
  causes := fun _ l => l
  errorsKeys := fun _ l => l
  messages := fun _ _ l => l

/-- The iteration order that visits every map in reverse insertion order. -/
def reverseOrder : IterOrder where
  detailsKeys := fun l => l.reverse
  causes := fun _ l => l.reverse
  errorsKeys := fun _ l => l.reverse
  messages := fun _ _ l => l.reverse

/-! ## Formatting (`fmt.Sprintf`, `strings.Join`) -/

/-- The function `strings.Join`. -/
def stringsJoin : List String → String → String
  | [], _ => ""
  | [a], _ => a
  | a :: b :: rest, sep => a ++ sep ++ stringsJoin (b :: rest) sep

/-- The verb `%d` applied to an `int`. -/
def fmtInt (n : Int) : String :=
  if n < 0 then "-" ++ String.mk (Nat.toDigits 10 n.natAbs)
  else String.mk (Nat.toDigits 10 n.toNat)

/-- The hexadecimal digits `lowerhex[r>>s&0xF]` for `s = 4*(width-1), ..., 4, 0`. -/
def hexDigits : Nat → Nat → List Char
  | 0, _ => []
  | w + 1, r => Nat.digitChar ((r >>> (4 * w)) % 16) :: hexDigits w r

/-- The function `strconv.IsPrint`: the Latin-1 fast path is spelled out, the table
lookup for larger runes is `tbl`. -/
def isPrint (tbl : Char → Bool) (r : Char) : Bool :=
  if r.toNat ≤ 0xFF then
    if 0x20 ≤ r.toNat ∧ r.toNat ≤ 0x7E then true
    else if 0xA1 ≤ r.toNat then r.toNat != 0xAD
    else false
  else tbl r

/-- The function `appendEscapedRune` of `strconv` with `quote = '"'`,
`ASCIIonly = false` and `graphicOnly = false`. -/
def appendEscapedRune (tbl : Char → Bool) (r : Char) : List Char :=
  if r = '"' ∨ r = '\\' then ['\\', r]
  else if isPrint tbl r then [r]
  else if r.toNat = 7 then ['\\', 'a']
  else if r.toNat = 8 then ['\\', 'b']
  else if r.toNat = 12 then ['\\', 'f']
  else if r.toNat = 10 then ['\\', 'n']
  else if r.toNat = 13 then ['\\', 'r']
  else if r.toNat = 9 then ['\\', 't']
  else if r.toNat = 11 then ['\\', 'v']
  else if r.toNat < 0x20 ∨ r.toNat = 0x7F then '\\' :: 'x' :: hexDigits 2 r.toNat
  else if r.toNat < 0x10000 then '\\' :: 'u' :: hexDigits 4 r.toNat
  else '\\' :: 'U' :: hexDigits 8 r.toNat

/-- The verb `%q` applied to a string (`strconv.Quote`). -/
def fmtQuote (tbl : Char → Bool) (s : String) : String :=
  String.mk ('"' :: (s.data.flatMap (appendEscapedRune tbl) ++ ['"']))

/-- The method `LintError.String`: `fmt.Sprintf("%s:%d:%d: %s", ...)`. -/
def LintError.String (e : LintError) : String :=
  e.File ++ ":" ++ fmtInt e.Line ++ ":" ++ fmtInt e.Column ++ ": " ++ e.Message

/-! ## Sorting (`slices.Sort`, `slices.SortFunc`, `cmp`) -/

/-- The function `cmp.Compare` on `int`. -/
def cmpCompare (x y : Int) : Int :=
  if x < y then -1 else if y < x then 1 else 0

/-- The function `cmp.Or` with two arguments: the first one that is not zero. -/
def cmpOr (a b : Int) : Int := if a ≠ 0 then a else b

/-- The comparison function handed to `slices.SortFunc` in `lintMarshal`. -/
def comparePosition (i j : Position) : Int :=
  cmpOr (cmpCompare i.Line j.Line) (cmpCompare i.Column j.Column)

/-- The order `a <= b` of Go strings on the runes of two strings. Go compares the bytes;
on well-formed UTF-8 the byte order and the rune order agree. -/
def runesLE : List Char → List Char → Bool
  | [], _ => true
  | _ :: _, [] => false
  | a :: as, b :: bs =>
    if a < b then true
    else if b < a then false
    else runesLE as bs

/-- The order `a <= b` of Go strings. -/
def stringLE (a b : String) : Prop := runesLE a.data b.data = true

instance (a b : String) : Decidable (stringLE a b) := by
  unfold stringLE; infer_instance

/-- The call `slices.Sort(files)`. -/
def sortFiles (files : List String) : List String :=
  files.insertionSort stringLE

/-- The order that the comparison function of `slices.SortFunc` induces: `i` may stand
before `j` when the comparison is not positive. -/
def PositionLE (i j : Position) : Prop := comparePosition i j ≤ 0

instance (i j : Position) : Decidable (PositionLE i j) := by
  unfold PositionLE; infer_instance

/-- The call `slices.SortFunc(keys, ...)` of `lintMarshal`. -/
def sortPositions (keys : List Position) : List Position :=
  keys.insertionSort PositionLE

/-! ## `getPosition` -/

/-- The function `getPosition`. -/
def getPosition (env : Env) (p : env.Path) (source : Bytes) : Except Error Position :=
  match env.ParseBytes source with
  | .error err => .error err
  | .ok file =>
    match env.FilterFile p file with
    | .error err => .error err
    | .ok node => .ok { Line := env.tokenLine node, Column := env.tokenColumn node }

/-! ## `lintMarshal` -/

/-- Lines 34-40: the loop over `s.Details.Causes`. -/
def addCauses (causes : GoMap String StatusCause) :
    List StatusCause → GoMap String StatusCause
  | [] => causes
  | c :: cs =>
    if c.Field = nilValue then addCauses causes cs
    else addCauses (mapAppend causes c.Type' c) cs

/-- Lines 30-41: the loop over the statuses of one file. `none` is `continue DETAILS`. -/
def collectCauses (causes : GoMap String StatusCause) :
    List Status → Except Failure (Option (GoMap String StatusCause))
  | [] => .ok (some causes)
  | s :: rest =>
    if s.Status = StatusSuccess then .ok none
    else
      match s.Details with
      | none => .error .nilDeref
      | some d => collectCauses (addCauses causes d.Causes) rest

/-- Lines 53-60: the position of one cause in the file contents `b`. -/
def resolveCause (env : Env) (b : Bytes) (c : StatusCause) : Except Error Position :=
  match env.PathString ("$." ++ c.Field) with
  | .error err => .error err
  | .ok path => getPosition env path b

/-- Lines 52-62: the loop over the causes of one type. -/
def groupItems (env : Env) (b : Bytes) (errors : GoMap Position StatusCause) :
    List StatusCause → Except Error (GoMap Position StatusCause)
  | [] => .ok errors
  | c :: cs =>
    match resolveCause env b c with
    | .error err => .error err
    | .ok position => groupItems env b (mapAppend errors position c) cs

/-- Lines 51-63: the loop over the entries of `causes`, in the order of the visit. -/
def groupCauses (env : Env) (b : Bytes) (errors : GoMap Position StatusCause) :
    GoMap String StatusCause → Except Error (GoMap Position StatusCause)
  | [] => .ok errors
  | (_, items) :: rest =>
    match groupItems env b errors items with
    | .error err => .error err
    | .ok errors' => groupCauses env b errors' rest

/-- Line 75: the rendering of one cause, `fmt.Sprintf("(reason: %q; %s)", ...)`. -/
def renderCause (env : Env) (c : StatusCause) : String :=
  "(reason: " ++ fmtQuote env.printTable c.Type' ++ "; " ++ c.Message ++ ")"

/-- Lines 73-76: the map `messages` of one position. -/
def buildMessages (env : Env) (messages : GoMap String String) :
    List StatusCause → GoMap String String
  | [] => messages
  | c :: cs => buildMessages env (mapAppend messages c.Field (renderCause env c)) cs

/-- Line 79: the rendering of one field group. -/
def renderField (env : Env) (entry : String × List String) : String :=
  "field " ++ fmtQuote env.printTable entry.1 ++ ": " ++ stringsJoin entry.2 ", "

/-- Lines 72-86: the `LintError` of one position. -/
def positionError (env : Env) (o : IterOrder) (file : String)
    (errors : GoMap Position StatusCause) (position : Position) : LintError :=
  let causes := mapGet errors position
  let messages := buildMessages env [] causes
  let fieldMessages := (o.messages file position messages).map (renderField env)
  { File := file, Line := position.Line, Column := position.Column,
    Message := stringsJoin fieldMessages ", " }

/-- Lines 28-88: the body of the `DETAILS` loop for one file; the result is the list of
`LintError`s whose `String()` the loop appends to `results`. -/
def fileErrors (env : Env) (o : IterOrder) (file : String) (status : List Status) :
    Except Failure (List LintError) :=
  match collectCauses [] status with
  | .error f => .error f
  | .ok none => .ok []
  | .ok (some causes) =>
    if causes.length = 0 then .ok []
    else
      match env.ReadFile file with
      | .error err => .error (.err err)
      | .ok b =>
        match groupCauses env b [] (o.causes file causes) with
        | .error err => .error (.err err)
        | .ok errors =>
          let keys := sortPositions (o.errorsKeys file (mapKeys errors))
          .ok (keys.map (positionError env o file errors))

/-- The expression `details[file]`. -/
def detailsGet : List (String × List Status) → String → List Status
  | [], _ => []
  | (k, v) :: rest, file => if k = file then v else detailsGet rest file

/-- Lines 27-89: the `DETAILS` loop over the sorted file names. -/
def filesLoop (env : Env) (o : IterOrder) (details : List (String × List Status)) :
    List String → List String → Except Failure (List String)
  | [], results => .ok results
  | file :: rest, results =>
    match fileErrors env o file (detailsGet details file) with
    | .error f => .error f
    | .ok les => filesLoop env o details rest (results ++ les.map LintError.String)

/-- The function `lintMarshal`. The input map is the list of its entries. -/
def lintMarshal (env : Env) (o : IterOrder) (details : List (String × List Status)) :
    Except Failure String :=
  let files := sortFiles (o.detailsKeys (mapKeys details))
  match filesLoop env o details files [] with
  | .error f => .error f
  | .ok results => .ok (stringsJoin results "\n")

/-! ## Vocabulary of the statements -/

/-- The causes of all statuses of one file, in input order (status order, then cause
order); a status without `Details` has none. -/
def allCauses (status : List Status) : List StatusCause :=
  status.flatMap (fun s => match s.Details with | some d => d.Causes | none => [])

/-- The causes that carry a field: those whose `Field` is not the sentinel `<nil>`. -/
def addressable (l : List StatusCause) : List StatusCause :=
  l.filter (fun c => c.Field ≠ nilValue)

/-- The input without the causes whose `Field` is the sentinel `<nil>`. -/
def dropSentinel (details : List (String × List Status)) : List (String × List Status) :=
  details.map (fun e => (e.1, e.2.map (fun s =>
    { s with Details := s.Details.map (fun d => { Causes := addressable d.Causes }) })))

/-- The environment in which `yaml.PathString` answers `r` to the query `q`. -/
def Env.setPathString (env : Env) (q : String) (r : Except Error env.Path) : Env :=
  { env with PathString := fun s => if s = q then r else env.PathString s }

/-- The lines that the `DETAILS` loop appends to `results` for the given files. -/
def reportLines (env : Env) (o : IterOrder) (details : List (String × List Status)) :
    List String → Except Failure (List String)
  | [] => .ok []
  | file :: rest =>
    match fileErrors env o file (detailsGet details file) with
    | .error f => .error f
    | .ok les =>
      match reportLines env o details rest with
      | .error f => .error f
      | .ok lines => .ok (les.map LintError.String ++ lines)

/-- The pieces of a rune sequence between the occurrences of `sep`. -/
def splitRunes (sep : Char) : List Char → List (List Char)
  | [] => [[]]
  | c :: cs =>
    if c = sep then [] :: splitRunes sep cs
    else
      match splitRunes sep cs with
      | [] => [[c]]
      | l :: ls => (c :: l) :: ls

/-- The function `strings.Split` with a separator of one rune. -/
def stringsSplit (s : String) (sep : Char) : List String :=
  (splitRunes sep s.data).map String.mk

/-- A position stands strictly before another: smaller line, or equal line and smaller
column. -/
def Position.before (i j : Position) : Prop :=
  i.Line < j.Line ∨ (i.Line = j.Line ∧ i.Column < j.Column)

/-- The position of a `LintError`. -/
def LintError.position (e : LintError) : Position := { Line := e.Line, Column := e.Column }

/-- The `LintError`s that the `DETAILS` loop emits for one file of the input (none when
the processing of the file fails). -/
def emitted (env : Env) (o : IterOrder) (details : List (String × List Status))
    (file : String) : List LintError :=
  match fileErrors env o file (detailsGet details file) with
  | .ok les => les
  | .error _ => []

/-- A file name stands strictly before another in the order of `slices.Sort`. -/
def stringLT (a b : String) : Prop := stringLE a b ∧ a ≠ b

/-- A string holds no newline. -/
def NoNewline (s : String) : Prop := '\n' ∉ s.data

instance (s : String) : Decidable (NoNewline s) := by
  unfold NoNewline; infer_instance

/-- The `LintError`s of a report, file by file in the sorted order of the file names. -/
def reported (env : Env) (o : IterOrder) (details : List (String × List Status)) :
    List LintError :=
  (sortFiles (mapKeys details)).flatMap (emitted env o details)

/-! ## A concrete environment for evaluation -/

/-- The text of the documents `a.yaml` and `b.yaml` of `demoEnv`. -/
def demoDoc : Bytes :=
  "spec:\n  image: \"\"\n  name: x\n  containers:\n  - name: c\n".data.map Char.toNat

/-- The nodes of `demoDoc` that `demoEnv` can address, with the position of their token. -/
def demoNodes : List (String × Position) :=
  [("$.spec", ⟨1, 1⟩), ("$.spec.image", ⟨2, 3⟩), ("$.spec.name", ⟨3, 3⟩),
   ("$.spec.containers", ⟨4, 3⟩), ("$.spec.containers[0]", ⟨5, 5⟩),
   ("$.spec.containers[0].name", ⟨5, 5⟩)]

/-- A small environment standing for the file system and the YAML library. The files
`a.yaml` and `b.yaml` hold `demoDoc`, `bad.yaml` holds bytes that do not parse, no other
file exists. A path is its query string; the query `$.spec..image` does not build. A
query addresses the node listed for it in `demoNodes`, and no node otherwise. Every rune
above U+00FF counts as not printable. -/
def demoEnv : Env where
  Path := String
  File := Bytes
  Node := Position
  ReadFile := fun f =>
    if f = "a.yaml" ∨ f = "b.yaml" then .ok demoDoc
    else if f = "bad.yaml" then .ok [58, 32, 58]
    else .error ("open " ++ f ++ ": no such file or directory")
  PathString := fun q => if q = "$.spec..image" then .error "invalid path" else .ok q
  ParseBytes := fun b => if b = demoDoc then .ok b else .error "syntax error"
  FilterFile := fun p _ =>
    match demoNodes.lookup p with
    | some position => .ok position
    | none => .error "node not found"
  tokenLine := fun n => n.Line
  tokenColumn := fun n => n.Column
  printTable := fun _ => false

deriving instance DecidableEq for Except

/-! ## Vocabulary of the grouping -/

/-- The map obtained from `m` by appending, for each element of the list in order, its
value to the entry of its key: the effect of a loop of `m[key(x)] = append(m[key(x)],
val(x))`. -/
def groupFold {α κ V : Type} [DecidableEq κ] (key : α → κ) (val : α → V) :
    GoMap κ V → List α → GoMap κ V
  | m, [] => m
  | m, x :: xs => groupFold key val (mapAppend m (key x) (val x)) xs

/-- The position a cause resolves to in the file contents `b` (line 0, column 0 when it
does not resolve). -/
def positionOf (env : Env) (b : Bytes) (c : StatusCause) : Position :=
  match resolveCause env b c with
  | .ok position => position
  | .error _ => { Line := 0, Column := 0 }

/-- The causes with a field of one file that resolve to the given position, in input
order (status order, then cause order). -/
def causesAt (env : Env) (b : Bytes) (status : List Status) (position : Position) :
    List StatusCause :=
  (addressable (allCauses status)).filter (fun c => resolveCause env b c = .ok position)

/-- Lines 73-86 with the causes of the position given: the `LintError` rendered for a
position from the list of its causes. -/
def renderLine (env : Env) (o : IterOrder) (file : String) (position : Position)
    (causes : List StatusCause) : LintError :=
  let messages := buildMessages env [] causes
  let fieldMessages := (o.messages file position messages).map (renderField env)
  { File := file, Line := position.Line, Column := position.Column,
    Message := stringsJoin fieldMessages ", " }

/-- The field of the first cause of a list (the empty string when there is none). -/
def firstField : List StatusCause → String
  | [] => ""
  | c :: _ => c.Field

/-- The lines of a file in canonical form: one line per position to which a cause with a
field resolves, in ascending order of the positions; the message of a position is the
single group of the field of its first cause, holding the renderings of the causes of
the position in input order. -/
def canonicalLines (env : Env) (b : Bytes) (file : String) (status : List Status) :
    List LintError :=
  (sortPositions ((addressable (allCauses status)).map (positionOf env b)).dedup).map
    (fun p => { File := file, Line := p.Line, Column := p.Column,
                Message := renderField env (firstField (causesAt env b status p),
                  (causesAt env b status p).map (renderCause env)) })

/-- Some file of the input that is not skipped (none of its statuses is `Success`, at
least one of its causes has a field) cannot be read, or can be read and has a cause with
a field that does not resolve (its path does not build, or `getPosition` fails). -/
def SomeFileFails (env : Env) (details : List (String × List Status)) : Prop :=
  ∃ e ∈ details, (∀ s ∈ e.2, s.Status ≠ StatusSuccess) ∧
    addressable (allCauses e.2) ≠ [] ∧
    ((∃ err, env.ReadFile e.1 = .error err) ∨
      ∃ b, env.ReadFile e.1 = .ok b ∧
        ∃ c ∈ addressable (allCauses e.2), ∃ err, resolveCause env b c = .error err)

/-! ## The structured-document library, modelled from the spec

The repository does not contain the YAML library behind `getPosition`
(`github.com/goccy/go-yaml`). The definitions of this section follow section 4.1 of the
specification and the query language it names (YAMLPath, `$.spec.containers[0].image`):
a query addresses a value of the document, so the node matched by a query that ends in
a key is the value of that key, and its leading token is the first token of the value.

The model reads one YAML document in block style: mappings (`key: value`, or `key:`
with the value on the lines below), sequences (`- item`), scalars that are plain or
quoted and stand on one line, comments and blank lines. On any other document
(document markers, flow collections, block scalars, anchors, tags, quoted keys, tabs,
non-ASCII bytes, entries without a value) it reports a ParseError. A query is `$`
followed by steps `.name` and `[n]`. -/

/-- Modelled from the spec: one step of a query of the YAML library
(`yaml.PathString`), which is not in the repository: `.name` selects the value of a key
of a mapping, `[n]` selects the item `n` of a sequence, counted from 0. -/
inductive YamlSelector where
  | key (name : String)
  | index (n : Nat)
deriving DecidableEq, Repr

/-- Modelled from the spec: the kinds of token of the YAML library that carry the
structure of a block document: a key of a mapping (with the column of the `:` that
follows it), the `-` of a sequence item, and a scalar value. -/
inductive YamlTokenKind where
  | key (name : String) (colon : Nat)
  | dash
  | scalar
deriving DecidableEq, Repr

/-- Modelled from the spec: a token of the YAML library with its "source position
metadata", the 1-based line and column of its first character. -/
structure YamlToken where
  kind : YamlTokenKind
  line : Nat
  column : Nat
deriving DecidableEq, Repr

/-- Modelled from the spec: the characters of YAML that open a construct outside the
modelled subset when a key or a plain scalar starts with them (U+0060 is the last). -/
def yamlIndicators : List Char :=
  ['[', ']', '{', '}', '&', '*', '!', '|', '>', '%', '@', '?', ',', '#', '"', '\'',
    Char.ofNat 96]

/-- Modelled from the spec: the number of characters before the first `:` that ends a
key, that is a `:` followed by a space or by the end of the line. -/
def keyLength : List Char → Option Nat
  | [] => none
  | c :: cs =>
    if c = ':' ∧ (cs = [] ∨ cs.head? = some ' ') then some 0
    else (keyLength cs).map (fun n => n + 1)

/-- Modelled from the spec: the rest of a quoted scalar after its opening quote `q`:
characters other than `q` and `\`, the closing quote, then spaces only. -/
def closesQuote (q : Char) : List Char → Bool
  | [] => false
  | c :: cs =>
    if c = q then cs.all (fun d => d = ' ')
    else if c = '\\' then false
    else closesQuote q cs

/-- Modelled from the spec: a scalar of one line, from its first character on: a quoted
scalar, or a plain scalar, which starts with no indicator and not with the `-` of a
sequence item, and holds no `:` that ends a key. -/
def scalarOk : List Char → Bool
  | [] => false
  | c :: cs =>
    if c = '"' ∨ c = '\'' then closesQuote c cs
    else decide (c ∉ yamlIndicators) && (keyLength (c :: cs)).isNone &&
      !decide (c = '-' ∧ (cs = [] ∨ cs.head? = some ' '))

/-- Modelled from the spec: a plain key: not empty, starting with no indicator, not
ending in a space. -/
def keyOk (k : List Char) : Bool :=
  match k with
  | [] => false
  | c :: _ => decide (c ∉ yamlIndicators) && decide (k.getLast? ≠ some ' ')

/-- Modelled from the spec: the tokens of the text after the `:` of a key, which starts
at column `col` of line `line`: nothing or a comment (the value is on the lines below),
or one scalar, whose token is at the column of its first character. -/
def scanValue (line col : Nat) : List Char → Except Error (List YamlToken)
  | [] => .ok []
  | c :: cs =>
    if c = ' ' then scanValue line (col + 1) cs
    else if c = '#' then .ok []
    else if scalarOk (c :: cs) then .ok [⟨.scalar, line, col⟩]
    else .error "ParseError: value outside the modelled subset"

/-- Modelled from the spec: the tokens of a text that starts at column `col` of line
`line` with the first character of a key or of a scalar: `key: value` gives the token
of the key, at column `col`, then the tokens of the value; a text without a key is one
scalar. -/
def scanEntry (line col : Nat) (cs : List Char) : Except Error (List YamlToken) :=
  if cs.head? = some '"' ∨ cs.head? = some '\'' then
    if scalarOk cs then .ok [⟨.scalar, line, col⟩]
    else .error "ParseError: quoted text outside the modelled subset"
  else
    match keyLength cs with
    | none =>
      if scalarOk cs then .ok [⟨.scalar, line, col⟩]
      else .error "ParseError: scalar outside the modelled subset"
    | some n =>
      if keyOk (cs.take n) then
        match scanValue line (col + n + 1) (cs.drop (n + 1)) with
        | .error err => .error err
        | .ok value =>
          .ok (⟨.key (String.mk (cs.take n)) (col + n), line, col⟩ :: value)
      else .error "ParseError: key outside the modelled subset"

/-- Modelled from the spec: the tokens of the text that starts at column `col` of line
`line`: spaces are skipped, a comment ends the line, `-` followed by a space or by the
end of the line is the token of a sequence item and the item follows it, any other
text is an entry. -/
def scanItems (line col : Nat) : List Char → Except Error (List YamlToken)
  | [] => .ok []
  | c :: cs =>
    if c = ' ' then scanItems line (col + 1) cs
    else if c = '#' then .ok []
    else if c = '-' ∧ (cs = [] ∨ cs.head? = some ' ') then
      match scanItems line (col + 1) cs with
      | .error err => .error err
      | .ok tokens => .ok (⟨.dash, line, col⟩ :: tokens)
    else scanEntry line col (c :: cs)

/-- Modelled from the spec: the tokens of one line, whose first character is at
column 1. A line with a character outside printable ASCII, or starting with a document
marker (`---`, `...`), is outside the modelled subset. -/
def scanLine (line : Nat) (cs : List Char) : Except Error (List YamlToken) :=
  if cs.all (fun c => decide (0x20 ≤ c.toNat ∧ c.toNat ≤ 0x7E)) ∧
      cs.take 3 ≠ ['-', '-', '-'] ∧ cs.take 3 ≠ ['.', '.', '.'] then
    scanItems line 1 cs
  else .error "ParseError: line outside the modelled subset"

/-- Modelled from the spec: the tokens of the lines of a document, numbered from
`line`. -/
def scanLines : Nat → List (List Char) → Except Error (List YamlToken)
  | _, [] => .ok []
  | line, cs :: rest =>
    match scanLine line cs with
    | .error err => .error err
    | .ok tokens =>
      match scanLines (line + 1) rest with
      | .error err => .error err
      | .ok more => .ok (tokens ++ more)

/-- Modelled from the spec: an open block while the tokens are checked: the column of
its entries, whether it is a sequence (else a mapping), and whether its last entry has
its value. The document itself is the block of column 0. -/
structure YamlFrame where
  column : Nat
  dash : Bool
  filled : Bool
deriving DecidableEq, Repr

/-- Modelled from the spec: the blocks that a token closes: those of a larger column,
and, when the token is a key, a sequence of the same column (the sequence was the value
of the key before). A closed block must be complete. -/
def closeFrames (t : YamlToken) : List YamlFrame → Option (List YamlFrame)
  | [] => none
  | f :: fs =>
    if t.column < f.column ∨
        (t.column = f.column ∧ f.dash = true ∧ t.kind ≠ .dash ∧ t.kind ≠ .scalar) then
      if f.filled then closeFrames t fs else none
    else some (f :: fs)

/-- Modelled from the spec: the place of a token in the innermost open block. At the
column of the block it starts the next entry (the one before must be complete), or, as
`-` under a key without value, the sequence that is the value of the key. At a larger
column it is the value of the last entry, which must not have one yet: a scalar, or the
first entry of a nested block. -/
def placeToken (t : YamlToken) : List YamlFrame → Option (List YamlFrame)
  | [] => none
  | f :: fs =>
    if f.column = t.column then
      match t.kind with
      | .scalar => none
      | .dash =>
        if f.dash then
          if f.filled then some ({ f with filled := false } :: fs) else none
        else if f.filled then none
        else some (⟨t.column, true, false⟩ :: { f with filled := true } :: fs)
      | .key _ _ =>
        if f.dash then none
        else if f.filled then some ({ f with filled := false } :: fs) else none
    else if f.filled then none
    else
      match t.kind with
      | .scalar => some ({ f with filled := true } :: fs)
      | .dash => some (⟨t.column, true, false⟩ :: { f with filled := true } :: fs)
      | .key _ _ => some (⟨t.column, false, false⟩ :: { f with filled := true } :: fs)

/-- Modelled from the spec: whether the tokens form nested blocks: every token has its
place, and at the end every entry has its value. -/
def checkNesting : List YamlFrame → List YamlToken → Bool
  | frames, [] => frames.all (fun f => f.filled || f.column == 0)
  | frames, t :: ts =>
    match closeFrames t frames with
    | none => false
    | some open' =>
      match placeToken t open' with
      | none => false
      | some next => checkNesting next ts

/-- Modelled from the spec: the function `parser.ParseBytes` of the YAML library, which
is not in the repository: "parses `documentBytes` into a structured syntax tree
retaining source position metadata for every node". The tree is kept as the sequence of
its tokens, which the columns nest; a byte is one character. "If the bytes are not
parseable as the expected structured format, fails with ParseError." -/
def specParseBytes (b : Bytes) : Except Error (List YamlToken) :=
  match scanLines 1 (splitRunes '\n' (b.map Char.ofNat)) with
  | .error err => .error err
  | .ok tokens =>
    if checkNesting [⟨0, false, false⟩] tokens then .ok tokens
    else .error "ParseError: the entries do not nest or an entry has no value"

/-- Modelled from the spec: the state of the reader of a query: between two steps,
inside a name, or inside an index. -/
inductive YamlPathState where
  | start
  | name (cs : List Char)
  | index (n : Option Nat)

/-- Modelled from the spec: the steps of the text of a query after `$`. -/
def pathSteps : YamlPathState → List Char → Except Error (List YamlSelector)
  | .start, [] => .ok []
  | .name cs, [] =>
    if cs = [] then .error "PathError: empty name in the query"
    else .ok [.key (String.mk cs)]
  | .index _, [] => .error "PathError: index without ] in the query"
  | .start, c :: rest =>
    if c = '.' then pathSteps (.name []) rest
    else if c = '[' then pathSteps (.index none) rest
    else .error "PathError: a step of the query starts with . or ["
  | .name cs, c :: rest =>
    if c = '.' ∨ c = '[' then
      if cs = [] then .error "PathError: empty name in the query"
      else
        match pathSteps (if c = '.' then .name [] else .index none) rest with
        | .error err => .error err
        | .ok steps => .ok (.key (String.mk cs) :: steps)
    else if c ∈ [']', '*', '$', '\'', '"', ' '] then
      .error "PathError: name outside the modelled subset"
    else pathSteps (.name (cs ++ [c])) rest
  | .index n, c :: rest =>
    if c = ']' then
      match n with
      | none => .error "PathError: empty index in the query"
      | some i =>
        match pathSteps .start rest with
        | .error err => .error err
        | .ok steps => .ok (.index i :: steps)
    else if c.isDigit then
      pathSteps (.index (some (n.getD 0 * 10 + (c.toNat - '0'.toNat)))) rest
    else .error "PathError: index outside the modelled subset"

/-- Modelled from the spec: the function `yaml.PathString` of the YAML library, which is
not in the repository: the steps of a "root-relative query". -/
def specPathString (q : String) : Except Error (List YamlSelector) :=
  match q.data with
  | '$' :: rest => pathSteps .start rest
  | _ => .error "PathError: not a root-relative query"

/-- Modelled from the spec: the value of the key in front of the tokens, a key of
column `c`: the tokens that follow at a larger column, and the items of a sequence that
starts at column `c` itself. -/
def keyValue (c : Nat) (tokens : List YamlToken) : List YamlToken :=
  tokens.takeWhile (fun t => c < t.column ∨ (t.column = c ∧ t.kind = .dash))

/-- Modelled from the spec: the item of the `-` in front of the tokens, a `-` of column
`c`: the tokens that follow at a larger column. -/
def itemValue (c : Nat) (tokens : List YamlToken) : List YamlToken :=
  tokens.takeWhile (fun t => c < t.column)

/-- Modelled from the spec: the value of the key `name` in the mapping whose keys are at
column `c`. -/
def selectKey (name : String) (c : Nat) : List YamlToken → Option (List YamlToken)
  | [] => none
  | t :: ts =>
    match t.kind with
    | .key n _ => if t.column = c ∧ n = name then some (keyValue c ts) else selectKey name c ts
    | _ => selectKey name c ts

/-- Modelled from the spec: the item `n` of the sequence whose `-` are at column `c`. -/
def selectIndex (c : Nat) : Nat → List YamlToken → Option (List YamlToken)
  | _, [] => none
  | n, t :: ts =>
    if t.column = c ∧ t.kind = .dash then
      match n with
      | 0 => some (itemValue c ts)
      | m + 1 => selectIndex c m ts
    else selectIndex c n ts

/-- Modelled from the spec: "filters/queries the tree using the path": the tokens of the
value that the steps address in the value `block`. A name applies to a mapping (a value
that starts with a key), an index to a sequence (a value that starts with `-`). -/
def filterTokens : List YamlSelector → List YamlToken → Except Error (List YamlToken)
  | [], block => .ok block
  | _ :: _, [] => .error "PathError: the path addresses no node"
  | .key name :: steps, t :: ts =>
    match t.kind with
    | .key _ _ =>
      match selectKey name t.column (t :: ts) with
      | none => .error "PathError: the path addresses no node"
      | some value => filterTokens steps value
    | _ => .error "PathError: a name addresses a mapping"
  | .index n :: steps, t :: ts =>
    match t.kind with
    | .dash =>
      match selectIndex t.column n (t :: ts) with
      | none => .error "PathError: the path addresses no node"
      | some value => filterTokens steps value
    | _ => .error "PathError: an index addresses a sequence"

/-- Modelled from the spec: the method `(*yaml.Path).FilterFile` of the YAML library,
which is not in the repository: "if the path addresses no node, fails with PathError".
The matched node is given by its first token. -/
def specFilterFile (p : List YamlSelector) (doc : List YamlToken) :
    Except Error YamlToken :=
  match filterTokens p doc with
  | .error err => .error err
  | .ok [] => .error "PathError: the path addresses no node"
  | .ok (t :: _) => .ok t

/-- Modelled from the spec: the column of `node.GetToken().Position` of the YAML
library, for the node that starts with the token `t`. A scalar is at its first
character and a sequence at its first `-`. The specification does not say which token
leads a mapping: `colon` takes the `:` of its first entry, otherwise its first key. -/
def leadingColumn (colon : Bool) (t : YamlToken) : Nat :=
  match t.kind with
  | .key _ k => if colon then k else t.column
  | _ => t.column

/-- Modelled from the spec: the environment made of the modelled library, of a file
system given as a list of (file name, text) and of a table of printable runes. "Returns
the 1-based line and column of the matched node's leading token." -/
def specEnv (files : List (String × String)) (tbl : Char → Bool) (colon : Bool) : Env where
  Path := List YamlSelector
  File := List YamlToken
  Node := YamlToken
  ReadFile := fun f =>
    match files.lookup f with
    | some text => .ok (text.data.map Char.toNat)
    | none => .error ("IOError: " ++ f)
  PathString := specPathString
  ParseBytes := specParseBytes
  FilterFile := specFilterFile
  tokenLine := fun t => t.line
  tokenColumn := fun t => leadingColumn colon t
  printTable := tbl

/-- The file system of the example of the specification: `a.yaml` holds
`spec:\n  image: ""`. -/
def exampleFiles : List (String × String) := [("a.yaml", "spec:\n  image: \"\"")]

/-- The bytes of `a.yaml` in `exampleFiles`. -/
def exampleBytes : Bytes := "spec:\n  image: \"\"".data.map Char.toNat

/-- The character of a document at a 1-based line and column. -/
def runeAt (b : Bytes) (position : Position) : Option Char :=
  match (splitRunes '\n' (b.map Char.ofNat)).get? (position.Line.toNat - 1) with
  | none => none
  | some line => line.get? (position.Column.toNat - 1)

/-! ## Lemmas on Go maps -/

theorem mapKeys_mapAppend {κ V : Type} [DecidableEq κ] (m : GoMap κ V) (k : κ) (v : V) :
    mapKeys (mapAppend m k v) = if k ∈ mapKeys m then mapKeys m else mapKeys m ++ [k] := by
  induction m with
  | nil => simp [mapAppend, mapKeys]
  | cons e rest ih =>
    obtain ⟨k', vs⟩ := e
    by_cases h : k' = k
    · subst h; simp [mapAppend, mapKeys]
    · have h' : ¬ k = k' := fun e => h e.symm
      simp only [mapAppend, h, if_false]
      simp only [mapKeys] at ih ⊢
      simp only [List.map_cons, List.mem_cons, h', false_or, ih]
      split <;> simp

theorem nodup_mapKeys_mapAppend {κ V : Type} [DecidableEq κ] (m : GoMap κ V) (k : κ) (v : V)
    (h : (mapKeys m).Nodup) : (mapKeys (mapAppend m k v)).Nodup := by
  rw [mapKeys_mapAppend]
  split
  · exact h
  · rename_i hk
    exact List.Nodup.append h (List.nodup_singleton k) (by simpa using hk)

theorem mapGet_mapAppend {κ V : Type} [DecidableEq κ] (m : GoMap κ V) (k k' : κ) (v : V) :
    mapGet (mapAppend m k v) k' = if k = k' then mapGet m k ++ [v] else mapGet m k' := by
  induction m with
  | nil =>
    by_cases h : k = k' <;> simp [mapAppend, mapGet, h]
  | cons e rest ih =>
    obtain ⟨k₀, vs⟩ := e
    by_cases h0 : k₀ = k
    · subst h0
      by_cases h : k₀ = k' <;> simp [mapAppend, mapGet, h]
    · by_cases h : k = k'
      · subst h
        simp [mapAppend, mapGet, h0, ih]
      · by_cases h1 : k₀ = k'
        · subst h1
          simp [mapAppend, mapGet, h0, h]
        · simp [mapAppend, mapGet, h0, h, h1, ih]

theorem mapAppend_ne_nil {κ V : Type} [DecidableEq κ] (m : GoMap κ V) (k : κ) (v : V) :
    mapAppend m k v ≠ [] := by
  cases m with
  | nil => simp [mapAppend]
  | cons e rest =>
    obtain ⟨k', vs⟩ := e
    by_cases h : k' = k <;> simp [mapAppend, h]


/-! ## Lemmas on the two sorts -/

theorem runesLE_total (a b : List Char) : runesLE a b = true ∨ runesLE b a = true := by
  induction a generalizing b with
  | nil => left; simp [runesLE]
  | cons x xs ih =>
    cases b with
    | nil => right; simp [runesLE]
    | cons y ys =>
      rcases lt_trichotomy x y with h | h | h
      · left; simp [runesLE, h]
      · subst h
        simpa [runesLE] using ih ys
      · right; simp [runesLE, h]

theorem runesLE_trans (a b c : List Char) (hab : runesLE a b = true)
    (hbc : runesLE b c = true) : runesLE a c = true := by
  induction a generalizing b c with
  | nil => simp [runesLE]
  | cons x xs ih =>
    cases b with
    | nil => simp [runesLE] at hab
    | cons y ys =>
      cases c with
      | nil => simp [runesLE] at hbc
      | cons z zs =>
        simp only [runesLE] at hab hbc ⊢
        rcases lt_trichotomy x y with h | h | h
        · rcases lt_trichotomy y z with h' | h' | h'
          · simp [lt_trans h h']
          · subst h'; simp [h]
          · simp [h', lt_asymm h'] at hbc
        · subst h
          rcases lt_trichotomy x z with h' | h' | h'
          · simp [h']
          · subst h'
            simp only [lt_irrefl, if_false] at hab hbc ⊢
            exact ih ys zs hab hbc
          · simp [h', lt_asymm h'] at hbc
        · simp [h, lt_asymm h] at hab

theorem runesLE_antisymm (a b : List Char) (hab : runesLE a b = true)
    (hba : runesLE b a = true) : a = b := by
  induction a generalizing b with
  | nil =>
    cases b with
    | nil => rfl
    | cons y ys => simp [runesLE] at hba
  | cons x xs ih =>
    cases b with
    | nil => simp [runesLE] at hab
    | cons y ys =>
      simp only [runesLE] at hab hba
      rcases lt_trichotomy x y with h | h | h
      · simp [h, lt_asymm h] at hba
      · subst h
        simp only [lt_irrefl, if_false] at hab hba
        rw [ih ys hab hba]
      · simp [h, lt_asymm h] at hab

instance : IsTotal String stringLE := ⟨fun a b => runesLE_total a.data b.data⟩

instance : IsTrans String stringLE := ⟨fun a b c => runesLE_trans a.data b.data c.data⟩

instance : IsAntisymm String stringLE :=
  ⟨fun a b hab hba => String.ext (runesLE_antisymm a.data b.data hab hba)⟩

theorem sortFiles_sorted (l : List String) : (sortFiles l).Sorted stringLE :=
  List.sorted_insertionSort stringLE l

theorem sortFiles_perm (l : List String) : (sortFiles l).Perm l :=
  List.perm_insertionSort stringLE l

theorem sortFiles_congr {l₁ l₂ : List String} (h : l₁.Perm l₂) : sortFiles l₁ = sortFiles l₂ :=
  List.eq_of_perm_of_sorted (((sortFiles_perm l₁).trans h).trans (sortFiles_perm l₂).symm)
    (sortFiles_sorted l₁) (sortFiles_sorted l₂)

theorem comparePosition_le_iff (i j : Position) :
    comparePosition i j ≤ 0 ↔ i.Line < j.Line ∨ (i.Line = j.Line ∧ i.Column ≤ j.Column) := by
  unfold comparePosition cmpOr cmpCompare
  split_ifs <;> constructor <;> intro h <;> omega

instance : IsTotal Position PositionLE :=
  ⟨fun i j => by
    simp only [PositionLE, comparePosition_le_iff]; omega⟩

instance : IsTrans Position PositionLE :=
  ⟨fun i j k => by
    simp only [PositionLE, comparePosition_le_iff]; omega⟩

instance : IsAntisymm Position PositionLE :=
  ⟨fun i j => by
    simp only [PositionLE, comparePosition_le_iff]
    intro h1 h2
    obtain ⟨a, b⟩ := i
    obtain ⟨c, d⟩ := j
    simp only [Position.mk.injEq] at *
    omega⟩

theorem sortPositions_sorted (l : List Position) : (sortPositions l).Sorted PositionLE :=
  List.sorted_insertionSort PositionLE l

theorem sortPositions_perm (l : List Position) : (sortPositions l).Perm l :=
  List.perm_insertionSort PositionLE l

theorem sortPositions_congr {l₁ l₂ : List Position} (h : l₁.Perm l₂) :
    sortPositions l₁ = sortPositions l₂ :=
  List.eq_of_perm_of_sorted
    (((sortPositions_perm l₁).trans h).trans (sortPositions_perm l₂).symm)
    (sortPositions_sorted l₁) (sortPositions_sorted l₂)

/-! ## Lemmas on the collection of causes -/

theorem addCauses_addressable (m : GoMap String StatusCause) (l : List StatusCause) :
    addCauses m (addressable l) = addCauses m l := by
  induction l generalizing m with
  | nil => rfl
  | cons c cs ih =>
    by_cases h : c.Field = nilValue
    · simp [addressable, addCauses, h] at ih ⊢
      exact ih m
    · simp [addressable, addCauses, h] at ih ⊢
      exact ih _

theorem addCauses_append (m : GoMap String StatusCause) (l₁ l₂ : List StatusCause) :
    addCauses m (l₁ ++ l₂) = addCauses (addCauses m l₁) l₂ := by
  induction l₁ generalizing m with
  | nil => rfl
  | cons c cs ih =>
    by_cases h : c.Field = nilValue <;> simp [addCauses, h, ih]

theorem collectCauses_success (m : GoMap String StatusCause) (status : List Status)
    (h : ∃ s ∈ status, s.Status = StatusSuccess) :
    collectCauses m status = .ok none ∨ collectCauses m status = .error .nilDeref := by
  induction status generalizing m with
  | nil => simp at h
  | cons s rest ih =>
    by_cases hs : s.Status = StatusSuccess
    · left; simp [collectCauses, hs]
    · have hrest : ∃ s ∈ rest, s.Status = StatusSuccess := by
        obtain ⟨t, ht, hts⟩ := h
        rcases List.mem_cons.mp ht with rfl | ht
        · exact absurd hts hs
        · exact ⟨t, ht, hts⟩
      cases hd : s.Details with
      | none => right; simp [collectCauses, hs, hd]
      | some d =>
        simp only [collectCauses, hs, hd, if_false]
        exact ih _ hrest

theorem collectCauses_success_details (m : GoMap String StatusCause) (status : List Status)
    (h : ∃ s ∈ status, s.Status = StatusSuccess)
    (hd : ∀ s ∈ status, s.Status ≠ StatusSuccess → s.Details ≠ none) :
    collectCauses m status = .ok none := by
  induction status generalizing m with
  | nil => simp at h
  | cons s rest ih =>
    by_cases hs : s.Status = StatusSuccess
    · simp [collectCauses, hs]
    · have hrest : ∃ s ∈ rest, s.Status = StatusSuccess := by
        obtain ⟨t, ht, hts⟩ := h
        rcases List.mem_cons.mp ht with rfl | ht
        · exact absurd hts hs
        · exact ⟨t, ht, hts⟩
      cases hds : s.Details with
      | none => exact absurd hds (hd s (List.mem_cons_self _ _) hs)
      | some d =>
        simp only [collectCauses, hs, hds, if_false]
        exact ih _ hrest (fun t ht => hd t (List.mem_cons_of_mem _ ht))

theorem collectCauses_failed (m : GoMap String StatusCause) (status : List Status)
    (hf : ∀ s ∈ status, s.Status ≠ StatusSuccess)
    (hd : ∀ s ∈ status, s.Details ≠ none) :
    collectCauses m status = .ok (some (addCauses m (allCauses status))) := by
  induction status generalizing m with
  | nil => rfl
  | cons s rest ih =>
    have hs := hf s (List.mem_cons_self _ _)
    cases hds : s.Details with
    | none => exact absurd hds (hd s (List.mem_cons_self _ _))
    | some d =>
      simp only [collectCauses, hs, hds, if_false]
      rw [ih _ (fun t ht => hf t (List.mem_cons_of_mem _ ht))
        (fun t ht => hd t (List.mem_cons_of_mem _ ht))]
      simp [allCauses, hds, addCauses_append]

theorem fileErrors_success (env : Env) (o : IterOrder) (file : String) (status : List Status)
    (h : ∃ s ∈ status, s.Status = StatusSuccess) :
    fileErrors env o file status = .ok [] ∨ fileErrors env o file status = .error .nilDeref := by
  rcases collectCauses_success [] status h with h | h <;> simp [fileErrors, h]

/-! ## Lemmas on the loop over the files -/

theorem detailsGet_of_mem (details : List (String × List Status)) (file : String)
    (status : List Status) (hnd : (mapKeys details).Nodup) (hmem : (file, status) ∈ details) :
    detailsGet details file = status := by
  induction details with
  | nil => simp at hmem
  | cons e rest ih =>
    obtain ⟨k, v⟩ := e
    simp only [mapKeys, List.map_cons, List.nodup_cons] at hnd
    rcases List.mem_cons.mp hmem with h | h
    · simp only [Prod.mk.injEq] at h
      simp [detailsGet, h.1, h.2]
    · have hk : k ≠ file := by
        rintro rfl
        exact hnd.1 (List.mem_map_of_mem Prod.fst h)
      simp only [detailsGet, hk, if_false]
      exact ih hnd.2 h

theorem filesLoop_eq (env : Env) (o : IterOrder) (details : List (String × List Status))
    (files : List String) (results : List String) :
    filesLoop env o details files results =
      match reportLines env o details files with
      | .error f => .error f
      | .ok lines => .ok (results ++ lines) := by
  induction files generalizing results with
  | nil => simp [filesLoop, reportLines]
  | cons file rest ih =>
    simp only [filesLoop, reportLines]
    cases fileErrors env o file (detailsGet details file) with
    | error f => rfl
    | ok les =>
      simp only [ih]
      cases reportLines env o details rest with
      | error f => rfl
      | ok lines => simp

theorem lintMarshal_eq (env : Env) (o : IterOrder) (details : List (String × List Status)) :
    lintMarshal env o details =
      match reportLines env o details (sortFiles (o.detailsKeys (mapKeys details))) with
      | .error f => .error f
      | .ok lines => .ok (stringsJoin lines "\n") := by
  simp only [lintMarshal, filesLoop_eq]
  cases reportLines env o details (sortFiles (o.detailsKeys (mapKeys details))) with
  | error f => rfl
  | ok lines => simp

theorem detailsGet_filter_ne (details : List (String × List Status)) (file f : String)
    (hf : f ≠ file) :
    detailsGet (details.filter (fun e => e.1 ≠ file)) f = detailsGet details f := by
  induction details with
  | nil => rfl
  | cons e rest ih =>
    obtain ⟨k, v⟩ := e
    by_cases hk : k = file
    · subst hk
      have : ¬ k = f := fun h => hf h.symm
      simp_all [List.filter_cons, detailsGet]
    · by_cases hkf : k = f <;> simp_all [List.filter_cons, detailsGet]

theorem mapKeys_filter_ne (details : List (String × List Status)) (file : String) :
    mapKeys (details.filter (fun e => e.1 ≠ file)) =
      (mapKeys details).filter (fun k => k ≠ file) := by
  induction details with
  | nil => rfl
  | cons e rest ih =>
    obtain ⟨k, v⟩ := e
    simp only [mapKeys] at ih ⊢
    by_cases hk : k = file <;> simp_all [List.filter_cons]

theorem sortFiles_filter_ne (o : IterOrder) (ho : o.Valid) (keys : List String)
    (file : String) :
    sortFiles (o.detailsKeys (keys.filter (fun k => k ≠ file))) =
      (sortFiles (o.detailsKeys keys)).filter (fun k => k ≠ file) := by
  apply List.eq_of_perm_of_sorted (r := stringLE)
  · refine ((sortFiles_perm _).trans (ho.detailsKeys _)).trans ?_
    exact (((sortFiles_perm _).trans (ho.detailsKeys keys)).filter _).symm
  · exact sortFiles_sorted _
  · exact (sortFiles_sorted _).filter _

theorem reportLines_filter_ne (env : Env) (o : IterOrder)
    (details : List (String × List Status)) (file : String)
    (hfile : fileErrors env o file (detailsGet details file) = .ok [])
    (files : List String) :
    reportLines env o (details.filter (fun e => e.1 ≠ file))
        (files.filter (fun k => k ≠ file)) =
      reportLines env o details files := by
  induction files with
  | nil => rfl
  | cons f rest ih =>
    by_cases hf : f = file
    · subst hf
      simp only [ne_eq, not_true_eq_false, decide_False, Bool.false_eq_true,
        not_false_eq_true, List.filter_cons_of_neg]
      simp only [ne_eq] at ih
      rw [ih]
      simp only [reportLines, hfile]
      cases reportLines env o details rest <;> simp
    · simp only [ne_eq, hf, not_false_eq_true, decide_True, List.filter_cons_of_pos]
      simp only [ne_eq] at ih
      simp only [reportLines, ih]
      rw [detailsGet_filter_ne details file f hf]


theorem fmtQuote_plain (tbl : Char → Bool) (s : String)
    (h : ∀ r ∈ s.data, isPrint tbl r = true ∧ r ≠ '"' ∧ r ≠ '\\') :
    fmtQuote tbl s = "\"" ++ s ++ "\"" := by
  have key : ∀ l : List Char, (∀ r ∈ l, isPrint tbl r = true ∧ r ≠ '"' ∧ r ≠ '\\') →
      l.flatMap (appendEscapedRune tbl) = l := by
    intro l
    induction l with
    | nil => intro _; rfl
    | cons r rs ih =>
      intro hl
      have hr := hl r (List.mem_cons_self _ _)
      have := ih (fun x hx => hl x (List.mem_cons_of_mem _ hx))
      simp [List.flatMap_cons, appendEscapedRune, hr.1, hr.2.1, hr.2.2, this]
  apply String.ext
  simp [fmtQuote, key s.data h, String.data_append]

theorem fileErrors_single (env : Env) (o : IterOrder) (ho : o.Valid) (file : String)
    (status : String) (c : StatusCause) (b : Bytes) (position : Position)
    (hstatus : status ≠ StatusSuccess) (hc : c.Field ≠ nilValue)
    (hread : env.ReadFile file = .ok b)
    (hres : resolveCause env b c = .ok position) :
    fileErrors env o file [⟨status, some ⟨[c]⟩⟩] =
      .ok [{ File := file, Line := position.Line, Column := position.Column,
             Message := "field " ++ fmtQuote env.printTable c.Field ++ ": " ++
               renderCause env c }] := by
  have h1 : o.causes file [(c.Type', [c])] = [(c.Type', [c])] :=
    List.perm_singleton.mp (ho.causes _ _)
  have h2 : o.errorsKeys file [position] = [position] :=
    List.perm_singleton.mp (ho.errorsKeys _ _)
  have h3 : o.messages file position [(c.Field, [renderCause env c])] =
      [(c.Field, [renderCause env c])] :=
    List.perm_singleton.mp (ho.messages _ _ _)
  simp [fileErrors, collectCauses, addCauses, hstatus, hc, mapAppend, hread, h1,
    groupCauses, groupItems, hres, mapKeys, h2, sortPositions, positionError, mapGet,
    buildMessages, h3, renderField, stringsJoin]

theorem insertionOrder_valid : insertionOrder.Valid :=
  ⟨fun _ => List.Perm.refl _, fun _ _ => List.Perm.refl _, fun _ _ => List.Perm.refl _,
    fun _ _ _ => List.Perm.refl _⟩

theorem reverseOrder_valid : reverseOrder.Valid :=
  ⟨fun _ => List.reverse_perm _, fun _ _ => List.reverse_perm _,
    fun _ _ => List.reverse_perm _, fun _ _ _ => List.reverse_perm _⟩

/-! ## Lemmas on the grouping by position -/

theorem groupItems_nodup (env : Env) (b : Bytes) (items : List StatusCause)
    (errors errors' : GoMap Position StatusCause)
    (h : groupItems env b errors items = .ok errors') (hnd : (mapKeys errors).Nodup) :
    (mapKeys errors').Nodup := by
  induction items generalizing errors with
  | nil =>
    simp only [groupItems, Except.ok.injEq] at h
    exact h ▸ hnd
  | cons c cs ih =>
    simp only [groupItems] at h
    cases hr : resolveCause env b c with
    | error e => simp [hr] at h
    | ok position =>
      simp only [hr] at h
      exact ih _ h (nodup_mapKeys_mapAppend _ _ _ hnd)

theorem groupCauses_nodup (env : Env) (b : Bytes) (causes : GoMap String StatusCause)
    (errors errors' : GoMap Position StatusCause)
    (h : groupCauses env b errors causes = .ok errors') (hnd : (mapKeys errors).Nodup) :
    (mapKeys errors').Nodup := by
  induction causes generalizing errors with
  | nil =>
    simp only [groupCauses, Except.ok.injEq] at h
    exact h ▸ hnd
  | cons e rest ih =>
    obtain ⟨k, items⟩ := e
    simp only [groupCauses] at h
    cases hg : groupItems env b errors items with
    | error e => simp [hg] at h
    | ok errors₁ =>
      simp only [hg] at h
      exact ih _ h (groupItems_nodup env b items errors errors₁ hg hnd)

theorem before_of_le_of_ne (i j : Position) (hle : PositionLE i j) (hne : i ≠ j) :
    i.before j := by
  obtain ⟨a, b⟩ := i
  obtain ⟨c, d⟩ := j
  simp only [PositionLE, comparePosition_le_iff] at hle
  simp only [ne_eq, Position.mk.injEq] at hne
  simp only [Position.before]
  omega

theorem sortPositions_strict (l : List Position) (hnd : l.Nodup) :
    (sortPositions l).Pairwise Position.before := by
  have h1 : (sortPositions l).Pairwise PositionLE := sortPositions_sorted l
  have h2 : (sortPositions l).Pairwise (fun a b => a ≠ b) :=
    ((sortPositions_perm l).nodup_iff).mpr hnd
  exact (h1.and h2).imp (fun h => before_of_le_of_ne _ _ h.1 h.2)

/-- The shape of a result of `fileErrors` that holds lines. -/
theorem fileErrors_ok_cases (env : Env) (o : IterOrder) (file : String)
    (status : List Status) (les : List LintError)
    (h : fileErrors env o file status = .ok les) :
    les = [] ∨ ∃ causes b errors, collectCauses [] status = .ok (some causes) ∧
      causes ≠ [] ∧ env.ReadFile file = .ok b ∧
      groupCauses env b [] (o.causes file causes) = .ok errors ∧
      les = (sortPositions (o.errorsKeys file (mapKeys errors))).map
        (positionError env o file errors) := by
  unfold fileErrors at h
  cases hc : collectCauses [] status with
  | error f => simp [hc] at h
  | ok r =>
    cases r with
    | none => simp [hc] at h; exact Or.inl h
    | some causes =>
      simp only [hc] at h
      by_cases hl : causes.length = 0
      · simp [hl] at h; exact Or.inl h
      · simp only [hl, if_false] at h
        cases hr : env.ReadFile file with
        | error e => simp [hr] at h
        | ok b =>
          simp only [hr] at h
          cases hg : groupCauses env b [] (o.causes file causes) with
          | error e => simp [hg] at h
          | ok errors =>
            simp only [hg, Except.ok.injEq] at h
            exact Or.inr ⟨causes, b, errors, rfl, by
              intro hnil; exact hl (by simp [hnil]), rfl, hg, h.symm⟩


theorem perm_pair {α : Type} {l : List α} {a b : α} (h : l.Perm [a, b]) :
    l = [a, b] ∨ l = [b, a] := by
  have hlen : l.length = 2 := by simpa using h.length_eq
  match l, hlen with
  | [x, y], _ =>
    have hx : x ∈ [a, b] := h.subset (List.mem_cons_self _ _)
    simp only [List.mem_cons, List.mem_singleton, List.not_mem_nil, or_false] at hx
    rcases hx with rfl | rfl
    · have := (List.perm_cons x).mp h
      rw [List.perm_singleton.mp this]
      exact Or.inl rfl
    · have h' : [x, y].Perm [x, a] := h.trans (List.Perm.swap _ _ _)
      have := (List.perm_cons x).mp h'
      rw [List.perm_singleton.mp this]
      exact Or.inr rfl

theorem fileErrors_of_grouped (env : Env) (o : IterOrder) (file : String)
    (status : List Status) (causes : GoMap String StatusCause) (b : Bytes)
    (errors : GoMap Position StatusCause)
    (hc : collectCauses [] status = .ok (some causes)) (hne : causes ≠ [])
    (hread : env.ReadFile file = .ok b)
    (hg : groupCauses env b [] (o.causes file causes) = .ok errors) :
    fileErrors env o file status =
      .ok ((sortPositions (o.errorsKeys file (mapKeys errors))).map
        (positionError env o file errors)) := by
  have hl : ¬ causes.length = 0 := by
    intro h; exact hne (List.length_eq_zero.mp h)
  simp [fileErrors, hc, hl, hread, hg]

theorem positionError_pair (env : Env) (o : IterOrder) (ho : o.Valid) (file : String)
    (position : Position) (x y : StatusCause) (hne : x.Field ≠ y.Field) :
    (positionError env o file [(position, [x, y])] position).Message =
        "field " ++ fmtQuote env.printTable x.Field ++ ": " ++ renderCause env x ++ ", " ++
          ("field " ++ fmtQuote env.printTable y.Field ++ ": " ++ renderCause env y) ∨
      (positionError env o file [(position, [x, y])] position).Message =
        "field " ++ fmtQuote env.printTable y.Field ++ ": " ++ renderCause env y ++ ", " ++
          ("field " ++ fmtQuote env.printTable x.Field ++ ": " ++ renderCause env x) := by
  have hm : buildMessages env [] [x, y] =
      [(x.Field, [renderCause env x]), (y.Field, [renderCause env y])] := by
    simp [buildMessages, mapAppend, hne]
  have hp := ho.messages file position (buildMessages env [] [x, y])
  rw [hm] at hp
  rcases perm_pair hp with h | h
  · left
    simp [positionError, mapGet, hm, h, renderField, stringsJoin]
  · right
    simp [positionError, mapGet, hm, h, renderField, stringsJoin]


/-! ## Lemmas on the sentinel field -/

theorem mapKeys_dropSentinel (details : List (String × List Status)) :
    mapKeys (dropSentinel details) = mapKeys details := by
  simp [mapKeys, dropSentinel, List.map_map, Function.comp_def]

theorem detailsGet_dropSentinel (details : List (String × List Status)) (file : String) :
    detailsGet (dropSentinel details) file =
      (detailsGet details file).map (fun s =>
        { s with Details := s.Details.map (fun d => { Causes := addressable d.Causes }) }) := by
  induction details with
  | nil => rfl
  | cons e rest ih =>
    obtain ⟨k, v⟩ := e
    simp only [dropSentinel, List.map_cons] at ih ⊢
    by_cases hk : k = file <;> simp [detailsGet, hk, ih]

theorem collectCauses_dropSentinel (m : GoMap String StatusCause) (status : List Status) :
    collectCauses m (status.map (fun s =>
        { s with Details := s.Details.map (fun d => { Causes := addressable d.Causes }) })) =
      collectCauses m status := by
  induction status generalizing m with
  | nil => rfl
  | cons s rest ih =>
    simp only [List.map_cons, collectCauses]
    by_cases hs : s.Status = StatusSuccess
    · simp [hs]
    · simp only [hs, if_false]
      cases hd : s.Details with
      | none => simp
      | some d => simp [addCauses_addressable, ih]

theorem fileErrors_dropSentinel (env : Env) (o : IterOrder) (file : String)
    (status : List Status) :
    fileErrors env o file (status.map (fun s =>
        { s with Details := s.Details.map (fun d => { Causes := addressable d.Causes }) })) =
      fileErrors env o file status := by
  simp only [fileErrors, collectCauses_dropSentinel]

theorem reportLines_dropSentinel (env : Env) (o : IterOrder)
    (details : List (String × List Status)) (files : List String) :
    reportLines env o (dropSentinel details) files = reportLines env o details files := by
  induction files with
  | nil => rfl
  | cons f rest ih =>
    simp only [reportLines, ih, detailsGet_dropSentinel, fileErrors_dropSentinel]

theorem addCauses_fields (m : GoMap String StatusCause) (l : List StatusCause)
    (hm : ∀ e ∈ m, ∀ c ∈ e.2, c.Field ≠ nilValue) :
    ∀ e ∈ addCauses m l, ∀ c ∈ e.2, c.Field ≠ nilValue := by
  induction l generalizing m with
  | nil => exact hm
  | cons c cs ih =>
    by_cases h : c.Field = nilValue
    · simp only [addCauses, h, if_true]
      exact ih m hm
    · simp only [addCauses, h, if_false]
      apply ih
      clear ih
      induction m with
      | nil =>
        intro e he c' hc'
        simp only [mapAppend, List.mem_singleton] at he
        subst he
        simp only [List.mem_singleton] at hc'
        subst hc'
        exact h
      | cons e' rest ihm =>
        obtain ⟨k', vs⟩ := e'
        intro e he c' hc'
        by_cases hk : k' = c.Type'
        · simp only [mapAppend, hk, if_true, List.mem_cons] at he
          rcases he with rfl | he
          · simp only [List.mem_append, List.mem_singleton] at hc'
            rcases hc' with hc' | rfl
            · exact hm (k', vs) (List.mem_cons_self _ _) c' hc'
            · exact h
          · exact hm e (List.mem_cons_of_mem _ he) c' hc'
        · simp only [mapAppend, hk, if_false, List.mem_cons] at he
          rcases he with rfl | he
          · exact hm (k', vs) (List.mem_cons_self _ _) c' hc'
          · exact ihm (fun e he => hm e (List.mem_cons_of_mem _ he)) e he c' hc'

theorem collectCauses_fields (m causes : GoMap String StatusCause) (status : List Status)
    (hm : ∀ e ∈ m, ∀ c ∈ e.2, c.Field ≠ nilValue)
    (h : collectCauses m status = .ok (some causes)) :
    ∀ e ∈ causes, ∀ c ∈ e.2, c.Field ≠ nilValue := by
  induction status generalizing m with
  | nil =>
    simp only [collectCauses, Except.ok.injEq, Option.some.injEq] at h
    exact h ▸ hm
  | cons s rest ih =>
    simp only [collectCauses] at h
    by_cases hs : s.Status = StatusSuccess
    · simp [hs] at h
    · simp only [hs, if_false] at h
      cases hd : s.Details with
      | none => simp [hd] at h
      | some d =>
        simp only [hd] at h
        exact ih _ (addCauses_fields m d.Causes hm) h

theorem string_append_right_inj (p a b : String) (h : p ++ a = p ++ b) : a = b := by
  apply String.ext
  have := congrArg String.data h
  simpa [String.data_append] using this

theorem getPosition_setPathString (env : Env) (q : String) (r : Except Error env.Path)
    (p : env.Path) (b : Bytes) :
    getPosition (env.setPathString q r) p b = getPosition env p b := by
  unfold getPosition
  cases h : env.ParseBytes b with
  | error e =>
    have : (env.setPathString q r).ParseBytes b = .error e := h
    simp only [this]
  | ok f =>
    have : (env.setPathString q r).ParseBytes b = .ok f := h
    simp only [this]
    cases h2 : env.FilterFile p f with
    | error e =>
      have : (env.setPathString q r).FilterFile p f = .error e := h2
      simp only [this]
    | ok n =>
      have : (env.setPathString q r).FilterFile p f = .ok n := h2
      simp only [this]
      rfl

theorem buildMessages_setPathString (env : Env) (q : String) (r : Except Error env.Path)
    (m : GoMap String String) (l : List StatusCause) :
    buildMessages (env.setPathString q r) m l = buildMessages env m l := by
  induction l generalizing m with
  | nil => rfl
  | cons c cs ih =>
    simp only [buildMessages, ih]
    rfl

theorem positionError_setPathString (env : Env) (o : IterOrder) (q : String)
    (r : Except Error env.Path) (file : String) (errors : GoMap Position StatusCause) :
    positionError (env.setPathString q r) o file errors = positionError env o file errors := by
  funext position
  have hrf : renderField (env.setPathString q r) = renderField env := rfl
  simp only [positionError, buildMessages_setPathString, hrf]

theorem resolveCause_setPathString (env : Env) (r : Except Error env.Path) (b : Bytes)
    (c : StatusCause) (hc : c.Field ≠ nilValue) :
    resolveCause (env.setPathString ("$." ++ nilValue) r) b c = resolveCause env b c := by
  have hq : ¬ "$." ++ c.Field = "$." ++ nilValue :=
    fun h => hc (string_append_right_inj _ _ _ h)
  unfold resolveCause
  cases h : env.PathString ("$." ++ c.Field) with
  | error e =>
    have : (env.setPathString ("$." ++ nilValue) r).PathString ("$." ++ c.Field) =
        .error e := by
      simp only [Env.setPathString, hq, if_false]; exact h
    simp only [this]
  | ok path =>
    have : (env.setPathString ("$." ++ nilValue) r).PathString ("$." ++ c.Field) =
        .ok path := by
      simp only [Env.setPathString, hq, if_false]; exact h
    simp only [this]
    exact getPosition_setPathString env _ r path b

theorem groupItems_setPathString (env : Env) (r : Except Error env.Path) (b : Bytes)
    (items : List StatusCause) (errors : GoMap Position StatusCause)
    (hi : ∀ c ∈ items, c.Field ≠ nilValue) :
    groupItems (env.setPathString ("$." ++ nilValue) r) b errors items =
      groupItems env b errors items := by
  induction items generalizing errors with
  | nil => rfl
  | cons c cs ih =>
    simp only [groupItems,
      resolveCause_setPathString env r b c (hi c (List.mem_cons_self _ _))]
    cases resolveCause env b c with
    | error e => rfl
    | ok position => exact ih _ (fun c' hc' => hi c' (List.mem_cons_of_mem _ hc'))

theorem groupCauses_setPathString (env : Env) (r : Except Error env.Path) (b : Bytes)
    (causes : GoMap String StatusCause) (errors : GoMap Position StatusCause)
    (hi : ∀ e ∈ causes, ∀ c ∈ e.2, c.Field ≠ nilValue) :
    groupCauses (env.setPathString ("$." ++ nilValue) r) b errors causes =
      groupCauses env b errors causes := by
  induction causes generalizing errors with
  | nil => rfl
  | cons e rest ih =>
    obtain ⟨k, items⟩ := e
    simp only [groupCauses,
      groupItems_setPathString env r b items errors (hi (k, items) (List.mem_cons_self _ _))]
    cases groupItems env b errors items with
    | error e => rfl
    | ok errors' => exact ih _ (fun e he => hi e (List.mem_cons_of_mem _ he))

theorem fileErrors_setPathString (env : Env) (o : IterOrder) (ho : o.Valid)
    (r : Except Error env.Path) (file : String) (status : List Status) :
    fileErrors (env.setPathString ("$." ++ nilValue) r) o file status =
      fileErrors env o file status := by
  unfold fileErrors
  cases hc : collectCauses [] status with
  | error f => rfl
  | ok res =>
    cases res with
    | none => rfl
    | some causes =>
      have hfields := collectCauses_fields [] causes status (by simp) hc
      have hvis : ∀ e ∈ o.causes file causes, ∀ c ∈ e.2, c.Field ≠ nilValue :=
        fun e he => hfields e ((ho.causes file causes).subset he)
      simp only []
      split
      · rfl
      · have hread : (env.setPathString ("$." ++ nilValue) r).ReadFile file =
            env.ReadFile file := rfl
        rw [hread]
        cases env.ReadFile file with
        | error e => rfl
        | ok b =>
          simp only [groupCauses_setPathString env r b _ [] hvis,
            positionError_setPathString]

theorem reportLines_setPathString (env : Env) (o : IterOrder) (ho : o.Valid)
    (r : Except Error env.Path) (details : List (String × List Status))
    (files : List String) :
    reportLines (env.setPathString ("$." ++ nilValue) r) o details files =
      reportLines env o details files := by
  induction files with
  | nil => rfl
  | cons f rest ih =>
    simp only [reportLines, ih, fileErrors_setPathString env o ho r]


/-! ## Lemmas on failures -/

theorem addCauses_ne_nil (m : GoMap String StatusCause) (l : List StatusCause)
    (h : m ≠ [] ∨ addressable l ≠ []) : addCauses m l ≠ [] := by
  induction l generalizing m with
  | nil =>
    rcases h with h | h
    · exact h
    · simp [addressable] at h
  | cons c cs ih =>
    by_cases hc : c.Field = nilValue
    · simp only [addCauses, hc, if_true]
      apply ih
      rcases h with h | h
      · exact Or.inl h
      · right
        simpa [addressable, hc] using h
    · simp only [addCauses, hc, if_false]
      exact ih _ (Or.inl (mapAppend_ne_nil _ _ _))

theorem fileErrors_unreadable (env : Env) (o : IterOrder) (file : String)
    (status : List Status) (e : Error)
    (hf : ∀ s ∈ status, s.Status ≠ StatusSuccess) (hd : ∀ s ∈ status, s.Details ≠ none)
    (hc : addressable (allCauses status) ≠ []) (hread : env.ReadFile file = .error e) :
    fileErrors env o file status = .error (.err e) := by
  have hne : addCauses [] (allCauses status) ≠ [] := addCauses_ne_nil _ _ (Or.inr hc)
  have hl : ¬ (addCauses [] (allCauses status)).length = 0 :=
    fun h => hne (List.length_eq_zero.mp h)
  simp [fileErrors, collectCauses_failed [] status hf hd, hl, hread]

theorem reportLines_first_error (env : Env) (o : IterOrder)
    (details : List (String × List Status)) (pre : List String) (file : String)
    (post : List String) (x : Failure)
    (hpre : ∀ f ∈ pre, ∃ les, fileErrors env o f (detailsGet details f) = .ok les)
    (hfail : fileErrors env o file (detailsGet details file) = .error x) :
    reportLines env o details (pre ++ file :: post) = .error x := by
  induction pre with
  | nil => simp [reportLines, hfail]
  | cons f rest ih =>
    obtain ⟨les, hles⟩ := hpre f (List.mem_cons_self _ _)
    have := ih (fun g hg => hpre g (List.mem_cons_of_mem _ hg))
    rw [List.cons_append]
    simp only [reportLines, hles, this]

theorem reportLines_ok_all (env : Env) (o : IterOrder)
    (details : List (String × List Status)) (files : List String) (lines : List String)
    (h : reportLines env o details files = .ok lines) :
    ∀ f ∈ files, ∃ les, fileErrors env o f (detailsGet details f) = .ok les := by
  induction files generalizing lines with
  | nil => intro f hf; simp at hf
  | cons g rest ih =>
    simp only [reportLines] at h
    cases hg : fileErrors env o g (detailsGet details g) with
    | error x => simp [hg] at h
    | ok les =>
      simp only [hg] at h
      cases hr : reportLines env o details rest with
      | error x => simp [hr] at h
      | ok lines' =>
        intro f hf
        rcases List.mem_cons.mp hf with rfl | hf
        · exact ⟨les, hg⟩
        · exact ih lines' hr f hf

theorem lintMarshal_ok_all (env : Env) (o : IterOrder)
    (details : List (String × List Status)) (out : String)
    (h : lintMarshal env o details = .ok out) :
    ∀ f ∈ sortFiles (o.detailsKeys (mapKeys details)),
      ∃ les, fileErrors env o f (detailsGet details f) = .ok les := by
  rw [lintMarshal_eq] at h
  cases hr : reportLines env o details (sortFiles (o.detailsKeys (mapKeys details))) with
  | error x => simp [hr] at h
  | ok lines => exact reportLines_ok_all env o details _ lines hr

theorem lintMarshal_first_error (env : Env) (o : IterOrder)
    (details : List (String × List Status)) (pre : List String) (file : String)
    (post : List String) (x : Failure)
    (hfiles : sortFiles (o.detailsKeys (mapKeys details)) = pre ++ file :: post)
    (hpre : ∀ f ∈ pre, ∃ les, fileErrors env o f (detailsGet details f) = .ok les)
    (hfail : fileErrors env o file (detailsGet details file) = .error x) :
    lintMarshal env o details = .error x := by
  rw [lintMarshal_eq, hfiles, reportLines_first_error env o details pre file post x hpre hfail]

theorem mem_sortFiles (o : IterOrder) (ho : o.Valid) (keys : List String) (f : String) :
    f ∈ sortFiles (o.detailsKeys keys) ↔ f ∈ keys :=
  ((sortFiles_perm _).trans (ho.detailsKeys keys)).mem_iff


theorem groupItems_append (env : Env) (b : Bytes) (errors : GoMap Position StatusCause)
    (l₁ l₂ : List StatusCause) :
    groupItems env b errors (l₁ ++ l₂) =
      match groupItems env b errors l₁ with
      | .error err => .error err
      | .ok errors' => groupItems env b errors' l₂ := by
  induction l₁ generalizing errors with
  | nil => rfl
  | cons c cs ih =>
    simp only [List.cons_append, groupItems]
    cases resolveCause env b c with
    | error err => rfl
    | ok position => exact ih _

theorem groupCauses_eq_groupItems (env : Env) (b : Bytes)
    (errors : GoMap Position StatusCause) (causes : GoMap String StatusCause) :
    groupCauses env b errors causes = groupItems env b errors (causes.flatMap Prod.snd) := by
  induction causes generalizing errors with
  | nil => rfl
  | cons e rest ih =>
    obtain ⟨k, items⟩ := e
    simp only [groupCauses, List.flatMap_cons, groupItems_append]
    cases groupItems env b errors items with
    | error err => rfl
    | ok errors' => exact ih _

theorem groupItems_first_error (env : Env) (b : Bytes)
    (errors : GoMap Position StatusCause) (ipre : List StatusCause) (c : StatusCause)
    (ipost : List StatusCause) (e : Error)
    (hpre : ∀ c' ∈ ipre, ∃ p, resolveCause env b c' = .ok p)
    (hc : resolveCause env b c = .error e) :
    groupItems env b errors (ipre ++ c :: ipost) = .error e := by
  induction ipre generalizing errors with
  | nil => simp [groupItems, hc]
  | cons c' rest ih =>
    obtain ⟨p, hp⟩ := hpre c' (List.mem_cons_self _ _)
    rw [List.cons_append]
    simp only [groupItems, hp]
    exact ih _ (fun c'' hc'' => hpre c'' (List.mem_cons_of_mem _ hc''))

theorem resolveCause_error_iff (env : Env) (b : Bytes) (c : StatusCause) (e : Error) :
    resolveCause env b c = .error e ↔
      (env.PathString ("$." ++ c.Field) = .error e ∨
        ∃ path, env.PathString ("$." ++ c.Field) = .ok path ∧
          (env.ParseBytes b = .error e ∨
            ∃ doc, env.ParseBytes b = .ok doc ∧ env.FilterFile path doc = .error e)) := by
  unfold resolveCause
  cases hp : env.PathString ("$." ++ c.Field) with
  | error e' => simp
  | ok path =>
    simp only [getPosition, false_or, Except.ok.injEq, exists_eq_left', reduceCtorEq]
    cases hb : env.ParseBytes b with
    | error e' => simp
    | ok doc =>
      simp only [false_or, Except.ok.injEq, exists_eq_left', reduceCtorEq]
      cases hf : env.FilterFile path doc with
      | error e' => simp
      | ok node => simp


/-! ## Lemmas on the assembled report -/

theorem reportLines_ok_eq (env : Env) (o : IterOrder)
    (details : List (String × List Status)) (files : List String) (lines : List String)
    (h : reportLines env o details files = .ok lines) :
    lines = (files.flatMap (emitted env o details)).map LintError.String := by
  induction files generalizing lines with
  | nil =>
    simp only [reportLines, Except.ok.injEq] at h
    simp [← h]
  | cons g rest ih =>
    simp only [reportLines] at h
    cases hg : fileErrors env o g (detailsGet details g) with
    | error x => simp [hg] at h
    | ok les =>
      simp only [hg] at h
      cases hr : reportLines env o details rest with
      | error x => simp [hr] at h
      | ok lines' =>
        simp only [hr, Except.ok.injEq] at h
        rw [← h, ih lines' hr]
        simp [emitted, hg]

theorem lintMarshal_ok_eq (env : Env) (o : IterOrder) (ho : o.Valid)
    (details : List (String × List Status)) (out : String)
    (h : lintMarshal env o details = .ok out) :
    out = stringsJoin (((sortFiles (mapKeys details)).flatMap
      (emitted env o details)).map LintError.String) "\n" := by
  rw [lintMarshal_eq, sortFiles_congr (ho.detailsKeys (mapKeys details))] at h
  cases hr : reportLines env o details (sortFiles (mapKeys details)) with
  | error x => simp [hr] at h
  | ok lines =>
    simp only [hr, Except.ok.injEq] at h
    rw [← h, reportLines_ok_eq env o details _ lines hr]

theorem emitted_file (env : Env) (o : IterOrder) (details : List (String × List Status))
    (file : String) : ∀ le ∈ emitted env o details file, le.File = file := by
  intro le hle
  unfold emitted at hle
  cases h : fileErrors env o file (detailsGet details file) with
  | error x => simp [h] at hle
  | ok les =>
    simp only [h] at hle
    rcases fileErrors_ok_cases env o file _ les h with h0 | ⟨_, _, errors, _, _, _, _, hles⟩
    · subst h0; simp at hle
    · rw [hles] at hle
      obtain ⟨p, _, rfl⟩ := List.mem_map.mp hle
      rfl

theorem sortFiles_strict (keys : List String) (hnd : keys.Nodup) :
    (sortFiles keys).Pairwise stringLT := by
  have h1 : (sortFiles keys).Pairwise stringLE := sortFiles_sorted keys
  have h2 : (sortFiles keys).Pairwise (fun a b => a ≠ b) :=
    ((sortFiles_perm keys).nodup_iff).mpr hnd
  exact (h1.and h2).imp (fun h => h)


/-! ## Lemmas on newlines -/

theorem splitRunes_of_not_mem (sep : Char) (l : List Char) (h : sep ∉ l) :
    splitRunes sep l = [l] := by
  induction l with
  | nil => rfl
  | cons c cs ih =>
    have hc : ¬ c = sep := fun e => h (e ▸ List.mem_cons_self _ _)
    have := ih (fun hm => h (List.mem_cons_of_mem _ hm))
    simp [splitRunes, hc, this]

theorem splitRunes_append_sep (sep : Char) (l rest : List Char) (h : sep ∉ l) :
    splitRunes sep (l ++ sep :: rest) = l :: splitRunes sep rest := by
  induction l with
  | nil => simp [splitRunes]
  | cons c cs ih =>
    have hc : ¬ c = sep := fun e => h (e ▸ List.mem_cons_self _ _)
    have := ih (fun hm => h (List.mem_cons_of_mem _ hm))
    simp [splitRunes, hc, this]

theorem stringsJoin_cons_cons (a b : String) (rest : List String) (sep : String) :
    stringsJoin (a :: b :: rest) sep = a ++ sep ++ stringsJoin (b :: rest) sep := rfl

theorem stringsSplit_stringsJoin (lines : List String) (hne : lines ≠ [])
    (h : ∀ l ∈ lines, NoNewline l) :
    stringsSplit (stringsJoin lines "\n") '\n' = lines := by
  induction lines with
  | nil => exact absurd rfl hne
  | cons a rest ih =>
    cases rest with
    | nil =>
      have ha := h a (List.mem_cons_self _ _)
      simp [stringsSplit, stringsJoin, splitRunes_of_not_mem '\n' a.data ha]
    | cons b rest' =>
      have ha := h a (List.mem_cons_self _ _)
      have ih' := ih (by simp) (fun l hl => h l (List.mem_cons_of_mem _ hl))
      have hdata : (stringsJoin (a :: b :: rest') "\n").data =
          a.data ++ '\n' :: (stringsJoin (b :: rest') "\n").data := by
        rw [stringsJoin_cons_cons]
        simp [String.data_append]
      unfold stringsSplit at ih' ⊢
      rw [hdata, splitRunes_append_sep '\n' a.data _ ha]
      simp [ih']

theorem noNewline_append (a b : String) : NoNewline (a ++ b) ↔ NoNewline a ∧ NoNewline b := by
  simp [NoNewline, String.data_append, not_or]

theorem digitChar_ne_newline (d : Nat) : Nat.digitChar d ≠ '\n' := by
  by_cases h : d < 16
  · interval_cases d <;> decide
  · have hstar : Nat.digitChar d = '*' := by
      unfold Nat.digitChar
      iterate 16 rw [if_neg (by omega)]
    rw [hstar]
    decide

theorem toDigitsCore_no_newline (fuel n : Nat) (ds : List Char) (h : '\n' ∉ ds) :
    '\n' ∉ Nat.toDigitsCore 10 fuel n ds := by
  induction fuel generalizing n ds with
  | zero => simpa [Nat.toDigitsCore] using h
  | succ k ih =>
    simp only [Nat.toDigitsCore]
    have hcons : '\n' ∉ Nat.digitChar (n % 10) :: ds := by
      intro hm
      rcases List.mem_cons.mp hm with hm | hm
      · exact digitChar_ne_newline _ hm.symm
      · exact h hm
    split
    · exact hcons
    · exact ih _ _ hcons

theorem noNewline_fmtInt (n : Int) : NoNewline (fmtInt n) := by
  unfold fmtInt
  split
  · rw [noNewline_append]
    refine ⟨by decide, ?_⟩
    exact toDigitsCore_no_newline _ _ [] (by simp)
  · exact toDigitsCore_no_newline _ _ [] (by simp)

theorem hexDigits_no_newline (w r : Nat) : '\n' ∉ hexDigits w r := by
  induction w with
  | zero => simp [hexDigits]
  | succ k ih =>
    simp only [hexDigits, List.mem_cons, not_or]
    exact ⟨fun h => digitChar_ne_newline _ h.symm, ih⟩

theorem appendEscapedRune_no_newline (tbl : Char → Bool) (r : Char) :
    '\n' ∉ appendEscapedRune tbl r := by
  have hx := hexDigits_no_newline
  have hesc : ∀ c : Char, c ≠ '\n' → '\n' ∉ ['\\', c] := by
    intro c hc hm
    simp only [List.mem_cons, List.mem_singleton, List.not_mem_nil, or_false] at hm
    rcases hm with hm | hm
    · exact absurd hm (by decide)
    · exact hc hm.symm
  have hhex : ∀ (c : Char) (w n : Nat), c ≠ '\n' → '\n' ∉ '\\' :: c :: hexDigits w n := by
    intro c w n hc hm
    simp only [List.mem_cons] at hm
    rcases hm with hm | hm | hm
    · exact absurd hm (by decide)
    · exact hc hm.symm
    · exact hx w n hm
  unfold appendEscapedRune
  by_cases h1 : r = '"' ∨ r = '\\'
  · rw [if_pos h1]
    rcases h1 with rfl | rfl
    · exact hesc _ (by decide)
    · exact hesc _ (by decide)
  rw [if_neg h1]
  by_cases h2 : isPrint tbl r = true
  · rw [if_pos h2]
    intro hm
    rw [List.mem_singleton] at hm
    subst hm
    have hf : isPrint tbl '\n' = false := rfl
    rw [hf] at h2
    cases h2
  rw [if_neg h2]
  by_cases h3 : r.toNat = 7
  · rw [if_pos h3]; exact hesc _ (by decide)
  rw [if_neg h3]
  by_cases h4 : r.toNat = 8
  · rw [if_pos h4]; exact hesc _ (by decide)
  rw [if_neg h4]
  by_cases h5 : r.toNat = 12
  · rw [if_pos h5]; exact hesc _ (by decide)
  rw [if_neg h5]
  by_cases h6 : r.toNat = 10
  · rw [if_pos h6]; exact hesc _ (by decide)
  rw [if_neg h6]
  by_cases h7 : r.toNat = 13
  · rw [if_pos h7]; exact hesc _ (by decide)
  rw [if_neg h7]
  by_cases h8 : r.toNat = 9
  · rw [if_pos h8]; exact hesc _ (by decide)
  rw [if_neg h8]
  by_cases h9 : r.toNat = 11
  · rw [if_pos h9]; exact hesc _ (by decide)
  rw [if_neg h9]
  by_cases h10 : r.toNat < 0x20 ∨ r.toNat = 0x7F
  · rw [if_pos h10]; exact hhex _ _ _ (by decide)
  rw [if_neg h10]
  by_cases h11 : r.toNat < 0x10000
  · rw [if_pos h11]; exact hhex _ _ _ (by decide)
  rw [if_neg h11]
  exact hhex _ _ _ (by decide)

theorem noNewline_fmtQuote (tbl : Char → Bool) (s : String) : NoNewline (fmtQuote tbl s) := by
  simp only [NoNewline, fmtQuote, List.mem_cons, List.mem_append, List.mem_flatMap,
    List.mem_singleton, not_or, not_exists, not_and]
  refine ⟨by decide, fun r _ => appendEscapedRune_no_newline tbl r, ?_⟩
  simp

theorem noNewline_stringsJoin (l : List String) (sep : String) (hsep : NoNewline sep)
    (h : ∀ s ∈ l, NoNewline s) : NoNewline (stringsJoin l sep) := by
  induction l with
  | nil => simp [stringsJoin, NoNewline]
  | cons a rest ih =>
    cases rest with
    | nil => simpa [stringsJoin] using h a (List.mem_cons_self _ _)
    | cons b rest' =>
      rw [stringsJoin_cons_cons, noNewline_append, noNewline_append]
      exact ⟨⟨h a (List.mem_cons_self _ _), hsep⟩,
        ih (fun s hs => h s (List.mem_cons_of_mem _ hs))⟩

/-! ## Lemmas that follow the causes through the maps -/

theorem mapAppend_forall {κ V : Type} [DecidableEq κ] (P : V → Prop) (m : GoMap κ V)
    (k : κ) (v : V) (hm : ∀ e ∈ m, ∀ x ∈ e.2, P x) (hv : P v) :
    ∀ e ∈ mapAppend m k v, ∀ x ∈ e.2, P x := by
  induction m with
  | nil =>
    intro e he x hx
    simp only [mapAppend, List.mem_singleton] at he
    subst he
    simp only [List.mem_singleton] at hx
    exact hx ▸ hv
  | cons e' rest ih =>
    obtain ⟨k', vs⟩ := e'
    intro e he x hx
    by_cases hk : k' = k
    · simp only [mapAppend, hk, if_true, List.mem_cons] at he
      rcases he with rfl | he
      · simp only [List.mem_append, List.mem_singleton] at hx
        rcases hx with hx | rfl
        · exact hm (k', vs) (List.mem_cons_self _ _) x hx
        · exact hv
      · exact hm e (List.mem_cons_of_mem _ he) x hx
    · simp only [mapAppend, hk, if_false, List.mem_cons] at he
      rcases he with rfl | he
      · exact hm (k', vs) (List.mem_cons_self _ _) x hx
      · exact ih (fun e he => hm e (List.mem_cons_of_mem _ he)) e he x hx

theorem mapGet_mem {κ V : Type} [DecidableEq κ] (m : GoMap κ V) (k : κ) (x : V)
    (h : x ∈ mapGet m k) : ∃ e ∈ m, x ∈ e.2 := by
  induction m with
  | nil => simp [mapGet] at h
  | cons e' rest ih =>
    obtain ⟨k', vs⟩ := e'
    by_cases hk : k' = k
    · simp only [mapGet, hk, if_true] at h
      exact ⟨(k', vs), List.mem_cons_self _ _, h⟩
    · simp only [mapGet, hk, if_false] at h
      obtain ⟨e, he, hx⟩ := ih h
      exact ⟨e, List.mem_cons_of_mem _ he, hx⟩

theorem addCauses_forall (P : StatusCause → Prop) (m : GoMap String StatusCause)
    (l : List StatusCause) (hm : ∀ e ∈ m, ∀ c ∈ e.2, P c) (hl : ∀ c ∈ l, P c) :
    ∀ e ∈ addCauses m l, ∀ c ∈ e.2, P c := by
  induction l generalizing m with
  | nil => exact hm
  | cons c cs ih =>
    have hcs : ∀ c' ∈ cs, P c' := fun c' hc' => hl c' (List.mem_cons_of_mem _ hc')
    by_cases h : c.Field = nilValue
    · simp only [addCauses, h, if_true]
      exact ih m hm hcs
    · simp only [addCauses, h, if_false]
      exact ih _ (mapAppend_forall P m _ c hm (hl c (List.mem_cons_self _ _))) hcs

theorem collectCauses_forall (P : StatusCause → Prop) (m causes : GoMap String StatusCause)
    (status : List Status) (hm : ∀ e ∈ m, ∀ c ∈ e.2, P c)
    (hs : ∀ c ∈ allCauses status, P c)
    (h : collectCauses m status = .ok (some causes)) :
    ∀ e ∈ causes, ∀ c ∈ e.2, P c := by
  induction status generalizing m with
  | nil =>
    simp only [collectCauses, Except.ok.injEq, Option.some.injEq] at h
    exact h ▸ hm
  | cons s rest ih =>
    simp only [collectCauses] at h
    by_cases hst : s.Status = StatusSuccess
    · simp [hst] at h
    · simp only [hst, if_false] at h
      cases hd : s.Details with
      | none => simp [hd] at h
      | some d =>
        simp only [hd] at h
        have hall : allCauses (s :: rest) = d.Causes ++ allCauses rest := by
          simp [allCauses, hd]
        rw [hall] at hs
        exact ih _ (addCauses_forall P m d.Causes hm
          (fun c hc => hs c (List.mem_append_left _ hc)))
          (fun c hc => hs c (List.mem_append_right _ hc)) h

theorem groupItems_forall (P : StatusCause → Prop) (env : Env) (b : Bytes)
    (items : List StatusCause) (errors errors' : GoMap Position StatusCause)
    (h : groupItems env b errors items = .ok errors')
    (herr : ∀ e ∈ errors, ∀ c ∈ e.2, P c) (hi : ∀ c ∈ items, P c) :
    ∀ e ∈ errors', ∀ c ∈ e.2, P c := by
  induction items generalizing errors with
  | nil =>
    simp only [groupItems, Except.ok.injEq] at h
    exact h ▸ herr
  | cons c cs ih =>
    simp only [groupItems] at h
    cases hr : resolveCause env b c with
    | error e => simp [hr] at h
    | ok position =>
      simp only [hr] at h
      exact ih _ h (mapAppend_forall P errors position c herr (hi c (List.mem_cons_self _ _)))
        (fun c' hc' => hi c' (List.mem_cons_of_mem _ hc'))

theorem buildMessages_forall (Q : String → Prop) (env : Env) (m : GoMap String String)
    (l : List StatusCause) (hm : ∀ e ∈ m, ∀ s ∈ e.2, Q s)
    (hl : ∀ c ∈ l, Q (renderCause env c)) :
    ∀ e ∈ buildMessages env m l, ∀ s ∈ e.2, Q s := by
  induction l generalizing m with
  | nil => exact hm
  | cons c cs ih =>
    simp only [buildMessages]
    exact ih _ (mapAppend_forall Q m _ _ hm (hl c (List.mem_cons_self _ _)))
      (fun c' hc' => hl c' (List.mem_cons_of_mem _ hc'))

/-- Every cause rendered for a file is one of the causes of its statuses. -/
theorem fileErrors_causes (P : StatusCause → Prop) (env : Env) (o : IterOrder)
    (ho : o.Valid) (file : String) (status : List Status)
    (causes : GoMap String StatusCause) (b : Bytes) (errors : GoMap Position StatusCause)
    (hs : ∀ c ∈ allCauses status, P c)
    (hc : collectCauses [] status = .ok (some causes))
    (hg : groupCauses env b [] (o.causes file causes) = .ok errors) :
    ∀ e ∈ errors, ∀ c ∈ e.2, P c := by
  have h1 := collectCauses_forall P [] causes status (by simp) hs hc
  rw [groupCauses_eq_groupItems] at hg
  apply groupItems_forall P env b _ [] errors hg (by simp)
  intro c hc'
  obtain ⟨e, he, hce⟩ := List.mem_flatMap.mp hc'
  exact h1 e ((ho.causes file causes).subset he) c hce

theorem noNewline_renderCause (env : Env) (c : StatusCause) (h : NoNewline c.Message) :
    NoNewline (renderCause env c) := by
  unfold renderCause
  simp only [noNewline_append]
  exact ⟨⟨⟨⟨by decide, noNewline_fmtQuote _ _⟩, by decide⟩, h⟩, by decide⟩

theorem noNewline_renderField (env : Env) (entry : String × List String)
    (h : ∀ s ∈ entry.2, NoNewline s) : NoNewline (renderField env entry) := by
  unfold renderField
  simp only [noNewline_append]
  exact ⟨⟨⟨by decide, noNewline_fmtQuote _ _⟩, by decide⟩,
    noNewline_stringsJoin _ _ (by decide) h⟩

theorem noNewline_positionError (env : Env) (o : IterOrder) (ho : o.Valid) (file : String)
    (errors : GoMap Position StatusCause) (position : Position)
    (hfile : NoNewline file)
    (herr : ∀ e ∈ errors, ∀ c ∈ e.2, NoNewline c.Message) :
    NoNewline (positionError env o file errors position).String := by
  have hmsgs : ∀ e ∈ buildMessages env [] (mapGet errors position),
      ∀ s ∈ e.2, NoNewline s := by
    apply buildMessages_forall NoNewline env [] _ (by simp)
    intro c hc
    obtain ⟨e, he, hce⟩ := mapGet_mem errors position c hc
    exact noNewline_renderCause env c (herr e he c hce)
  have hmessage : NoNewline (positionError env o file errors position).Message := by
    simp only [positionError]
    apply noNewline_stringsJoin _ _ (by decide)
    intro s hs
    obtain ⟨entry, hentry, rfl⟩ := List.mem_map.mp hs
    exact noNewline_renderField env entry
      (hmsgs entry ((ho.messages file position _).subset hentry))
  unfold LintError.String
  simp only [noNewline_append]
  exact ⟨⟨⟨⟨⟨⟨hfile, by decide⟩, noNewline_fmtInt _⟩, by decide⟩, noNewline_fmtInt _⟩,
    by decide⟩, hmessage⟩

theorem noNewline_emitted (env : Env) (o : IterOrder) (ho : o.Valid)
    (details : List (String × List Status)) (file : String) (hfile : NoNewline file)
    (hmsgs : ∀ c ∈ allCauses (detailsGet details file), NoNewline c.Message) :
    ∀ le ∈ emitted env o details file, NoNewline le.String := by
  intro le hle
  unfold emitted at hle
  cases h : fileErrors env o file (detailsGet details file) with
  | error x => simp [h] at hle
  | ok les =>
    simp only [h] at hle
    rcases fileErrors_ok_cases env o file _ les h with h0 | ⟨causes, b, errors, hc, _, _, hg,
      hles⟩
    · subst h0; simp at hle
    · rw [hles] at hle
      obtain ⟨p, _, rfl⟩ := List.mem_map.mp hle
      exact noNewline_positionError env o ho file errors p hfile
        (fileErrors_causes (fun c => NoNewline c.Message) env o ho file _ causes b errors
          hmsgs hc hg)

theorem detailsGet_mem (details : List (String × List Status)) (file : String)
    (h : file ∈ mapKeys details) : (file, detailsGet details file) ∈ details := by
  induction details with
  | nil => simp [mapKeys] at h
  | cons e rest ih =>
    obtain ⟨k, v⟩ := e
    by_cases hk : k = file
    · subst hk; simp [detailsGet]
    · simp only [mapKeys, List.map_cons, List.mem_cons] at h
      rcases h with h | h
      · exact absurd h.symm hk
      · simp only [detailsGet, hk, if_false]
        exact List.mem_cons_of_mem _ (ih h)

theorem before_irrefl (i : Position) : ¬ i.before i := by
  simp only [Position.before]
  omega

theorem fileErrors_positions_strict (env : Env) (o : IterOrder) (file : String)
    (status : List Status) (les : List LintError) (ho : o.Valid)
    (h : fileErrors env o file status = .ok les) :
    (les.map LintError.position).Pairwise Position.before := by
  rcases fileErrors_ok_cases env o file status les h with h | ⟨causes, b, errors, _, _, _,
    hg, hles⟩
  · subst h; simp
  · have hmap : les.map LintError.position =
        sortPositions (o.errorsKeys file (mapKeys errors)) := by
      rw [hles, List.map_map]
      conv_rhs => rw [← List.map_id (sortPositions (o.errorsKeys file (mapKeys errors)))]
      apply List.map_congr_left
      intro p _
      rfl
    rw [hmap]
    apply sortPositions_strict
    have hnd := groupCauses_nodup env b _ [] errors hg (by simp [mapKeys])
    exact ((ho.errorsKeys file _).nodup_iff).mpr hnd

theorem reported_pairs_nodup (env : Env) (o : IterOrder) (ho : o.Valid)
    (details : List (String × List Status)) (hnd : (mapKeys details).Nodup) :
    ((reported env o details).map (fun le => (le.File, le.Line, le.Column))).Nodup := by
  unfold reported
  rw [List.Nodup, List.pairwise_map, List.pairwise_flatMap]
  constructor
  · intro f _
    unfold emitted
    cases h : fileErrors env o f (detailsGet details f) with
    | error x => simp
    | ok les =>
      have hpos := fileErrors_positions_strict env o f _ les ho h
      rw [List.pairwise_map] at hpos
      refine hpos.imp ?_
      intro a b hab heq
      simp only [Prod.mk.injEq] at heq
      have hp : a.position = b.position := by
        simp [LintError.position, heq.2.1, heq.2.2]
      exact before_irrefl _ (hp ▸ hab)
  · refine (sortFiles_strict _ hnd).imp ?_
    intro f g hfg a ha b hb heq
    simp only [Prod.mk.injEq] at heq
    rw [emitted_file env o details f a ha, emitted_file env o details g b hb] at heq
    exact hfg.2 heq.1

/-! ## The order of the file names is the lexicographic order of `String` -/

theorem runesLE_iff_not_lt (a b : List Char) : runesLE a b = true ↔ ¬ b < a := by
  induction a generalizing b with
  | nil =>
    simp only [runesLE, true_iff]
    intro h
    cases h
  | cons x xs ih =>
    cases b with
    | nil =>
      simp only [runesLE, Bool.false_eq_true, false_iff, not_not]
      exact List.Lex.nil
    | cons y ys =>
      simp only [runesLE]
      rcases lt_trichotomy x y with h | h | h
      · simp only [h, if_true, true_iff]
        intro hlt
        cases hlt with
        | cons _ => exact lt_irrefl _ h
        | rel hyx => exact lt_asymm h hyx
      · subst h
        simp only [lt_irrefl, if_false]
        rw [ih ys]
        constructor
        · intro hn hlt
          cases hlt with
          | cons h3 => exact hn h3
          | rel hxx => exact lt_irrefl _ hxx
        · intro hn hlt
          exact hn (List.Lex.cons hlt)
      · simp only [h, lt_asymm h, if_false, if_true, Bool.false_eq_true, false_iff, not_not]
        exact List.Lex.rel h

theorem stringLE_iff_le (a b : String) : stringLE a b ↔ a ≤ b := by
  unfold stringLE
  rw [runesLE_iff_not_lt, String.le_iff_toList_le]
  exact not_lt

theorem stringLT_iff_lt (a b : String) : stringLT a b ↔ a < b := by
  unfold stringLT
  rw [stringLE_iff_le]
  exact (lt_iff_le_and_ne).symm

/-! ## Lemmas on files without causes and on absent `Details` -/

theorem addCauses_of_addressable_nil (m : GoMap String StatusCause) (l : List StatusCause)
    (h : addressable l = []) : addCauses m l = m := by
  rw [← addCauses_addressable, h]
  rfl

theorem collectCauses_failed_cases (m : GoMap String StatusCause) (status : List Status)
    (hf : ∀ s ∈ status, s.Status ≠ StatusSuccess) :
    collectCauses m status = .error .nilDeref ∨
      collectCauses m status = .ok (some (addCauses m (allCauses status))) := by
  by_cases hd : ∀ s ∈ status, s.Details ≠ none
  · exact Or.inr (collectCauses_failed m status hf hd)
  · left
    induction status generalizing m with
    | nil => simp at hd
    | cons s rest ih =>
      have hs := hf s (List.mem_cons_self _ _)
      cases hds : s.Details with
      | none => simp [collectCauses, hs, hds]
      | some d =>
        simp only [collectCauses, hs, hds, if_false]
        apply ih _ (fun t ht => hf t (List.mem_cons_of_mem _ ht))
        intro hall
        apply hd
        intro t ht
        rcases List.mem_cons.mp ht with rfl | ht
        · simp [hds]
        · exact hall t ht

theorem fileErrors_no_causes (env : Env) (o : IterOrder) (file : String)
    (status : List Status) (hf : ∀ s ∈ status, s.Status ≠ StatusSuccess)
    (hzero : addressable (allCauses status) = []) :
    fileErrors env o file status = .ok [] ∨ fileErrors env o file status = .error .nilDeref := by
  rcases collectCauses_failed_cases [] status hf with h | h
  · right; simp [fileErrors, h]
  · left
    rw [addCauses_of_addressable_nil [] _ hzero] at h
    simp [fileErrors, h]

theorem lintMarshal_filter_ne (env : Env) (o : IterOrder) (ho : o.Valid)
    (details : List (String × List Status)) (file : String)
    (hok : fileErrors env o file (detailsGet details file) = .ok []) :
    lintMarshal env o details = lintMarshal env o (details.filter (fun e => e.1 ≠ file)) := by
  rw [lintMarshal_eq, lintMarshal_eq, mapKeys_filter_ne, sortFiles_filter_ne o ho,
    reportLines_filter_ne env o details file hok]

theorem lintMarshal_single (env : Env) (o : IterOrder) (ho : o.Valid) (file : String)
    (status : String) (c : StatusCause) (b : Bytes) (position : Position)
    (hstatus : status ≠ StatusSuccess) (hc : c.Field ≠ nilValue)
    (hread : env.ReadFile file = .ok b)
    (hres : resolveCause env b c = .ok position) :
    lintMarshal env o [(file, [⟨status, some ⟨[c]⟩⟩])] =
      .ok (LintError.String ⟨file, position.Line, position.Column,
        "field " ++ fmtQuote env.printTable c.Field ++ ": " ++ renderCause env c⟩) := by
  have hfiles : o.detailsKeys [file] = [file] := List.perm_singleton.mp (ho.detailsKeys _)
  have hf := fileErrors_single env o ho file status c b position hstatus hc hread hres
  simp only [lintMarshal, mapKeys, List.map_cons, List.map_nil, hfiles, sortFiles,
    List.insertionSort, List.orderedInsert, filesLoop, detailsGet, if_true, hf,
    List.nil_append, stringsJoin]

theorem getPosition_ok (env : Env) (p : env.Path) (b : Bytes) (doc : env.File)
    (node : env.Node) (hparse : env.ParseBytes b = .ok doc)
    (hfilter : env.FilterFile p doc = .ok node) :
    getPosition env p b =
      .ok { Line := env.tokenLine node, Column := env.tokenColumn node } := by
  simp [getPosition, hparse, hfilter]

theorem fmtQuote_ascii (tbl : Char → Bool) (s : String)
    (h : ∀ r ∈ s.data, 0x20 ≤ r.toNat ∧ r.toNat ≤ 0x7E ∧ r ≠ '"' ∧ r ≠ '\\') :
    fmtQuote tbl s = "\"" ++ s ++ "\"" := by
  apply fmtQuote_plain
  intro r hr
  obtain ⟨h1, h2, h3, h4⟩ := h r hr
  refine ⟨?_, h3, h4⟩
  have hle : r.toNat ≤ 0xFF := by omega
  simp [isPrint, hle, h1, h2]

/-! ## Lemmas on maps built by appending -/

theorem flatMap_snd_mapAppend {κ V : Type} [DecidableEq κ] (m : GoMap κ V) (k : κ) (v : V) :
    ((mapAppend m k v).flatMap Prod.snd).Perm (m.flatMap Prod.snd ++ [v]) := by
  induction m with
  | nil => simp [mapAppend]
  | cons e rest ih =>
    obtain ⟨k', vs⟩ := e
    by_cases hk : k' = k
    · simp only [mapAppend, hk, if_true, List.flatMap_cons, List.append_assoc]
      exact List.Perm.append_left vs List.perm_append_comm
    · simp only [mapAppend, hk, if_false, List.flatMap_cons, List.append_assoc]
      exact List.Perm.append_left vs ih

theorem mapGet_of_mem {κ V : Type} [DecidableEq κ] (m : GoMap κ V) (k : κ) (vs : List V)
    (hnd : (mapKeys m).Nodup) (h : (k, vs) ∈ m) : mapGet m k = vs := by
  induction m with
  | nil => simp at h
  | cons e rest ih =>
    obtain ⟨k', vs'⟩ := e
    simp only [mapKeys, List.map_cons, List.nodup_cons] at hnd
    rcases List.mem_cons.mp h with h | h
    · simp only [Prod.mk.injEq] at h
      simp [mapGet, h.1, h.2]
    · have hk : k' ≠ k := by
        rintro rfl
        exact hnd.1 (List.mem_map_of_mem Prod.fst h)
      simp only [mapGet, hk, if_false]
      exact ih hnd.2 h

theorem entries_eq_map_keys {κ V : Type} [DecidableEq κ] (m l : GoMap κ V)
    (hnd : (mapKeys m).Nodup) (hsub : ∀ e ∈ l, e ∈ m) :
    l = (mapKeys l).map (fun k => (k, mapGet m k)) := by
  induction l with
  | nil => rfl
  | cons e rest ih =>
    obtain ⟨k, vs⟩ := e
    simp only [mapKeys, List.map_cons, List.cons.injEq, Prod.mk.injEq, true_and]
    refine ⟨(mapGet_of_mem m k vs hnd (hsub _ (List.mem_cons_self _ _))).symm, ?_⟩
    exact ih (fun e he => hsub e (List.mem_cons_of_mem _ he))

theorem flatMap_mapGet_keys {κ V : Type} [DecidableEq κ] (m : GoMap κ V)
    (hnd : (mapKeys m).Nodup) :
    (mapKeys m).flatMap (mapGet m) = m.flatMap Prod.snd := by
  have h := entries_eq_map_keys m m hnd (fun e he => he)
  conv_rhs => rw [h]
  rw [List.flatMap_map]

theorem groupFold_append {α κ V : Type} [DecidableEq κ] (key : α → κ) (val : α → V)
    (m : GoMap κ V) (l₁ l₂ : List α) :
    groupFold key val m (l₁ ++ l₂) = groupFold key val (groupFold key val m l₁) l₂ := by
  induction l₁ generalizing m with
  | nil => rfl
  | cons x xs ih =>
    rw [List.cons_append]
    simp only [groupFold]
    exact ih _

theorem mapGet_groupFold {α κ V : Type} [DecidableEq κ] (key : α → κ) (val : α → V)
    (m : GoMap κ V) (l : List α) (k : κ) :
    mapGet (groupFold key val m l) k =
      mapGet m k ++ (l.filter (fun x => key x = k)).map val := by
  induction l generalizing m with
  | nil => simp [groupFold]
  | cons x xs ih =>
    simp only [groupFold, ih, mapGet_mapAppend]
    by_cases hk : key x = k
    · subst hk
      simp
    · simp [hk]

theorem nodup_groupFold {α κ V : Type} [DecidableEq κ] (key : α → κ) (val : α → V)
    (m : GoMap κ V) (l : List α) (hnd : (mapKeys m).Nodup) :
    (mapKeys (groupFold key val m l)).Nodup := by
  induction l generalizing m with
  | nil => exact hnd
  | cons x xs ih => exact ih _ (nodup_mapKeys_mapAppend m _ _ hnd)

theorem mem_mapKeys_groupFold {α κ V : Type} [DecidableEq κ] (key : α → κ) (val : α → V)
    (m : GoMap κ V) (l : List α) (k : κ) :
    k ∈ mapKeys (groupFold key val m l) ↔ k ∈ mapKeys m ∨ ∃ x ∈ l, key x = k := by
  induction l generalizing m with
  | nil => simp [groupFold]
  | cons x xs ih =>
    simp only [groupFold, ih, mapKeys_mapAppend, List.mem_cons, exists_eq_or_imp]
    by_cases hx : key x ∈ mapKeys m
    · simp only [hx, if_true]
      constructor
      · rintro (h | h)
        · exact Or.inl h
        · exact Or.inr (Or.inr h)
      · rintro (h | h | h)
        · exact Or.inl h
        · exact Or.inl (h ▸ hx)
        · exact Or.inr h
    · simp only [hx, if_false, List.mem_append, List.mem_singleton]
      constructor
      · rintro ((h | h) | h)
        · exact Or.inl h
        · exact Or.inr (Or.inl h.symm)
        · exact Or.inr (Or.inr h)
      · rintro (h | h | h)
        · exact Or.inl (Or.inl h)
        · exact Or.inl (Or.inr h.symm)
        · exact Or.inr h

theorem flatMap_snd_groupFold {α κ V : Type} [DecidableEq κ] (key : α → κ) (val : α → V)
    (m : GoMap κ V) (l : List α) :
    ((groupFold key val m l).flatMap Prod.snd).Perm (m.flatMap Prod.snd ++ l.map val) := by
  induction l generalizing m with
  | nil => simp [groupFold]
  | cons x xs ih =>
    simp only [groupFold, List.map_cons]
    refine (ih _).trans ?_
    refine ((flatMap_snd_mapAppend m (key x) (val x)).append_right _).trans ?_
    simp

theorem addCauses_eq_groupFold (m : GoMap String StatusCause) (l : List StatusCause) :
    addCauses m l = groupFold (fun c => c.Type') id m (addressable l) := by
  induction l generalizing m with
  | nil => rfl
  | cons c cs ih =>
    by_cases h : c.Field = nilValue
    · simp only [addCauses, h, if_true, ih]
      simp [addressable, h]
    · simp only [addCauses, h, if_false, ih]
      simp [addressable, h, groupFold]

theorem buildMessages_eq_groupFold (env : Env) (m : GoMap String String)
    (l : List StatusCause) :
    buildMessages env m l = groupFold (fun c => c.Field) (renderCause env) m l := by
  induction l generalizing m with
  | nil => rfl
  | cons c cs ih => simp only [buildMessages, groupFold, ih]

theorem groupItems_eq_groupFold (env : Env) (b : Bytes)
    (errors : GoMap Position StatusCause) (items : List StatusCause)
    (h : ∀ c ∈ items, ∃ p, resolveCause env b c = .ok p) :
    groupItems env b errors items = .ok (groupFold (positionOf env b) id errors items) := by
  induction items generalizing errors with
  | nil => rfl
  | cons c cs ih =>
    obtain ⟨p, hp⟩ := h c (List.mem_cons_self _ _)
    have hpos : positionOf env b c = p := by simp [positionOf, hp]
    simp only [groupItems, hp, groupFold, hpos, id]
    exact ih _ (fun c' hc' => h c' (List.mem_cons_of_mem _ hc'))

theorem groupItems_ok_resolves (env : Env) (b : Bytes)
    (errors errors' : GoMap Position StatusCause) (items : List StatusCause)
    (h : groupItems env b errors items = .ok errors') :
    ∀ c ∈ items, ∃ p, resolveCause env b c = .ok p := by
  induction items generalizing errors with
  | nil => intro c hc; simp at hc
  | cons c cs ih =>
    simp only [groupItems] at h
    cases hr : resolveCause env b c with
    | error e => simp [hr] at h
    | ok position =>
      simp only [hr] at h
      intro c' hc'
      rcases List.mem_cons.mp hc' with rfl | hc'
      · exact ⟨position, hr⟩
      · exact ih _ h c' hc'

theorem positionOf_eq_iff (env : Env) (b : Bytes) (c : StatusCause) (p : Position)
    (h : ∃ q, resolveCause env b c = .ok q) :
    positionOf env b c = p ↔ resolveCause env b c = .ok p := by
  obtain ⟨q, hq⟩ := h
  simp [positionOf, hq]

/-! ## The structure of the lines of one file -/

theorem collectCauses_some (m causes : GoMap String StatusCause) (status : List Status)
    (h : collectCauses m status = .ok (some causes)) :
    (∀ s ∈ status, s.Status ≠ StatusSuccess) ∧ (∀ s ∈ status, s.Details ≠ none) ∧
      causes = addCauses m (allCauses status) := by
  induction status generalizing m with
  | nil =>
    simp only [collectCauses, Except.ok.injEq, Option.some.injEq] at h
    simp [allCauses, addCauses, h]
  | cons s rest ih =>
    simp only [collectCauses] at h
    by_cases hst : s.Status = StatusSuccess
    · simp [hst] at h
    · simp only [hst, if_false] at h
      cases hd : s.Details with
      | none => simp [hd] at h
      | some d =>
        simp only [hd] at h
        obtain ⟨h1, h2, h3⟩ := ih _ h
        refine ⟨?_, ?_, ?_⟩
        · intro t ht
          rcases List.mem_cons.mp ht with rfl | ht
          · exact hst
          · exact h1 t ht
        · intro t ht
          rcases List.mem_cons.mp ht with rfl | ht
          · simp [hd]
          · exact h2 t ht
        · rw [h3]
          simp [allCauses, hd, addCauses_append]

theorem positionError_eq_renderLine (env : Env) (o : IterOrder) (file : String)
    (errors : GoMap Position StatusCause) (position : Position) :
    positionError env o file errors position =
      renderLine env o file position (mapGet errors position) := rfl

/-- The shape of the lines of a file that is reported. -/
theorem fileErrors_structure (env : Env) (o : IterOrder) (ho : o.Valid) (file : String)
    (status : List Status) (les : List LintError)
    (h : fileErrors env o file status = .ok les) (hne : les ≠ []) :
    ∃ b errors items, env.ReadFile file = .ok b ∧
      (∀ s ∈ status, s.Status ≠ StatusSuccess) ∧ (∀ s ∈ status, s.Details ≠ none) ∧
      items = (o.causes file (addCauses [] (allCauses status))).flatMap Prod.snd ∧
      items.Perm (addressable (allCauses status)) ∧
      (∀ c ∈ addressable (allCauses status), ∃ p, resolveCause env b c = .ok p) ∧
      errors = groupFold (positionOf env b) id [] items ∧
      (mapKeys errors).Nodup ∧
      (∀ p, p ∈ mapKeys errors ↔
        ∃ c ∈ addressable (allCauses status), resolveCause env b c = .ok p) ∧
      (∀ p, mapGet errors p = items.filter (fun c => resolveCause env b c = .ok p)) ∧
      les = (sortPositions (o.errorsKeys file (mapKeys errors))).map
        (fun p => renderLine env o file p (mapGet errors p)) := by
  rcases fileErrors_ok_cases env o file status les h with h0 | ⟨causes, b, errors, hc, _,
    hread, hg, hles⟩
  · exact absurd h0 hne
  obtain ⟨hf, hd, hcauses⟩ := collectCauses_some [] causes status hc
  subst hcauses
  have hperm : ((o.causes file (addCauses [] (allCauses status))).flatMap Prod.snd).Perm
      (addressable (allCauses status)) := by
    refine ((ho.causes file _).flatMap_right Prod.snd).trans ?_
    rw [addCauses_eq_groupFold]
    simpa using flatMap_snd_groupFold (fun c : StatusCause => c.Type') id []
      (addressable (allCauses status))
  rw [groupCauses_eq_groupItems] at hg
  have hres := groupItems_ok_resolves env b [] errors _ hg
  have herr : errors = groupFold (positionOf env b) id []
      ((o.causes file (addCauses [] (allCauses status))).flatMap Prod.snd) := by
    have := groupItems_eq_groupFold env b [] _ hres
    rw [this] at hg
    exact (Except.ok.inj hg).symm
  have hresA : ∀ c ∈ addressable (allCauses status), ∃ p, resolveCause env b c = .ok p :=
    fun c hc' => hres c (hperm.symm.subset hc')
  refine ⟨b, errors, _, hread, hf, hd, rfl, hperm, hresA, herr, ?_, ?_, ?_, ?_⟩
  · rw [herr]
    exact nodup_groupFold _ _ [] _ (by simp [mapKeys])
  · intro p
    rw [herr, mem_mapKeys_groupFold]
    simp only [mapKeys, List.map_nil, List.not_mem_nil, false_or]
    constructor
    · rintro ⟨c, hc', hp⟩
      exact ⟨c, hperm.subset hc', (positionOf_eq_iff env b c p (hres c hc')).mp hp⟩
    · rintro ⟨c, hc', hp⟩
      exact ⟨c, hperm.symm.subset hc', (positionOf_eq_iff env b c p ⟨p, hp⟩).mpr hp⟩
  · intro p
    rw [herr, mapGet_groupFold]
    simp only [mapGet, List.nil_append, List.map_id]
    apply List.filter_congr
    intro c hc'
    have := positionOf_eq_iff env b c p (hres c hc')
    simp only [decide_eq_decide]
    exact this
  · rw [hles]
    rfl

theorem renderLine_position (env : Env) (o : IterOrder) (file : String) (p : Position)
    (cs : List StatusCause) : (renderLine env o file p cs).position = p := rfl

theorem lines_positions (env : Env) (o : IterOrder) (file : String)
    (errors : GoMap Position StatusCause) (keys : List Position) :
    (keys.map (fun p => renderLine env o file p (mapGet errors p))).map LintError.position =
      keys := by
  rw [List.map_map]
  conv_rhs => rw [← List.map_id keys]
  apply List.map_congr_left
  intro p _
  rfl

theorem entries_perm_renderings (env : Env) (o : IterOrder) (ho : o.Valid) (file : String)
    (p : Position) (cs : List StatusCause) :
    ((o.messages file p (buildMessages env [] cs)).flatMap Prod.snd).Perm
      (cs.map (renderCause env)) := by
  refine ((ho.messages file p _).flatMap_right Prod.snd).trans ?_
  rw [buildMessages_eq_groupFold]
  simpa using flatMap_snd_groupFold (fun c : StatusCause => c.Field) (renderCause env) [] cs

theorem renderLine_message (env : Env) (o : IterOrder) (ho : o.Valid) (file : String)
    (p : Position) (cs : List StatusCause) :
    ∃ fields : List String, fields.Nodup ∧ (∀ f, f ∈ fields ↔ ∃ c ∈ cs, c.Field = f) ∧
      (renderLine env o file p cs).Message =
        stringsJoin (fields.map (fun f => renderField env
          (f, (cs.filter (fun c => c.Field = f)).map (renderCause env)))) ", " := by
  have hperm := ho.messages file p (buildMessages env [] cs)
  have hnd : (mapKeys (buildMessages env [] cs)).Nodup := by
    rw [buildMessages_eq_groupFold]
    exact nodup_groupFold _ _ [] cs (by simp [mapKeys])
  refine ⟨mapKeys (o.messages file p (buildMessages env [] cs)), ?_, ?_, ?_⟩
  · exact ((hperm.map Prod.fst).nodup_iff).mpr hnd
  · intro f
    have hmem : f ∈ mapKeys (o.messages file p (buildMessages env [] cs)) ↔
        f ∈ mapKeys (buildMessages env [] cs) := (hperm.map Prod.fst).mem_iff
    rw [hmem]
    have := mem_mapKeys_groupFold (fun c : StatusCause => c.Field) (renderCause env) [] cs f
    rw [← buildMessages_eq_groupFold] at this
    simpa [mapKeys] using this
  · have hent := entries_eq_map_keys (buildMessages env [] cs)
      (o.messages file p (buildMessages env [] cs)) hnd (fun e he => hperm.subset he)
    have hget : ∀ f, mapGet (buildMessages env [] cs) f =
        (cs.filter (fun c => c.Field = f)).map (renderCause env) := by
      intro f
      rw [buildMessages_eq_groupFold, mapGet_groupFold]
      simp [mapGet]
    simp only [renderLine]
    conv_lhs => rw [hent]
    rw [List.map_map]
    congr 1
    apply List.map_congr_left
    intro f _
    simp only [Function.comp, hget]

/-! ## Lemmas on the independence of the iteration order -/

theorem mem_of_mem_mapKeys {κ V : Type} [DecidableEq κ] (m : GoMap κ V) (k : κ)
    (h : k ∈ mapKeys m) : (k, mapGet m k) ∈ m := by
  induction m with
  | nil => simp [mapKeys] at h
  | cons e rest ih =>
    obtain ⟨k', vs⟩ := e
    by_cases hk : k' = k
    · subst hk; simp [mapGet]
    · simp only [mapKeys, List.map_cons, List.mem_cons] at h
      rcases h with h | h
      · exact absurd h.symm hk
      · simp only [mapGet, hk, if_false]
        exact List.mem_cons_of_mem _ (ih h)

theorem flatMap_single_block {κ V W : Type} (l : List (κ × V)) (e₀ : κ × V)
    (f : κ × V → List W) (hnd : (mapKeys l).Nodup) (hmem : e₀ ∈ l)
    (hother : ∀ e ∈ l, e.1 ≠ e₀.1 → f e = []) : l.flatMap f = f e₀ := by
  induction l with
  | nil => simp at hmem
  | cons e rest ih =>
    simp only [mapKeys, List.map_cons, List.nodup_cons] at hnd
    simp only [List.flatMap_cons]
    rcases List.mem_cons.mp hmem with rfl | hmem
    · have hrest : rest.flatMap f = [] := by
        rw [List.flatMap_eq_nil_iff]
        intro e he
        apply hother e (List.mem_cons_of_mem _ he)
        intro heq
        exact hnd.1 (heq ▸ List.mem_map_of_mem Prod.fst he)
      rw [hrest, List.append_nil]
    · have he : f e = [] := by
        apply hother e (List.mem_cons_self _ _)
        intro heq
        exact hnd.1 (heq ▸ List.mem_map_of_mem Prod.fst hmem)
      rw [he, List.nil_append]
      exact ih hnd.2 hmem (fun e' he' => hother e' (List.mem_cons_of_mem _ he'))

theorem visited_perm (o : IterOrder) (ho : o.Valid) (file : String)
    (l : List StatusCause) :
    ((o.causes file (addCauses [] l)).flatMap Prod.snd).Perm (addressable l) := by
  refine ((ho.causes file _).flatMap_right Prod.snd).trans ?_
  rw [addCauses_eq_groupFold]
  simpa using flatMap_snd_groupFold (fun c : StatusCause => c.Type') id [] (addressable l)

/-- When the causes that resolve to a position all have one type, the visit of the map
`causes` meets them in input order, whatever the order of the visit. -/
theorem visited_filter_eq (env : Env) (o : IterOrder) (ho : o.Valid) (file : String)
    (b : Bytes) (l : List StatusCause) (p : Position)
    (hsep : ∀ c ∈ addressable l, ∀ c' ∈ addressable l,
      resolveCause env b c = resolveCause env b c' → c.Type' = c'.Type') :
    ((o.causes file (addCauses [] l)).flatMap Prod.snd).filter
        (fun c => resolveCause env b c = .ok p) =
      (addressable l).filter (fun c => resolveCause env b c = .ok p) := by
  by_cases hex : ∃ c₀ ∈ addressable l, resolveCause env b c₀ = .ok p
  · obtain ⟨c₀, hc₀, hc₀p⟩ := hex
    have hcauses : addCauses [] l = groupFold (fun c => c.Type') id [] (addressable l) :=
      addCauses_eq_groupFold [] l
    have hnd : (mapKeys (addCauses [] l)).Nodup := by
      rw [hcauses]
      exact nodup_groupFold _ _ [] _ (by simp [mapKeys])
    have hget : ∀ T, mapGet (addCauses [] l) T =
        (addressable l).filter (fun c => c.Type' = T) := by
      intro T
      rw [hcauses, mapGet_groupFold]
      simp [mapGet]
    have hperm := ho.causes file (addCauses [] l)
    have hvnd : (mapKeys (o.causes file (addCauses [] l))).Nodup :=
      ((hperm.map Prod.fst).nodup_iff).mpr hnd
    have hT₀ : c₀.Type' ∈ mapKeys (addCauses [] l) := by
      rw [hcauses, mem_mapKeys_groupFold]
      exact Or.inr ⟨c₀, hc₀, rfl⟩
    have he₀ : (c₀.Type', mapGet (addCauses [] l) c₀.Type') ∈
        o.causes file (addCauses [] l) :=
      hperm.symm.subset (mem_of_mem_mapKeys _ _ hT₀)
    rw [List.filter_flatMap]
    rw [flatMap_single_block _ _ _ hvnd he₀]
    · simp only [hget, List.filter_filter]
      apply List.filter_congr
      intro c hc
      by_cases hp : resolveCause env b c = .ok p
      · have := hsep c hc c₀ hc₀ (hp.trans hc₀p.symm)
        simp [hp, this]
      · simp [hp]
    · intro e he hne
      have hev : e.2 = mapGet (addCauses [] l) e.1 :=
        (mapGet_of_mem _ e.1 e.2 hnd (hperm.subset he)).symm
      rw [List.filter_eq_nil_iff]
      intro c hc hp
      rw [hev, hget] at hc
      simp only [List.mem_filter, decide_eq_true_eq] at hc hp
      exact hne (hc.2.symm.trans (hsep c hc.1 c₀ hc₀ (hp.trans hc₀p.symm)))
  · have h1 : (addressable l).filter (fun c => resolveCause env b c = .ok p) = [] := by
      rw [List.filter_eq_nil_iff]
      intro c hc hp
      exact hex ⟨c, hc, by simpa using hp⟩
    rw [h1, List.filter_eq_nil_iff]
    intro c hc hp
    exact hex ⟨c, (visited_perm o ho file l).subset hc, by simpa using hp⟩

theorem groupFold_single_key {α κ V : Type} [DecidableEq κ] (key : α → κ) (val : α → V)
    (k : κ) (vs : List V) (l : List α) (h : ∀ x ∈ l, key x = k) :
    groupFold key val [(k, vs)] l = [(k, vs ++ l.map val)] := by
  induction l generalizing vs with
  | nil => simp [groupFold]
  | cons x xs ih =>
    have hx := h x (List.mem_cons_self _ _)
    simp only [groupFold, mapAppend, hx, if_true]
    rw [ih _ (fun y hy => h y (List.mem_cons_of_mem _ hy))]
    simp

theorem renderLine_single_field (env : Env) (o : IterOrder) (ho : o.Valid) (file : String)
    (p : Position) (cs : List StatusCause) (hne : cs ≠ [])
    (hfield : ∀ c ∈ cs, c.Field = firstField cs) :
    renderLine env o file p cs =
      { File := file, Line := p.Line, Column := p.Column,
        Message := renderField env (firstField cs, cs.map (renderCause env)) } := by
  cases cs with
  | nil => exact absurd rfl hne
  | cons c rest =>
    have hrest : ∀ x ∈ rest, x.Field = c.Field :=
      fun x hx => hfield x (List.mem_cons_of_mem _ hx)
    have hm : buildMessages env [] (c :: rest) =
        [(c.Field, (c :: rest).map (renderCause env))] := by
      rw [buildMessages_eq_groupFold]
      simp only [groupFold, mapAppend]
      rw [groupFold_single_key _ _ c.Field _ rest hrest]
      simp
    have hv : o.messages file p [(c.Field, (c :: rest).map (renderCause env))] =
        [(c.Field, (c :: rest).map (renderCause env))] :=
      List.perm_singleton.mp (ho.messages _ _ _)
    simp only [renderLine, hm, hv]
    rfl

theorem fileErrors_canonical (env : Env) (o : IterOrder) (ho : o.Valid) (file : String)
    (status : List Status) (causes : GoMap String StatusCause) (b : Bytes)
    (hc : collectCauses [] status = .ok (some causes)) (hne : causes ≠ [])
    (hread : env.ReadFile file = .ok b)
    (hres : ∀ c ∈ addressable (allCauses status), ∃ p, resolveCause env b c = .ok p)
    (hsep : ∀ c ∈ addressable (allCauses status), ∀ c' ∈ addressable (allCauses status),
      resolveCause env b c = resolveCause env b c' →
        c.Field = c'.Field ∧ c.Type' = c'.Type') :
    fileErrors env o file status = .ok (canonicalLines env b file status) := by
  obtain ⟨_, _, hcauses⟩ := collectCauses_some [] causes status hc
  have hperm := visited_perm o ho file (allCauses status)
  have hresI : ∀ c ∈ (o.causes file causes).flatMap Prod.snd,
      ∃ p, resolveCause env b c = .ok p := by
    intro c hc'
    rw [hcauses] at hc'
    exact hres c (hperm.subset hc')
  have hg : groupCauses env b [] (o.causes file causes) =
      .ok (groupFold (positionOf env b) id [] ((o.causes file causes).flatMap Prod.snd)) := by
    rw [groupCauses_eq_groupItems]
    exact groupItems_eq_groupFold env b [] _ hresI
  rw [fileErrors_of_grouped env o file status causes b _ hc hne hread hg]
  congr 1
  have hnd : (mapKeys (groupFold (positionOf env b) id []
      ((o.causes file causes).flatMap Prod.snd))).Nodup :=
    nodup_groupFold _ _ [] _ (by simp [mapKeys])
  have hkeys : sortPositions (o.errorsKeys file (mapKeys (groupFold (positionOf env b) id []
        ((o.causes file causes).flatMap Prod.snd)))) =
      sortPositions ((addressable (allCauses status)).map (positionOf env b)).dedup := by
    apply sortPositions_congr
    refine (ho.errorsKeys file _).trans ?_
    rw [List.perm_ext_iff_of_nodup hnd (List.nodup_dedup _)]
    intro p
    rw [mem_mapKeys_groupFold, List.mem_dedup, List.mem_map, hcauses]
    simp only [mapKeys, List.map_nil, List.not_mem_nil, false_or]
    constructor
    · rintro ⟨c, hc', hp⟩
      exact ⟨c, hperm.subset hc', hp⟩
    · rintro ⟨c, hc', hp⟩
      exact ⟨c, hperm.symm.subset hc', hp⟩
  rw [hkeys]
  unfold canonicalLines
  apply List.map_congr_left
  intro p hp
  have hp' : p ∈ (addressable (allCauses status)).map (positionOf env b) :=
    List.mem_dedup.mp ((sortPositions_perm _).subset hp)
  obtain ⟨c₀, hc₀, hc₀p⟩ := List.mem_map.mp hp'
  have hc₀r : resolveCause env b c₀ = .ok p :=
    (positionOf_eq_iff env b c₀ p (hres c₀ hc₀)).mp hc₀p
  have hget : mapGet (groupFold (positionOf env b) id []
      ((o.causes file causes).flatMap Prod.snd)) p = causesAt env b status p := by
    rw [mapGet_groupFold]
    simp only [mapGet, List.nil_append, List.map_id]
    have hcongr : ((o.causes file causes).flatMap Prod.snd).filter
          (fun c => positionOf env b c = p) =
        ((o.causes file causes).flatMap Prod.snd).filter
          (fun c => resolveCause env b c = .ok p) := by
      apply List.filter_congr
      intro c hc'
      have := positionOf_eq_iff env b c p (hresI c hc')
      simp only [decide_eq_decide]
      exact this
    rw [hcongr, hcauses]
    exact visited_filter_eq env o ho file b (allCauses status) p
      (fun c hc' c' hc'' heq => (hsep c hc' c' hc'' heq).2)
  rw [positionError_eq_renderLine, hget]
  have hmem₀ : c₀ ∈ causesAt env b status p := by
    simp only [causesAt, List.mem_filter, decide_eq_true_eq]
    exact ⟨hc₀, hc₀r⟩
  apply renderLine_single_field env o ho file p _ (List.ne_nil_of_mem hmem₀)
  intro c hc'
  have hfirst : ∀ l : List StatusCause, l ≠ [] → ∃ x ∈ l, firstField l = x.Field := by
    intro l hl
    cases l with
    | nil => exact absurd rfl hl
    | cons x xs => exact ⟨x, List.mem_cons_self _ _, rfl⟩
  obtain ⟨x, hx, hxf⟩ := hfirst _ (List.ne_nil_of_mem hmem₀)
  rw [hxf]
  simp only [causesAt, List.mem_filter, decide_eq_true_eq] at hc' hx
  exact (hsep c hc'.1 x hx.1 (hc'.2.trans hx.2.symm)).1

theorem fileErrors_order_irrelevant (env : Env) (o₁ o₂ : IterOrder) (ho₁ : o₁.Valid)
    (ho₂ : o₂.Valid) (file : String) (status : List Status)
    (hyp : ∀ b, env.ReadFile file = .ok b →
      (∀ c ∈ addressable (allCauses status), ∃ p, resolveCause env b c = .ok p) ∧
      (∀ c ∈ addressable (allCauses status), ∀ c' ∈ addressable (allCauses status),
        resolveCause env b c = resolveCause env b c' →
          c.Field = c'.Field ∧ c.Type' = c'.Type')) :
    fileErrors env o₁ file status = fileErrors env o₂ file status := by
  cases hc : collectCauses [] status with
  | error f => simp [fileErrors, hc]
  | ok r =>
    cases r with
    | none => simp [fileErrors, hc]
    | some causes =>
      by_cases hne : causes = []
      · simp [fileErrors, hc, hne]
      · cases hread : env.ReadFile file with
        | error e =>
          have hl : ¬ causes.length = 0 := fun h => hne (List.length_eq_zero.mp h)
          simp [fileErrors, hc, hl, hread]
        | ok b =>
          obtain ⟨hres, hsep⟩ := hyp b hread
          rw [fileErrors_canonical env o₁ ho₁ file status causes b hc hne hread hres hsep,
            fileErrors_canonical env o₂ ho₂ file status causes b hc hne hread hres hsep]

theorem reportLines_congr (env : Env) (o₁ o₂ : IterOrder)
    (details : List (String × List Status)) (files : List String)
    (h : ∀ f ∈ files, fileErrors env o₁ f (detailsGet details f) =
      fileErrors env o₂ f (detailsGet details f)) :
    reportLines env o₁ details files = reportLines env o₂ details files := by
  induction files with
  | nil => rfl
  | cons f rest ih =>
    simp only [reportLines, h f (List.mem_cons_self _ _),
      ih (fun g hg => h g (List.mem_cons_of_mem _ hg))]

/-! ## Lemmas on the failures of `lintMarshal` -/

theorem collectCauses_no_panic (m : GoMap String StatusCause) (status : List Status)
    (hd : ∀ s ∈ status, s.Status ≠ StatusSuccess → s.Details ≠ none) :
    collectCauses m status ≠ .error .nilDeref := by
  induction status generalizing m with
  | nil => simp [collectCauses]
  | cons s rest ih =>
    by_cases hs : s.Status = StatusSuccess
    · simp [collectCauses, hs]
    · cases hds : s.Details with
      | none => exact absurd hds (hd s (List.mem_cons_self _ _) hs)
      | some d =>
        simp only [collectCauses, hs, hds, if_false]
        exact ih _ (fun t ht => hd t (List.mem_cons_of_mem _ ht))

theorem collectCauses_error (m : GoMap String StatusCause) (status : List Status)
    (x : Failure) (h : collectCauses m status = .error x) : x = .nilDeref := by
  induction status generalizing m with
  | nil => simp [collectCauses] at h
  | cons s rest ih =>
    simp only [collectCauses] at h
    by_cases hs : s.Status = StatusSuccess
    · simp [hs] at h
    · simp only [hs, if_false] at h
      cases hds : s.Details with
      | none => simp only [hds, Except.error.injEq] at h; exact h.symm
      | some d =>
        simp only [hds] at h
        exact ih _ h

theorem groupItems_error (env : Env) (b : Bytes) (errors : GoMap Position StatusCause)
    (items : List StatusCause) (e : Error) (h : groupItems env b errors items = .error e) :
    ∃ c ∈ items, resolveCause env b c = .error e := by
  induction items generalizing errors with
  | nil => simp [groupItems] at h
  | cons c cs ih =>
    simp only [groupItems] at h
    cases hr : resolveCause env b c with
    | error e' =>
      simp only [hr, Except.error.injEq] at h
      exact ⟨c, List.mem_cons_self _ _, h ▸ hr⟩
    | ok position =>
      simp only [hr] at h
      obtain ⟨c', hc', he⟩ := ih _ h
      exact ⟨c', List.mem_cons_of_mem _ hc', he⟩

/-- What an error of the body of the loop for one file is. -/
theorem fileErrors_error_cases (env : Env) (o : IterOrder) (ho : o.Valid) (file : String)
    (status : List Status) (x : Failure) (h : fileErrors env o file status = .error x) :
    (x = .nilDeref ∧ collectCauses [] status = .error .nilDeref) ∨
    (∃ e, x = .err e ∧ (∀ s ∈ status, s.Status ≠ StatusSuccess) ∧
      addressable (allCauses status) ≠ [] ∧
      (env.ReadFile file = .error e ∨
        ∃ b, env.ReadFile file = .ok b ∧
          ∃ c ∈ addressable (allCauses status), resolveCause env b c = .error e)) := by
  unfold fileErrors at h
  cases hc : collectCauses [] status with
  | error f =>
    simp only [hc, Except.error.injEq] at h
    have := collectCauses_error [] status f hc
    subst this
    exact Or.inl ⟨h.symm, rfl⟩
  | ok r =>
    cases r with
    | none => simp [hc] at h
    | some causes =>
      simp only [hc] at h
      by_cases hl : causes.length = 0
      · simp [hl] at h
      · simp only [hl, if_false] at h
        obtain ⟨hf, _, hcauses⟩ := collectCauses_some [] causes status hc
        have hA : addressable (allCauses status) ≠ [] := by
          intro hnil
          rw [addCauses_of_addressable_nil [] _ hnil] at hcauses
          exact hl (by simp [hcauses])
        right
        cases hr : env.ReadFile file with
        | error e =>
          simp only [hr, Except.error.injEq] at h
          exact ⟨e, h.symm, hf, hA, Or.inl rfl⟩
        | ok b =>
          simp only [hr] at h
          cases hg : groupCauses env b [] (o.causes file causes) with
          | ok errors => simp [hg] at h
          | error e =>
            simp only [hg, Except.error.injEq] at h
            rw [groupCauses_eq_groupItems] at hg
            obtain ⟨c, hc', hce⟩ := groupItems_error env b [] _ e hg
            rw [hcauses] at hc'
            exact ⟨e, h.symm, hf, hA, Or.inr ⟨b, rfl, c,
              (visited_perm o ho file (allCauses status)).subset hc', hce⟩⟩

theorem fileErrors_fails (env : Env) (o : IterOrder) (ho : o.Valid) (file : String)
    (status : List Status) (hf : ∀ s ∈ status, s.Status ≠ StatusSuccess)
    (hd : ∀ s ∈ status, s.Details ≠ none)
    (hA : addressable (allCauses status) ≠ [])
    (hfail : (∃ err, env.ReadFile file = .error err) ∨
      ∃ b, env.ReadFile file = .ok b ∧
        ∃ c ∈ addressable (allCauses status), ∃ err, resolveCause env b c = .error err) :
    ∃ e, fileErrors env o file status = .error (.err e) := by
  rcases hfail with ⟨err, hread⟩ | ⟨b, hread, c, hc, err, hce⟩
  · exact ⟨err, fileErrors_unreadable env o file status err hf hd hA hread⟩
  · have hcol := collectCauses_failed [] status hf hd
    have hne : addCauses [] (allCauses status) ≠ [] := addCauses_ne_nil _ _ (Or.inr hA)
    have hl : ¬ (addCauses [] (allCauses status)).length = 0 :=
      fun h => hne (List.length_eq_zero.mp h)
    cases hg : groupCauses env b [] (o.causes file (addCauses [] (allCauses status))) with
    | error e => exact ⟨e, by simp [fileErrors, hcol, hl, hread, hg]⟩
    | ok errors =>
      rw [groupCauses_eq_groupItems] at hg
      obtain ⟨p, hp⟩ := groupItems_ok_resolves env b [] errors _ hg c
        ((visited_perm o ho file (allCauses status)).symm.subset hc)
      rw [hce] at hp
      cases hp

theorem reportLines_error (env : Env) (o : IterOrder)
    (details : List (String × List Status)) (files : List String) (x : Failure)
    (h : reportLines env o details files = .error x) :
    ∃ f ∈ files, fileErrors env o f (detailsGet details f) = .error x := by
  induction files with
  | nil => simp [reportLines] at h
  | cons g rest ih =>
    simp only [reportLines] at h
    cases hg : fileErrors env o g (detailsGet details g) with
    | error y =>
      simp only [hg, Except.error.injEq] at h
      exact ⟨g, List.mem_cons_self _ _, h ▸ hg⟩
    | ok les =>
      simp only [hg] at h
      cases hr : reportLines env o details rest with
      | ok lines => simp [hr] at h
      | error y =>
        simp only [hr, Except.error.injEq] at h
        subst h
        obtain ⟨f, hf, hfe⟩ := ih hr
        exact ⟨f, List.mem_cons_of_mem _ hf, hfe⟩

theorem lintMarshal_error (env : Env) (o : IterOrder)
    (details : List (String × List Status)) (x : Failure)
    (h : lintMarshal env o details = .error x) :
    ∃ f ∈ sortFiles (o.detailsKeys (mapKeys details)),
      fileErrors env o f (detailsGet details f) = .error x := by
  rw [lintMarshal_eq] at h
  cases hr : reportLines env o details (sortFiles (o.detailsKeys (mapKeys details))) with
  | ok lines => simp [hr] at h
  | error y =>
    simp only [hr, Except.error.injEq] at h
    exact h ▸ reportLines_error env o details _ y hr

/-- On inputs whose failed statuses all carry `Details`, `lintMarshal` returns an error
exactly when some file that is not skipped fails, and a report otherwise. -/
theorem lintMarshal_error_iff (env : Env) (o : IterOrder) (ho : o.Valid)
    (details : List (String × List Status)) (hnd : (mapKeys details).Nodup)
    (hd : ∀ e ∈ details, ∀ s ∈ e.2, s.Status ≠ StatusSuccess → s.Details ≠ none) :
    ((∃ err, lintMarshal env o details = .error (.err err)) ↔ SomeFileFails env details) ∧
    (¬ SomeFileFails env details → ∃ out, lintMarshal env o details = .ok out) ∧
    lintMarshal env o details ≠ .error .nilDeref := by
  have hnopanic : lintMarshal env o details ≠ .error .nilDeref := by
    intro h
    obtain ⟨f, hf, hfe⟩ := lintMarshal_error env o details _ h
    have hfk : f ∈ mapKeys details := (mem_sortFiles o ho _ _).mp hf
    have hmem := detailsGet_mem details f hfk
    rcases fileErrors_error_cases env o ho f _ _ hfe with ⟨_, hp⟩ | ⟨e, he, _⟩
    · exact collectCauses_no_panic [] _ (hd _ hmem) hp
    · cases he
  have hforward : ∀ err, lintMarshal env o details = .error (.err err) →
      SomeFileFails env details := by
    intro err h
    obtain ⟨f, hf, hfe⟩ := lintMarshal_error env o details _ h
    have hfk : f ∈ mapKeys details := (mem_sortFiles o ho _ _).mp hf
    have hmem := detailsGet_mem details f hfk
    rcases fileErrors_error_cases env o ho f _ _ hfe with ⟨he, _⟩ | ⟨e, _, h1, h2, h3⟩
    · cases he
    · refine ⟨_, hmem, h1, h2, ?_⟩
      rcases h3 with h3 | ⟨b, hb, c, hc, hce⟩
      · exact Or.inl ⟨e, h3⟩
      · exact Or.inr ⟨b, hb, c, hc, e, hce⟩
  have hbackward : SomeFileFails env details →
      ∃ err, lintMarshal env o details = .error (.err err) := by
    rintro ⟨e, hmem, h1, h2, h3⟩
    have hdet : ∀ s ∈ e.2, s.Details ≠ none := fun s hs => hd e hmem s hs (h1 s hs)
    obtain ⟨err, hfe⟩ := fileErrors_fails env o ho e.1 e.2 h1 hdet h2 h3
    have hget : detailsGet details e.1 = e.2 := detailsGet_of_mem details e.1 e.2 hnd hmem
    cases hl : lintMarshal env o details with
    | ok out =>
      have hin : e.1 ∈ sortFiles (o.detailsKeys (mapKeys details)) :=
        (mem_sortFiles o ho _ _).mpr (List.mem_map_of_mem Prod.fst hmem)
      obtain ⟨les, hles⟩ := lintMarshal_ok_all env o details out hl e.1 hin
      rw [hget, hfe] at hles
      cases hles
    | error x =>
      cases x with
      | err err' => exact ⟨err', rfl⟩
      | nilDeref => exact absurd hl hnopanic
  refine ⟨⟨fun ⟨err, h⟩ => hforward err h, hbackward⟩, ?_, hnopanic⟩
  intro hno
  cases hl : lintMarshal env o details with
  | ok out => exact ⟨out, rfl⟩
  | error x =>
    cases x with
    | err err' => exact absurd (hforward err' hl) hno
    | nilDeref => exact absurd hl hnopanic

/-! ## The modelled library: positions are 1-based -/

theorem scanValue_tokens (line : Nat) (cs : List Char) (col : Nat) (tokens : List YamlToken)
    (h : scanValue line col cs = .ok tokens) :
    ∀ t ∈ tokens, line ≤ t.line ∧ col ≤ t.column ∧ ∀ colon, col ≤ leadingColumn colon t := by
  induction cs generalizing col with
  | nil =>
    simp only [scanValue, Except.ok.injEq] at h
    subst h
    simp
  | cons c cs ih =>
    simp only [scanValue] at h
    by_cases h1 : c = ' '
    · rw [if_pos h1] at h
      intro t ht
      obtain ⟨a, b, d⟩ := ih (col + 1) h t ht
      exact ⟨a, by omega, fun colon => by have := d colon; omega⟩
    · rw [if_neg h1] at h
      by_cases h2 : c = '#'
      · rw [if_pos h2] at h
        simp only [Except.ok.injEq] at h
        subst h
        simp
      · rw [if_neg h2] at h
        by_cases h3 : scalarOk (c :: cs) = true
        · rw [if_pos h3] at h
          simp only [Except.ok.injEq] at h
          subst h
          intro t ht
          simp only [List.mem_singleton] at ht
          subst ht
          exact ⟨le_refl _, le_refl _, fun colon => le_refl _⟩
        · rw [if_neg h3] at h
          cases h

theorem scanEntry_tokens (line col : Nat) (cs : List Char) (tokens : List YamlToken)
    (h : scanEntry line col cs = .ok tokens) :
    ∀ t ∈ tokens, line ≤ t.line ∧ col ≤ t.column ∧ ∀ colon, col ≤ leadingColumn colon t := by
  have hscalar : ∀ t ∈ [(⟨.scalar, line, col⟩ : YamlToken)],
      line ≤ t.line ∧ col ≤ t.column ∧ ∀ colon, col ≤ leadingColumn colon t := by
    intro t ht
    simp only [List.mem_singleton] at ht
    subst ht
    exact ⟨le_refl _, le_refl _, fun colon => le_refl _⟩
  unfold scanEntry at h
  split at h
  · split at h
    · simp only [Except.ok.injEq] at h
      subst h
      exact hscalar
    · cases h
  · split at h
    · split at h
      · simp only [Except.ok.injEq] at h
        subst h
        exact hscalar
      · cases h
    · rename_i n hn
      split at h
      · split at h
        · cases h
        · rename_i value hv
          simp only [Except.ok.injEq] at h
          subst h
          intro t ht
          rcases List.mem_cons.mp ht with ht | ht
          · subst ht
            refine ⟨le_refl _, le_refl _, fun colon => ?_⟩
            cases colon <;> simp [leadingColumn]
          · obtain ⟨a, b, d⟩ := scanValue_tokens line _ _ value hv t ht
            exact ⟨a, by omega, fun colon => by have := d colon; omega⟩
      · cases h

theorem scanItems_tokens (line : Nat) (cs : List Char) (col : Nat) (tokens : List YamlToken)
    (h : scanItems line col cs = .ok tokens) :
    ∀ t ∈ tokens, line ≤ t.line ∧ col ≤ t.column ∧ ∀ colon, col ≤ leadingColumn colon t := by
  induction cs generalizing col tokens with
  | nil =>
    simp only [scanItems, Except.ok.injEq] at h
    subst h
    simp
  | cons c cs ih =>
    simp only [scanItems] at h
    by_cases h1 : c = ' '
    · rw [if_pos h1] at h
      intro t ht
      obtain ⟨a, b, d⟩ := ih (col + 1) tokens h t ht
      exact ⟨a, by omega, fun colon => by have := d colon; omega⟩
    · rw [if_neg h1] at h
      by_cases h2 : c = '#'
      · rw [if_pos h2] at h
        simp only [Except.ok.injEq] at h
        subst h
        simp
      · rw [if_neg h2] at h
        by_cases h3 : c = '-' ∧ (cs = [] ∨ cs.head? = some ' ')
        · rw [if_pos h3] at h
          cases hrest : scanItems line (col + 1) cs with
          | error err =>
            rw [hrest] at h
            cases h
          | ok rest =>
            rw [hrest] at h
            simp only [Except.ok.injEq] at h
            subst h
            intro t ht
            rcases List.mem_cons.mp ht with ht | ht
            · subst ht
              exact ⟨le_refl _, le_refl _, fun colon => le_refl _⟩
            · obtain ⟨a, b, d⟩ := ih (col + 1) rest hrest t ht
              exact ⟨a, by omega, fun colon => by have := d colon; omega⟩
        · rw [if_neg h3] at h
          exact scanEntry_tokens line col (c :: cs) tokens h

theorem scanLines_tokens (lines : List (List Char)) (line : Nat) (tokens : List YamlToken)
    (h : scanLines line lines = .ok tokens) :
    ∀ t ∈ tokens, line ≤ t.line ∧ 1 ≤ t.column ∧ ∀ colon, 1 ≤ leadingColumn colon t := by
  induction lines generalizing line tokens with
  | nil =>
    simp only [scanLines, Except.ok.injEq] at h
    subst h
    simp
  | cons cs rest ih =>
    simp only [scanLines] at h
    cases hfirst : scanLine line cs with
    | error err =>
      rw [hfirst] at h
      cases h
    | ok first =>
      rw [hfirst] at h
      cases hmore : scanLines (line + 1) rest with
      | error err =>
        rw [hmore] at h
        cases h
      | ok more =>
        rw [hmore] at h
        simp only [Except.ok.injEq] at h
        subst h
        intro t ht
        rcases List.mem_append.mp ht with ht | ht
        · unfold scanLine at hfirst
          split at hfirst
          · exact scanItems_tokens line cs 1 first hfirst t ht
          · cases hfirst
        · obtain ⟨a, b, d⟩ := ih (line + 1) more hmore t ht
          exact ⟨by omega, b, d⟩

theorem specParseBytes_tokens (b : Bytes) (tokens : List YamlToken)
    (h : specParseBytes b = .ok tokens) :
    ∀ t ∈ tokens, 1 ≤ t.line ∧ 1 ≤ t.column ∧ ∀ colon, 1 ≤ leadingColumn colon t := by
  unfold specParseBytes at h
  split at h
  · cases h
  · rename_i scanned hs
    split at h
    · simp only [Except.ok.injEq] at h
      subst h
      exact scanLines_tokens _ 1 _ hs
    · cases h

theorem selectKey_subset (name : String) (c : Nat) (tokens value : List YamlToken)
    (h : selectKey name c tokens = some value) : ∀ t ∈ value, t ∈ tokens := by
  induction tokens with
  | nil => simp [selectKey] at h
  | cons t ts ih =>
    unfold selectKey at h
    split at h
    · split at h
      · simp only [Option.some.injEq] at h
        subst h
        intro u hu
        exact List.mem_cons_of_mem _ ((List.takeWhile_sublist _).subset hu)
      · intro u hu
        exact List.mem_cons_of_mem _ (ih h u hu)
    · intro u hu
      exact List.mem_cons_of_mem _ (ih h u hu)

theorem selectIndex_subset (c : Nat) (tokens : List YamlToken) (n : Nat)
    (value : List YamlToken) (h : selectIndex c n tokens = some value) :
    ∀ t ∈ value, t ∈ tokens := by
  induction tokens generalizing n with
  | nil => simp [selectIndex] at h
  | cons t ts ih =>
    unfold selectIndex at h
    split at h
    · split at h
      · simp only [Option.some.injEq] at h
        subst h
        intro u hu
        exact List.mem_cons_of_mem _ ((List.takeWhile_sublist _).subset hu)
      · intro u hu
        exact List.mem_cons_of_mem _ (ih _ h u hu)
    · intro u hu
      exact List.mem_cons_of_mem _ (ih _ h u hu)

theorem filterTokens_subset (p : List YamlSelector) (block value : List YamlToken)
    (h : filterTokens p block = .ok value) : ∀ t ∈ value, t ∈ block := by
  induction p generalizing block with
  | nil =>
    simp only [filterTokens, Except.ok.injEq] at h
    subst h
    exact fun t ht => ht
  | cons s steps ih =>
    cases block with
    | nil => cases s <;> simp [filterTokens] at h
    | cons t ts =>
      cases s with
      | key name =>
        simp only [filterTokens] at h
        split at h
        · split at h
          · cases h
          · rename_i child hchild
            intro u hu
            exact selectKey_subset name _ _ child hchild u (ih child h u hu)
        · cases h
      | index n =>
        simp only [filterTokens] at h
        split at h
        · split at h
          · cases h
          · rename_i child hchild
            intro u hu
            exact selectIndex_subset _ _ n child hchild u (ih child h u hu)
        · cases h

theorem specFilterFile_mem (p : List YamlSelector) (doc : List YamlToken) (t : YamlToken)
    (h : specFilterFile p doc = .ok t) : t ∈ doc := by
  unfold specFilterFile at h
  split at h
  · cases h
  · cases h
  · rename_i u rest hf
    simp only [Except.ok.injEq] at h
    subst h
    exact filterTokens_subset p doc _ hf _ (List.mem_cons_self _ _)

theorem getPosition_specEnv_based (files : List (String × String)) (tbl : Char → Bool)
    (colon : Bool) (p : List YamlSelector) (b : Bytes) (position : Position)
    (h : getPosition (specEnv files tbl colon) p b = .ok position) :
    1 ≤ position.Line ∧ 1 ≤ position.Column := by
  cases hdoc : (specEnv files tbl colon).ParseBytes b with
  | error err => simp [getPosition, hdoc] at h
  | ok doc =>
    cases hnode : (specEnv files tbl colon).FilterFile p doc with
    | error err => simp [getPosition, hdoc, hnode] at h
    | ok t =>
      simp only [getPosition, hdoc, hnode, Except.ok.injEq] at h
      subst h
      obtain ⟨a, _, d⟩ := specParseBytes_tokens b doc hdoc t (specFilterFile_mem p doc t hnode)
      have hline : (specEnv files tbl colon).tokenLine t = (t.line : Int) := rfl
      have hcolumn : (specEnv files tbl colon).tokenColumn t =
          (leadingColumn colon t : Int) := rfl
      refine ⟨?_, ?_⟩
      · show (1 : Int) ≤ (specEnv files tbl colon).tokenLine t
        rw [hline]
        exact_mod_cast a
      · show (1 : Int) ≤ (specEnv files tbl colon).tokenColumn t
        rw [hcolumn]
        exact_mod_cast d colon

/-! ## The claims -/

/-- C1. A file one of whose statuses is `Success` yields no line, whatever the other
statuses and their causes are: the lines emitted for it are none. The body of the loop
for that file ends with no `LintError` (or, when a failed status without `Details` comes
before the first `Success`, in the nil dereference); it never reads the file and never
returns an error. When the failed statuses all carry `Details`, the body yields exactly
the empty list and the report is the report of the input without that file. -/
theorem success_yields_no_line (env : Env) (o : IterOrder)
    (details : List (String × List Status)) (file : String) (status : List Status)
    (hnd : (mapKeys details).Nodup) (hmem : (file, status) ∈ details)
    (hs : ∃ s ∈ status, s.Status = StatusSuccess) :
    emitted env o details file = [] ∧
    (fileErrors env o file (detailsGet details file) = .ok [] ∨
      fileErrors env o file (detailsGet details file) = .error .nilDeref) ∧
    ((∀ s ∈ status, s.Status ≠ StatusSuccess → s.Details ≠ none) →
      fileErrors env o file (detailsGet details file) = .ok [] ∧
      (o.Valid → lintMarshal env o details =
        lintMarshal env o (details.filter (fun e => e.1 ≠ file)))) := by
  have hget := detailsGet_of_mem details file status hnd hmem
  have hcases := fileErrors_success env o file status hs
  refine ⟨?_, ?_, fun hd => ?_⟩
  · unfold emitted
    rw [hget]
    rcases hcases with h | h <;> rw [h]
  · rw [hget]
    exact hcases
  · have hok : fileErrors env o file status = .ok [] := by
      simp [fileErrors, collectCauses_success_details [] status hs hd]
    refine ⟨hget ▸ hok, fun ho => ?_⟩
    rw [lintMarshal_eq, lintMarshal_eq, mapKeys_filter_ne, sortFiles_filter_ne o ho,
      reportLines_filter_ne env o details file (hget ▸ hok)]

theorem success_yields_no_line_witness :
    emitted demoEnv reverseOrder
        [("a.yaml", [⟨"Failure", some ⟨[⟨"FieldValueInvalid", "must not be empty",
          "spec.image"⟩]⟩⟩, ⟨"Success", none⟩])] "a.yaml" = [] ∧
    lintMarshal demoEnv reverseOrder
        [("a.yaml", [⟨"Failure", some ⟨[⟨"FieldValueInvalid", "must not be empty",
          "spec.image"⟩]⟩⟩, ⟨"Success", none⟩])] = .ok "" :=
  ⟨(success_yields_no_line demoEnv reverseOrder
      [("a.yaml", [⟨"Failure", some ⟨[⟨"FieldValueInvalid", "must not be empty",
          "spec.image"⟩]⟩⟩, ⟨"Success", none⟩])] "a.yaml" _
      (by decide) (List.mem_singleton.mpr rfl) ⟨⟨"Success", none⟩, by decide, rfl⟩).1,
    by decide⟩

/-- C2 (counterexample). With the type `a"b` the cause is rendered with the escaped
type `"a\"b"`, not with the type verbatim between quotes. -/
theorem single_cause_verbatim_counterexample :
    demoEnv.ReadFile "a.yaml" = .ok demoDoc ∧
    resolveCause demoEnv demoDoc ⟨"a\"b", "must not be empty", "spec.image"⟩ = .ok ⟨2, 3⟩ ∧
    lintMarshal demoEnv insertionOrder
        [("a.yaml", [⟨"Failure", some ⟨[⟨"a\"b", "must not be empty", "spec.image"⟩]⟩⟩])] =
      .ok "a.yaml:2:3: field \"spec.image\": (reason: \"a\\\"b\"; must not be empty)" ∧
    lintMarshal demoEnv insertionOrder
        [("a.yaml", [⟨"Failure", some ⟨[⟨"a\"b", "must not be empty", "spec.image"⟩]⟩⟩])] ≠
      .ok "a.yaml:2:3: field \"spec.image\": (reason: \"a\"b\"; must not be empty)" := by
  decide

/-- C2 (amended). One file with a single failed status that carries one cause at a field
`X` other than the sentinel, resolving to line `L`, column `C`: the report is the one
line `file:L:C: field <X>: (reason: <Kind>; Message)` in which `X` and `Kind` stand in
their `%q` rendering and `Message` stands verbatim. When every rune of `X` and of `Kind`
is printable and is neither the double quote nor the backslash, `X` and `Kind` stand
verbatim between double quotes. -/
theorem single_cause_line (env : Env) (o : IterOrder) (file status X Kind Message : String)
    (L C : Int) (b : Bytes) (ho : o.Valid) (hstatus : status ≠ StatusSuccess)
    (hX : X ≠ nilValue) (hread : env.ReadFile file = .ok b)
    (hres : resolveCause env b ⟨Kind, Message, X⟩ = .ok ⟨L, C⟩) :
    lintMarshal env o [(file, [⟨status, some ⟨[⟨Kind, Message, X⟩]⟩⟩])] =
      .ok (file ++ ":" ++ fmtInt L ++ ":" ++ fmtInt C ++ ": field " ++
        fmtQuote env.printTable X ++ ": (reason: " ++ fmtQuote env.printTable Kind ++
        "; " ++ Message ++ ")") ∧
    ((∀ r ∈ X.data ++ Kind.data, isPrint env.printTable r = true ∧ r ≠ '"' ∧ r ≠ '\\') →
      lintMarshal env o [(file, [⟨status, some ⟨[⟨Kind, Message, X⟩]⟩⟩])] =
        .ok (file ++ ":" ++ fmtInt L ++ ":" ++ fmtInt C ++ ": field \"" ++ X ++
          "\": (reason: \"" ++ Kind ++ "\"; " ++ Message ++ ")")) := by
  have hfiles : o.detailsKeys [file] = [file] := List.perm_singleton.mp (ho.detailsKeys _)
  have hmain : lintMarshal env o [(file, [⟨status, some ⟨[⟨Kind, Message, X⟩]⟩⟩])] =
      .ok (file ++ ":" ++ fmtInt L ++ ":" ++ fmtInt C ++ ": field " ++
        fmtQuote env.printTable X ++ ": (reason: " ++ fmtQuote env.printTable Kind ++
        "; " ++ Message ++ ")") := by
    have hf := fileErrors_single env o ho file status ⟨Kind, Message, X⟩ b ⟨L, C⟩ hstatus hX
      hread hres
    have hlit : ": field " = ": " ++ "field " := by decide
    have hlit2 : ": (reason: " = ": " ++ "(reason: " := by decide
    simp only [lintMarshal, mapKeys, List.map_cons, List.map_nil, hfiles, sortFiles,
      List.insertionSort, List.orderedInsert, filesLoop, detailsGet, if_true, hf,
      List.nil_append, stringsJoin, LintError.String, renderCause, hlit, hlit2,
      String.append_assoc]
  refine ⟨hmain, fun hplain => ?_⟩
  rw [hmain, fmtQuote_plain env.printTable X (fun r hr => hplain r (List.mem_append_left _ hr)),
    fmtQuote_plain env.printTable Kind (fun r hr => hplain r (List.mem_append_right _ hr))]
  have e1 : ": field \"" = ": field " ++ "\"" := by decide
  have e2 : "\": (reason: \"" = "\"" ++ ": (reason: " ++ "\"" := by decide
  have e3 : "\"; " = "\"" ++ "; " := by decide
  simp only [e1, e2, e3, String.append_assoc]

theorem single_cause_line_witness :
    lintMarshal demoEnv reverseOrder [("a.yaml", [⟨"Failure",
        some ⟨[⟨"FieldValueInvalid", "must not be empty", "spec.image"⟩]⟩⟩])] =
      .ok ("a.yaml" ++ ":" ++ fmtInt 2 ++ ":" ++ fmtInt 3 ++ ": field " ++
        fmtQuote demoEnv.printTable "spec.image" ++ ": (reason: " ++
        fmtQuote demoEnv.printTable "FieldValueInvalid" ++
        "; " ++ "must not be empty" ++ ")") :=
  (single_cause_line demoEnv reverseOrder "a.yaml" "Failure" "spec.image"
    "FieldValueInvalid" "must not be empty" 2 3 demoDoc
    ⟨fun _ => List.reverse_perm _, fun _ _ => List.reverse_perm _,
      fun _ _ => List.reverse_perm _, fun _ _ _ => List.reverse_perm _⟩
    (by decide) (by decide) (by decide) (by decide)).1

/-- C3. The `LintError`s that `lintMarshal` emits for one file are strictly ascending
by (line, column), line first and column second; so no two of them carry the same
(line, column). -/
theorem file_lines_strictly_ascending (env : Env) (o : IterOrder) (file : String)
    (status : List Status) (les : List LintError) (ho : o.Valid)
    (h : fileErrors env o file status = .ok les) :
    (les.map LintError.position).Pairwise Position.before ∧
      (les.map LintError.position).Nodup := by
  have hstrict := fileErrors_positions_strict env o file status les ho h
  refine ⟨hstrict, hstrict.imp ?_⟩
  intro i j hij heq
  exact before_irrefl j (heq ▸ hij)

theorem file_lines_strictly_ascending_witness :
    fileErrors demoEnv reverseOrder "a.yaml"
        [⟨"Failure", some ⟨[⟨"K", "m2", "spec.name"⟩, ⟨"K", "m1", "spec.image"⟩]⟩⟩] =
      .ok [⟨"a.yaml", 2, 3, "field \"spec.image\": (reason: \"K\"; m1)"⟩,
        ⟨"a.yaml", 3, 3, "field \"spec.name\": (reason: \"K\"; m2)"⟩] ∧
    ([⟨"a.yaml", 2, 3, "field \"spec.image\": (reason: \"K\"; m1)"⟩,
      ⟨"a.yaml", 3, 3, "field \"spec.name\": (reason: \"K\"; m2)"⟩].map
        LintError.position).Pairwise Position.before :=
  ⟨by decide, (file_lines_strictly_ascending demoEnv reverseOrder "a.yaml"
    [⟨"Failure", some ⟨[⟨"K", "m2", "spec.name"⟩, ⟨"K", "m1", "spec.image"⟩]⟩⟩] _
    reverseOrder_valid (by decide)).1⟩

/-- C4. The report is not a function of the input alone. For one file with two causes
of different types at the field `spec.image`, the order of the two renderings follows
the order in which the map `causes` is visited; for two causes at distinct fields that
resolve to one position, the order of the two field groups follows the order in which
the map `messages` is visited. In both cases two iteration orders give two reports. -/
theorem report_depends_on_iteration_order :
    insertionOrder.Valid ∧ reverseOrder.Valid ∧
    lintMarshal demoEnv insertionOrder
        [("a.yaml", [⟨"Failure", some ⟨[
          ⟨"FieldValueRequired", "Required value", "spec.image"⟩,
          ⟨"FieldValueInvalid", "must not be empty", "spec.image"⟩]⟩⟩])] =
      .ok ("a.yaml:2:3: field \"spec.image\": " ++
        "(reason: \"FieldValueRequired\"; Required value), " ++
        "(reason: \"FieldValueInvalid\"; must not be empty)") ∧
    lintMarshal demoEnv reverseOrder
        [("a.yaml", [⟨"Failure", some ⟨[
          ⟨"FieldValueRequired", "Required value", "spec.image"⟩,
          ⟨"FieldValueInvalid", "must not be empty", "spec.image"⟩]⟩⟩])] =
      .ok ("a.yaml:2:3: field \"spec.image\": " ++
        "(reason: \"FieldValueInvalid\"; must not be empty), " ++
        "(reason: \"FieldValueRequired\"; Required value)") ∧
    lintMarshal demoEnv insertionOrder
        [("a.yaml", [⟨"Failure", some ⟨[
          ⟨"FieldValueRequired", "Required value", "spec.containers[0]"⟩,
          ⟨"FieldValueRequired", "must not be empty", "spec.containers[0].name"⟩]⟩⟩])] =
      .ok ("a.yaml:5:5: field \"spec.containers[0]\": " ++
        "(reason: \"FieldValueRequired\"; Required value), " ++
        "field \"spec.containers[0].name\": " ++
        "(reason: \"FieldValueRequired\"; must not be empty)") ∧
    lintMarshal demoEnv reverseOrder
        [("a.yaml", [⟨"Failure", some ⟨[
          ⟨"FieldValueRequired", "Required value", "spec.containers[0]"⟩,
          ⟨"FieldValueRequired", "must not be empty", "spec.containers[0].name"⟩]⟩⟩])] =
      .ok ("a.yaml:5:5: field \"spec.containers[0].name\": " ++
        "(reason: \"FieldValueRequired\"; must not be empty), " ++
        "field \"spec.containers[0]\": " ++
        "(reason: \"FieldValueRequired\"; Required value)") :=
  ⟨insertionOrder_valid, reverseOrder_valid, by decide, by decide, by decide, by decide⟩

/-- C5. A file whose statuses all failed and which has exactly two causes with a field,
at distinct fields that resolve to the same (line, column), yields exactly one line for
that position; its message is the two groups `field <X>: (reason: ...; ...)`, one per
field, joined by `, ` (in one of the two orders). -/
theorem two_fields_one_position (env : Env) (o : IterOrder) (file : String)
    (status : List Status) (c₁ c₂ : StatusCause) (b : Bytes) (position : Position)
    (ho : o.Valid) (hf : ∀ s ∈ status, s.Status ≠ StatusSuccess)
    (hd : ∀ s ∈ status, s.Details ≠ none)
    (hc : addressable (allCauses status) = [c₁, c₂]) (hne : c₁.Field ≠ c₂.Field)
    (hread : env.ReadFile file = .ok b)
    (h₁ : resolveCause env b c₁ = .ok position)
    (h₂ : resolveCause env b c₂ = .ok position) :
    ∃ msg, fileErrors env o file status =
        .ok [{ File := file, Line := position.Line, Column := position.Column,
               Message := msg }] ∧
      (msg = "field " ++ fmtQuote env.printTable c₁.Field ++ ": " ++ renderCause env c₁ ++
          ", " ++ ("field " ++ fmtQuote env.printTable c₂.Field ++ ": " ++
            renderCause env c₂) ∨
       msg = "field " ++ fmtQuote env.printTable c₂.Field ++ ": " ++ renderCause env c₂ ++
          ", " ++ ("field " ++ fmtQuote env.printTable c₁.Field ++ ": " ++
            renderCause env c₁)) := by
  have hn₁ : c₁.Field ≠ nilValue := by
    have : c₁ ∈ addressable (allCauses status) := by rw [hc]; simp
    simpa using (List.mem_filter.mp this).2
  have hn₂ : c₂.Field ≠ nilValue := by
    have : c₂ ∈ addressable (allCauses status) := by rw [hc]; simp
    simpa using (List.mem_filter.mp this).2
  have hcol : collectCauses [] status =
      .ok (some (mapAppend (mapAppend [] c₁.Type' c₁) c₂.Type' c₂)) := by
    rw [collectCauses_failed [] status hf hd, ← addCauses_addressable, hc]
    simp [addCauses, hn₁, hn₂]
  have hk : o.errorsKeys file [position] = [position] :=
    List.perm_singleton.mp (ho.errorsKeys _ _)
  -- the causes reach `errors[position]` in one of the two orders
  have hgrouped : groupCauses env b []
        (o.causes file (mapAppend (mapAppend [] c₁.Type' c₁) c₂.Type' c₂)) =
        .ok [(position, [c₁, c₂])] ∨
      groupCauses env b []
        (o.causes file (mapAppend (mapAppend [] c₁.Type' c₁) c₂.Type' c₂)) =
        .ok [(position, [c₂, c₁])] := by
    by_cases ht : c₁.Type' = c₂.Type'
    · have hm : mapAppend (mapAppend [] c₁.Type' c₁) c₂.Type' c₂ =
          [(c₁.Type', [c₁, c₂])] := by simp [mapAppend, ht]
      rw [hm, List.perm_singleton.mp (ho.causes file _)]
      left
      simp [groupCauses, groupItems, h₁, h₂, mapAppend]
    · have hm : mapAppend (mapAppend [] c₁.Type' c₁) c₂.Type' c₂ =
          [(c₁.Type', [c₁]), (c₂.Type', [c₂])] := by simp [mapAppend, ht]
      rw [hm]
      rcases perm_pair (ho.causes file [(c₁.Type', [c₁]), (c₂.Type', [c₂])]) with h | h
      · left
        simp [h, groupCauses, groupItems, h₁, h₂, mapAppend]
      · right
        simp [h, groupCauses, groupItems, h₁, h₂, mapAppend]
  rcases hgrouped with hg | hg
  · refine ⟨(positionError env o file [(position, [c₁, c₂])] position).Message, ?_,
      positionError_pair env o ho file position c₁ c₂ hne⟩
    rw [fileErrors_of_grouped env o file status _ b _ hcol (mapAppend_ne_nil _ _ _) hread hg]
    simp [mapKeys, hk, sortPositions, positionError]
  · refine ⟨(positionError env o file [(position, [c₂, c₁])] position).Message, ?_,
      (positionError_pair env o ho file position c₂ c₁ (fun h => hne h.symm)).symm⟩
    rw [fileErrors_of_grouped env o file status _ b _ hcol (mapAppend_ne_nil _ _ _) hread hg]
    simp [mapKeys, hk, sortPositions, positionError]

theorem two_fields_one_position_witness :
    ∃ msg, fileErrors demoEnv reverseOrder "a.yaml"
        [⟨"Failure", some ⟨[⟨"FieldValueRequired", "Required value", "spec.containers[0]"⟩]⟩⟩,
         ⟨"Failure", some ⟨[⟨"FieldValueInvalid", "must not be empty",
            "spec.containers[0].name"⟩]⟩⟩] =
        .ok [{ File := "a.yaml", Line := 5, Column := 5, Message := msg }] ∧
      (msg = "field " ++ fmtQuote demoEnv.printTable "spec.containers[0]" ++ ": " ++
            renderCause demoEnv ⟨"FieldValueRequired", "Required value",
              "spec.containers[0]"⟩ ++
          ", " ++ ("field " ++ fmtQuote demoEnv.printTable "spec.containers[0].name" ++ ": " ++
            renderCause demoEnv ⟨"FieldValueInvalid", "must not be empty",
              "spec.containers[0].name"⟩) ∨
       msg = "field " ++ fmtQuote demoEnv.printTable "spec.containers[0].name" ++ ": " ++
            renderCause demoEnv ⟨"FieldValueInvalid", "must not be empty",
              "spec.containers[0].name"⟩ ++
          ", " ++ ("field " ++ fmtQuote demoEnv.printTable "spec.containers[0]" ++ ": " ++
            renderCause demoEnv ⟨"FieldValueRequired", "Required value",
              "spec.containers[0]"⟩)) :=
  two_fields_one_position demoEnv reverseOrder "a.yaml"
    [⟨"Failure", some ⟨[⟨"FieldValueRequired", "Required value", "spec.containers[0]"⟩]⟩⟩,
     ⟨"Failure", some ⟨[⟨"FieldValueInvalid", "must not be empty",
        "spec.containers[0].name"⟩]⟩⟩]
    ⟨"FieldValueRequired", "Required value", "spec.containers[0]"⟩
    ⟨"FieldValueInvalid", "must not be empty", "spec.containers[0].name"⟩
    demoDoc ⟨5, 5⟩ reverseOrder_valid (by decide) (by decide) (by decide) (by decide)
    (by decide) (by decide) (by decide)

/-- C6. A cause whose `Field` is the sentinel `<nil>` is never rendered and never
resolved. The report (or failure) of `lintMarshal` is the one of the input without the
sentinel causes, whatever their `Type` and `Message` and whatever causes accompany them;
and it does not depend on what `yaml.PathString` would answer to the query of the
sentinel, `$.<nil>`: were that query ever made, an answer `r` that is an error would be
returned. No path is built for such a cause, so none reaches `getPosition`. -/
theorem sentinel_never_rendered_nor_resolved (env : Env) (o : IterOrder)
    (details : List (String × List Status)) (r : Except Error env.Path) (ho : o.Valid) :
    lintMarshal env o (dropSentinel details) = lintMarshal env o details ∧
    lintMarshal (env.setPathString ("$." ++ nilValue) r) o details =
      lintMarshal env o details := by
  constructor
  · rw [lintMarshal_eq, lintMarshal_eq, mapKeys_dropSentinel, reportLines_dropSentinel]
  · rw [lintMarshal_eq, lintMarshal_eq, reportLines_setPathString env o ho r]

theorem sentinel_never_rendered_nor_resolved_witness :
    lintMarshal demoEnv reverseOrder (dropSentinel
        [("a.yaml", [⟨"Failure", some ⟨[⟨"InternalError", "boom", "<nil>"⟩,
          ⟨"FieldValueInvalid", "must not be empty", "spec.image"⟩]⟩⟩])]) =
      lintMarshal demoEnv reverseOrder
        [("a.yaml", [⟨"Failure", some ⟨[⟨"InternalError", "boom", "<nil>"⟩,
          ⟨"FieldValueInvalid", "must not be empty", "spec.image"⟩]⟩⟩])] ∧
    lintMarshal (demoEnv.setPathString ("$." ++ nilValue) (.error "never asked")) reverseOrder
        [("a.yaml", [⟨"Failure", some ⟨[⟨"InternalError", "boom", "<nil>"⟩,
          ⟨"FieldValueInvalid", "must not be empty", "spec.image"⟩]⟩⟩])] =
      lintMarshal demoEnv reverseOrder
        [("a.yaml", [⟨"Failure", some ⟨[⟨"InternalError", "boom", "<nil>"⟩,
          ⟨"FieldValueInvalid", "must not be empty", "spec.image"⟩]⟩⟩])] :=
  sentinel_never_rendered_nor_resolved demoEnv reverseOrder
    [("a.yaml", [⟨"Failure", some ⟨[⟨"InternalError", "boom", "<nil>"⟩,
      ⟨"FieldValueInvalid", "must not be empty", "spec.image"⟩]⟩⟩])]
    (.error "never asked") reverseOrder_valid

/-- C7 (counterexample). The file `missing.yaml` cannot be read, and still `lintMarshal`
returns a report: the file is skipped, once because one of its statuses is `Success`
and once because its only cause carries the sentinel field, and a skipped file is
never read. -/
theorem unreadable_skipped_file_counterexample :
    demoEnv.ReadFile "missing.yaml" =
      .error "open missing.yaml: no such file or directory" ∧
    lintMarshal demoEnv insertionOrder
        [("a.yaml", [⟨"Failure", some ⟨[⟨"FieldValueInvalid", "must not be empty",
          "spec.image"⟩]⟩⟩]),
         ("missing.yaml", [⟨"Success", none⟩])] =
      .ok "a.yaml:2:3: field \"spec.image\": (reason: \"FieldValueInvalid\"; must not be empty)" ∧
    lintMarshal demoEnv insertionOrder
        [("missing.yaml", [⟨"Failure", some ⟨[⟨"InternalError", "boom", "<nil>"⟩]⟩⟩])] =
      .ok "" := by
  decide

/-- C7 (amended). If a file of the map that is not skipped (none of its statuses is
`Success`, every status carries `Details`, and at least one cause has a field) cannot be
read, `lintMarshal` returns no report; it returns the read error of that file when every
file that sorts before it is processed without failure. The file is read after its
causes are collected and before they are grouped by position. -/
theorem unreadable_processed_file_fails (env : Env) (o : IterOrder)
    (details : List (String × List Status)) (file : String) (status : List Status)
    (e : Error) (ho : o.Valid) (hnd : (mapKeys details).Nodup)
    (hmem : (file, status) ∈ details)
    (hf : ∀ s ∈ status, s.Status ≠ StatusSuccess) (hd : ∀ s ∈ status, s.Details ≠ none)
    (hc : addressable (allCauses status) ≠ []) (hread : env.ReadFile file = .error e) :
    (∀ out, lintMarshal env o details ≠ .ok out) ∧
    ((∀ f ∈ mapKeys details, f ≠ file → stringLE f file →
        ∃ les, fileErrors env o f (detailsGet details f) = .ok les) →
      lintMarshal env o details = .error (.err e)) := by
  have hfail : fileErrors env o file (detailsGet details file) = .error (.err e) := by
    rw [detailsGet_of_mem details file status hnd hmem]
    exact fileErrors_unreadable env o file status e hf hd hc hread
  have hin : file ∈ sortFiles (o.detailsKeys (mapKeys details)) :=
    (mem_sortFiles o ho _ _).mpr (List.mem_map_of_mem Prod.fst hmem)
  constructor
  · intro out hout
    obtain ⟨les, hles⟩ := lintMarshal_ok_all env o details out hout file hin
    rw [hfail] at hles
    cases hles
  · intro hearlier
    obtain ⟨pre, post, hsplit⟩ := List.append_of_mem hin
    apply lintMarshal_first_error env o details pre file post _ hsplit _ hfail
    intro f hfpre
    have hsorted := sortFiles_sorted (o.detailsKeys (mapKeys details))
    have hnodup : (sortFiles (o.detailsKeys (mapKeys details))).Nodup :=
      (((sortFiles_perm _).trans (ho.detailsKeys _)).nodup_iff).mpr hnd
    rw [hsplit] at hsorted hnodup
    have hle : stringLE f file :=
      (List.pairwise_append.mp hsorted).2.2 f hfpre file (List.mem_cons_self _ _)
    have hne : f ≠ file := by
      rintro rfl
      exact (List.nodup_append.mp hnodup).2.2 hfpre (List.mem_cons_self _ _)
    have hfk : f ∈ mapKeys details := by
      apply (mem_sortFiles o ho _ _).mp
      rw [hsplit]
      exact List.mem_append_left _ hfpre
    exact hearlier f hfk hne hle

theorem unreadable_processed_file_fails_witness :
    (∀ out, lintMarshal demoEnv reverseOrder
        [("a.yaml", [⟨"Failure", some ⟨[⟨"FieldValueInvalid", "must not be empty",
          "spec.image"⟩]⟩⟩]),
         ("missing.yaml", [⟨"Failure", some ⟨[⟨"FieldValueRequired", "Required value",
          "spec.name"⟩]⟩⟩])] ≠ .ok out) ∧
    lintMarshal demoEnv reverseOrder
        [("a.yaml", [⟨"Failure", some ⟨[⟨"FieldValueInvalid", "must not be empty",
          "spec.image"⟩]⟩⟩]),
         ("missing.yaml", [⟨"Failure", some ⟨[⟨"FieldValueRequired", "Required value",
          "spec.name"⟩]⟩⟩])] =
      .error (.err "open missing.yaml: no such file or directory") :=
  ⟨(unreadable_processed_file_fails demoEnv reverseOrder
      [("a.yaml", [⟨"Failure", some ⟨[⟨"FieldValueInvalid", "must not be empty",
          "spec.image"⟩]⟩⟩]),
       ("missing.yaml", [⟨"Failure", some ⟨[⟨"FieldValueRequired", "Required value",
          "spec.name"⟩]⟩⟩])] "missing.yaml"
      [⟨"Failure", some ⟨[⟨"FieldValueRequired", "Required value", "spec.name"⟩]⟩⟩]
      "open missing.yaml: no such file or directory" reverseOrder_valid (by decide)
      (by decide) (by decide) (by decide) (by decide) (by decide)).1,
    by decide⟩

/-- C8. When the processing of a file fails, `lintMarshal` returns that error and no
report, however many lines the files before it (in sorted order) have produced. The
failure is the read of the file, or, for the first cause in the order of the visit that
does not resolve, the construction of its path, the parsing of the document or the
lookup of the path. A report is returned only when every file has been processed to the
end: there is no partial report. -/
theorem failure_aborts_without_report (env : Env) (o : IterOrder)
    (details : List (String × List Status)) (pre : List String) (file : String)
    (post : List String) (causes : GoMap String StatusCause) (e : Error)
    (hfiles : sortFiles (o.detailsKeys (mapKeys details)) = pre ++ file :: post)
    (hpre : ∀ f ∈ pre, ∃ les, fileErrors env o f (detailsGet details f) = .ok les)
    (hcol : collectCauses [] (detailsGet details file) = .ok (some causes))
    (hne : causes ≠ [])
    (hfail : env.ReadFile file = .error e ∨
      ∃ b ipre c ipost, env.ReadFile file = .ok b ∧
        (o.causes file causes).flatMap Prod.snd = ipre ++ c :: ipost ∧
        (∀ c' ∈ ipre, ∃ p, resolveCause env b c' = .ok p) ∧
        (env.PathString ("$." ++ c.Field) = .error e ∨
          ∃ path, env.PathString ("$." ++ c.Field) = .ok path ∧
            (env.ParseBytes b = .error e ∨
              ∃ doc, env.ParseBytes b = .ok doc ∧ env.FilterFile path doc = .error e))) :
    lintMarshal env o details = .error (.err e) ∧
    (∀ out, lintMarshal env o details ≠ .ok out) ∧
    (∀ details' out, lintMarshal env o details' = .ok out →
      ∀ f ∈ sortFiles (o.detailsKeys (mapKeys details')),
        ∃ les, fileErrors env o f (detailsGet details' f) = .ok les) := by
  have hl : ¬ causes.length = 0 := fun h => hne (List.length_eq_zero.mp h)
  have hfile : fileErrors env o file (detailsGet details file) = .error (.err e) := by
    rcases hfail with hread | ⟨b, ipre, c, ipost, hread, hitems, hipre, hc⟩
    · simp [fileErrors, hcol, hl, hread]
    · have hres := (resolveCause_error_iff env b c e).mpr hc
      have hg : groupCauses env b [] (o.causes file causes) = .error e := by
        rw [groupCauses_eq_groupItems, hitems]
        exact groupItems_first_error env b [] ipre c ipost e hipre hres
      simp [fileErrors, hcol, hl, hread, hg]
  have hmain := lintMarshal_first_error env o details pre file post _ hfiles hpre hfile
  refine ⟨hmain, ?_, fun details' out h => lintMarshal_ok_all env o details' out h⟩
  intro out hout
  rw [hmain] at hout
  cases hout

theorem failure_aborts_without_report_witness :
    lintMarshal demoEnv reverseOrder
        [("bad.yaml", [⟨"Failure", some ⟨[⟨"FieldValueRequired", "Required value",
          "spec.name"⟩]⟩⟩]),
         ("a.yaml", [⟨"Failure", some ⟨[⟨"FieldValueInvalid", "must not be empty",
          "spec.image"⟩]⟩⟩])] = .error (.err "syntax error") :=
  (failure_aborts_without_report demoEnv reverseOrder
      [("bad.yaml", [⟨"Failure", some ⟨[⟨"FieldValueRequired", "Required value",
          "spec.name"⟩]⟩⟩]),
       ("a.yaml", [⟨"Failure", some ⟨[⟨"FieldValueInvalid", "must not be empty",
          "spec.image"⟩]⟩⟩])]
      ["a.yaml"] "bad.yaml" []
      [("FieldValueRequired", [⟨"FieldValueRequired", "Required value", "spec.name"⟩])]
      "syntax error" (by decide)
      (fun f hf => by
        rw [List.mem_singleton.mp hf]
        exact ⟨[⟨"a.yaml", 2, 3,
          "field \"spec.image\": (reason: \"FieldValueInvalid\"; must not be empty)"⟩],
          by decide⟩)
      (by decide) (by decide)
      (Or.inr ⟨[58, 32, 58], [], ⟨"FieldValueRequired", "Required value", "spec.name"⟩, [],
        by decide, by decide, by simp,
        Or.inr ⟨"$.spec.name", rfl, Or.inl rfl⟩⟩)).1

/-- C9. On success the report consists of one block of lines per file, each block
holding exactly the lines emitted for that file, and the blocks stand in the ascending
lexicographic order of the file names (the sorted list of the keys, which does not
depend on the iteration order of the input map): along the report the file names never
decrease, so every line of a file `A` precedes every line of a file `B` when `A < B`. -/
theorem files_in_ascending_order (env : Env) (o : IterOrder)
    (details : List (String × List Status)) (out : String) (ho : o.Valid)
    (hnd : (mapKeys details).Nodup) (h : lintMarshal env o details = .ok out) :
    out = stringsJoin ((reported env o details).map LintError.String) "\n" ∧
    (reported env o details).Pairwise (fun a b => a.File ≤ b.File) ∧
    reported env o details = (sortFiles (mapKeys details)).flatMap (emitted env o details) ∧
    (sortFiles (mapKeys details)).Perm (mapKeys details) ∧
    (sortFiles (mapKeys details)).Pairwise (fun a b => a < b) ∧
    sortFiles (o.detailsKeys (mapKeys details)) = sortFiles (mapKeys details) ∧
    (∀ f ∈ mapKeys details,
      fileErrors env o f (detailsGet details f) = .ok (emitted env o details f) ∧
      ∀ le ∈ emitted env o details f, le.File = f) := by
  refine ⟨lintMarshal_ok_eq env o ho details out h, ?_, rfl, sortFiles_perm _,
    (sortFiles_strict _ hnd).imp (fun hab => (stringLT_iff_lt _ _).mp hab),
    sortFiles_congr (ho.detailsKeys _), ?_⟩
  · unfold reported
    rw [List.pairwise_flatMap]
    constructor
    · intro f _
      apply List.pairwise_of_forall_mem_list
      intro a ha b hb
      rw [emitted_file env o details f a ha, emitted_file env o details f b hb]
    · refine (sortFiles_strict _ hnd).imp ?_
      intro f g hfg a ha b hb
      rw [emitted_file env o details f a ha, emitted_file env o details g b hb]
      exact (stringLE_iff_le _ _).mp hfg.1
  · intro f hf
    refine ⟨?_, emitted_file env o details f⟩
    obtain ⟨les, hles⟩ := lintMarshal_ok_all env o details out h f
      ((mem_sortFiles o ho _ _).mpr hf)
    simp [emitted, hles]

theorem files_in_ascending_order_witness :
    lintMarshal demoEnv reverseOrder
        [("a.yaml", [⟨"Failure", some ⟨[⟨"FieldValueInvalid", "must not be empty",
          "spec.image"⟩]⟩⟩]),
         ("b.yaml", [⟨"Failure", some ⟨[⟨"FieldValueRequired", "Required value",
          "spec.name"⟩]⟩⟩])] =
      .ok ("a.yaml:2:3: field \"spec.image\": (reason: \"FieldValueInvalid\"; " ++
        "must not be empty)\n" ++
        "b.yaml:3:3: field \"spec.name\": (reason: \"FieldValueRequired\"; Required value)") ∧
    (reported demoEnv reverseOrder
        [("a.yaml", [⟨"Failure", some ⟨[⟨"FieldValueInvalid", "must not be empty",
          "spec.image"⟩]⟩⟩]),
         ("b.yaml", [⟨"Failure", some ⟨[⟨"FieldValueRequired", "Required value",
          "spec.name"⟩]⟩⟩])]).Pairwise (fun a b => a.File ≤ b.File) :=
  ⟨by decide, (files_in_ascending_order demoEnv reverseOrder
      [("a.yaml", [⟨"Failure", some ⟨[⟨"FieldValueInvalid", "must not be empty",
          "spec.image"⟩]⟩⟩]),
       ("b.yaml", [⟨"Failure", some ⟨[⟨"FieldValueRequired", "Required value",
          "spec.name"⟩]⟩⟩])]
      ("a.yaml:2:3: field \"spec.image\": (reason: \"FieldValueInvalid\"; " ++
        "must not be empty)\n" ++
        "b.yaml:3:3: field \"spec.name\": (reason: \"FieldValueRequired\"; Required value)")
      reverseOrder_valid (by decide) (by decide)).2.1⟩

/-- C10 (counterexample). A message that holds a newline is rendered verbatim: the
report of one (file, position) pair then splits at the newlines into two elements, the
second of which is not of the form `file:line:column: message`. -/
theorem newline_in_message_counterexample :
    lintMarshal demoEnv insertionOrder
        [("a.yaml", [⟨"Failure", some ⟨[⟨"FieldValueInvalid",
          "must not be empty\nsee the docs", "spec.image"⟩]⟩⟩])] =
      .ok ("a.yaml:2:3: field \"spec.image\": (reason: \"FieldValueInvalid\"; " ++
        "must not be empty\nsee the docs)") ∧
    (reported demoEnv insertionOrder
        [("a.yaml", [⟨"Failure", some ⟨[⟨"FieldValueInvalid",
          "must not be empty\nsee the docs", "spec.image"⟩]⟩⟩])]).length = 1 ∧
    stringsSplit ("a.yaml:2:3: field \"spec.image\": (reason: \"FieldValueInvalid\"; " ++
        "must not be empty\nsee the docs)") '\n' =
      ["a.yaml:2:3: field \"spec.image\": (reason: \"FieldValueInvalid\"; must not be empty",
       "see the docs)"] := by
  decide

/-- C10 (amended). On success the output is the rendered lines, one per reported
(file, position) pair and each of the form `file:line:column: message`, joined by single
newlines with no trailing separator; it is empty when no file contributes a line. When
at least one line is reported and no file name and no `Message` of the input holds a
newline, splitting the output at the newlines yields exactly these lines. -/
theorem report_is_joined_lines (env : Env) (o : IterOrder)
    (details : List (String × List Status)) (out : String) (ho : o.Valid)
    (hnd : (mapKeys details).Nodup) (h : lintMarshal env o details = .ok out) :
    out = stringsJoin ((reported env o details).map LintError.String) "\n" ∧
    ((reported env o details).map (fun le => (le.File, le.Line, le.Column))).Nodup ∧
    (reported env o details = [] → out = "") ∧
    (reported env o details ≠ [] →
      (∀ e ∈ details, NoNewline e.1 ∧ ∀ c ∈ allCauses e.2, NoNewline c.Message) →
      stringsSplit out '\n' = (reported env o details).map LintError.String) := by
  have hout : out = stringsJoin ((reported env o details).map LintError.String) "\n" :=
    lintMarshal_ok_eq env o ho details out h
  refine ⟨hout, reported_pairs_nodup env o ho details hnd, ?_, ?_⟩
  · intro hnil
    rw [hout, hnil]
    rfl
  · intro hne hclean
    rw [hout]
    apply stringsSplit_stringsJoin
    · simpa using hne
    · intro l hl
      obtain ⟨le, hle, rfl⟩ := List.mem_map.mp hl
      unfold reported at hle
      obtain ⟨f, hf, hlef⟩ := List.mem_flatMap.mp hle
      have hfk : f ∈ mapKeys details := (sortFiles_perm _).subset hf
      have hmem := detailsGet_mem details f hfk
      exact noNewline_emitted env o ho details f (hclean _ hmem).1 (hclean _ hmem).2 le hlef

theorem report_is_joined_lines_witness :
    stringsSplit ("a.yaml:2:3: field \"spec.image\": (reason: \"FieldValueInvalid\"; " ++
        "must not be empty)\n" ++
        "b.yaml:3:3: field \"spec.name\": (reason: \"FieldValueRequired\"; Required value)")
      '\n' =
    (reported demoEnv reverseOrder
      [("a.yaml", [⟨"Failure", some ⟨[⟨"FieldValueInvalid", "must not be empty",
        "spec.image"⟩]⟩⟩]),
       ("b.yaml", [⟨"Failure", some ⟨[⟨"FieldValueRequired", "Required value",
        "spec.name"⟩]⟩⟩])]).map LintError.String :=
  (report_is_joined_lines demoEnv reverseOrder
      [("a.yaml", [⟨"Failure", some ⟨[⟨"FieldValueInvalid", "must not be empty",
        "spec.image"⟩]⟩⟩]),
       ("b.yaml", [⟨"Failure", some ⟨[⟨"FieldValueRequired", "Required value",
        "spec.name"⟩]⟩⟩])]
      ("a.yaml:2:3: field \"spec.image\": (reason: \"FieldValueInvalid\"; " ++
        "must not be empty)\n" ++
        "b.yaml:3:3: field \"spec.name\": (reason: \"FieldValueRequired\"; Required value)")
      reverseOrder_valid (by decide) (by decide)).2.2.2 (by decide) (by decide)

/-- C14. A file whose statuses all failed and which has no cause with a field (no cause
at all, or only causes whose `Field` is the sentinel `<nil>`) yields no line, not even
an empty one: the lines emitted for it are none, the body of the loop ends with no
`LintError` before the file is read (or in the nil dereference when one of the statuses
has no `Details`), and every report that `lintMarshal` returns is the report of the
input without that file, so the lines of the other files are joined with no extra
separator. -/
theorem no_causes_no_line (env : Env) (o : IterOrder)
    (details : List (String × List Status)) (file : String) (status : List Status)
    (ho : o.Valid) (hnd : (mapKeys details).Nodup) (hmem : (file, status) ∈ details)
    (hf : ∀ s ∈ status, s.Status ≠ StatusSuccess)
    (hzero : addressable (allCauses status) = []) :
    emitted env o details file = [] ∧
    (fileErrors env o file (detailsGet details file) = .ok [] ∨
      fileErrors env o file (detailsGet details file) = .error .nilDeref) ∧
    ((∀ s ∈ status, s.Details ≠ none) →
      fileErrors env o file (detailsGet details file) = .ok [] ∧
      lintMarshal env o details =
        lintMarshal env o (details.filter (fun e => e.1 ≠ file))) ∧
    (∀ out, lintMarshal env o details = .ok out →
      lintMarshal env o (details.filter (fun e => e.1 ≠ file)) = .ok out) := by
  have hget := detailsGet_of_mem details file status hnd hmem
  have hcases := fileErrors_no_causes env o file status hf hzero
  refine ⟨?_, hget ▸ hcases, fun hd => ?_, fun out hout => ?_⟩
  · unfold emitted
    rw [hget]
    rcases hcases with h | h <;> rw [h]
  · have hok : fileErrors env o file status = .ok [] := by
      have hc := collectCauses_failed [] status hf hd
      rw [addCauses_of_addressable_nil [] _ hzero] at hc
      simp [fileErrors, hc]
    exact ⟨hget ▸ hok, lintMarshal_filter_ne env o ho details file (hget ▸ hok)⟩
  · have hin : file ∈ sortFiles (o.detailsKeys (mapKeys details)) :=
      (mem_sortFiles o ho _ _).mpr (List.mem_map_of_mem Prod.fst hmem)
    obtain ⟨les, hles⟩ := lintMarshal_ok_all env o details out hout file hin
    have hok : fileErrors env o file (detailsGet details file) = .ok [] := by
      rcases (hget ▸ hcases : fileErrors env o file (detailsGet details file) = .ok [] ∨
        fileErrors env o file (detailsGet details file) = .error .nilDeref) with h | h
      · exact h
      · rw [h] at hles; cases hles
    rw [← lintMarshal_filter_ne env o ho details file hok]
    exact hout

theorem no_causes_no_line_witness :
    emitted demoEnv reverseOrder
        [("a.yaml", [⟨"Failure", some ⟨[⟨"FieldValueInvalid", "must not be empty",
          "spec.image"⟩]⟩⟩]),
         ("missing.yaml", [⟨"Failure", some ⟨[⟨"InternalError", "boom", "<nil>"⟩]⟩⟩,
          ⟨"Failure", some ⟨[]⟩⟩]),
         ("b.yaml", [⟨"Failure", some ⟨[⟨"FieldValueRequired", "Required value",
          "spec.name"⟩]⟩⟩])] "missing.yaml" = [] ∧
    lintMarshal demoEnv reverseOrder
        [("a.yaml", [⟨"Failure", some ⟨[⟨"FieldValueInvalid", "must not be empty",
          "spec.image"⟩]⟩⟩]),
         ("missing.yaml", [⟨"Failure", some ⟨[⟨"InternalError", "boom", "<nil>"⟩]⟩⟩,
          ⟨"Failure", some ⟨[]⟩⟩]),
         ("b.yaml", [⟨"Failure", some ⟨[⟨"FieldValueRequired", "Required value",
          "spec.name"⟩]⟩⟩])] =
      .ok ("a.yaml:2:3: field \"spec.image\": (reason: \"FieldValueInvalid\"; " ++
        "must not be empty)\n" ++
        "b.yaml:3:3: field \"spec.name\": (reason: \"FieldValueRequired\"; Required value)") :=
  ⟨(no_causes_no_line demoEnv reverseOrder
      [("a.yaml", [⟨"Failure", some ⟨[⟨"FieldValueInvalid", "must not be empty",
          "spec.image"⟩]⟩⟩]),
       ("missing.yaml", [⟨"Failure", some ⟨[⟨"InternalError", "boom", "<nil>"⟩]⟩⟩,
          ⟨"Failure", some ⟨[]⟩⟩]),
       ("b.yaml", [⟨"Failure", some ⟨[⟨"FieldValueRequired", "Required value",
          "spec.name"⟩]⟩⟩])] "missing.yaml"
      [⟨"Failure", some ⟨[⟨"InternalError", "boom", "<nil>"⟩]⟩⟩, ⟨"Failure", some ⟨[]⟩⟩]
      reverseOrder_valid (by decide) (by decide) (by decide) (by decide)).1,
    by decide⟩

/-- C18. A failed status whose `Details` is absent makes `lintMarshal` panic with a nil
dereference at `s.Details.Causes`, in every environment: it returns neither a report
nor an error, and the status is not treated as one without causes. The panic also
discards the causes collected before it. -/
theorem nil_details_panics :
    (∀ env : Env, lintMarshal env insertionOrder [("a.yaml", [⟨"Failure", none⟩])] =
      .error .nilDeref) ∧
    (∀ env : Env, ∀ out, lintMarshal env insertionOrder [("a.yaml", [⟨"Failure", none⟩])] ≠
      .ok out) ∧
    lintMarshal demoEnv insertionOrder
        [("a.yaml", [⟨"Failure", some ⟨[⟨"FieldValueInvalid", "must not be empty",
          "spec.image"⟩]⟩⟩, ⟨"Failure", none⟩])] = .error .nilDeref ∧
    lintMarshal demoEnv insertionOrder
        [("a.yaml", [⟨"Failure", some ⟨[⟨"FieldValueInvalid", "must not be empty",
          "spec.image"⟩]⟩⟩, ⟨"Failure", some ⟨[]⟩⟩])] =
      .ok "a.yaml:2:3: field \"spec.image\": (reason: \"FieldValueInvalid\"; must not be empty)" := by
  refine ⟨fun env => rfl, fun env out h => ?_, by decide, by decide⟩
  have h' : lintMarshal env insertionOrder [("a.yaml", [⟨"Failure", none⟩])] =
      .error .nilDeref := rfl
  rw [h'] at h
  cases h

/-- C11, as stated, fails. With the structured-document library modelled from the
specification and its query language (a query that ends in a key addresses the value of
the key), the document `spec:\n  image: ""` and the field path `spec.image` give
(2, 10), the position of the value `""`, and not (2, 3), the position of the `image`
key, whichever token leads a mapping; `lintMarshal` on the input of the example returns
the line `a.yaml:2:10: ...`, not the line `a.yaml:2:3: ...` of the claim. -/
theorem example_key_position_counterexample :
    runeAt exampleBytes ⟨2, 3⟩ = some 'i' ∧
    runeAt exampleBytes ⟨2, 10⟩ = some '"' ∧
    getPosition (specEnv exampleFiles (fun _ => false) true) [.key "spec", .key "image"]
      exampleBytes = .ok ⟨2, 10⟩ ∧
    getPosition (specEnv exampleFiles (fun _ => false) false) [.key "spec", .key "image"]
      exampleBytes = .ok ⟨2, 10⟩ ∧
    getPosition (specEnv exampleFiles (fun _ => false) true) [.key "spec", .key "image"]
      exampleBytes ≠ .ok ⟨2, 3⟩ ∧
    lintMarshal (specEnv exampleFiles (fun _ => false) true) insertionOrder
        [("a.yaml", [⟨"Failure", some ⟨[⟨"FieldValueInvalid", "must not be empty",
          "spec.image"⟩]⟩⟩])] =
      .ok "a.yaml:2:10: field \"spec.image\": (reason: \"FieldValueInvalid\"; must not be empty)" ∧
    lintMarshal (specEnv exampleFiles (fun _ => false) true) insertionOrder
        [("a.yaml", [⟨"Failure", some ⟨[⟨"FieldValueInvalid", "must not be empty",
          "spec.image"⟩]⟩⟩])] ≠
      .ok "a.yaml:2:3: field \"spec.image\": (reason: \"FieldValueInvalid\"; must not be empty)" := by
  refine ⟨by decide, by decide, rfl, rfl, ?_, by decide, by decide⟩
  have h : getPosition (specEnv exampleFiles (fun _ => false) true)
      [.key "spec", .key "image"] exampleBytes = .ok ⟨2, 10⟩ := rfl
  rw [h]
  decide

/-- C11, amended. For every library: when `a.yaml` can be read, the query
`$.spec.image` builds, the document parses and the query matches a node, `getPosition`
returns the line and column of the token of that node, and `lintMarshal` on the input of
the example returns exactly the line `a.yaml:L:C: field "spec.image": (reason:
"FieldValueInvalid"; must not be empty)` with that line `L` and column `C`. With the
structured-document library modelled from the specification, every position that
`getPosition` returns is 1-based, and a query that ends in a key addresses the value of
the key: the document `spec:\n  image: ""` and the field path `spec.image` give (2, 10),
the position of the value `""`, in the document `demoDoc` the path `spec.name` gives
(3, 9) and `spec.containers[0].name` gives (5, 11), and `lintMarshal` on the input of the example
returns exactly the line
`a.yaml:2:10: field "spec.image": (reason: "FieldValueInvalid"; must not be empty)`. -/
theorem example_position_and_line (o : IterOrder) (tbl : Char → Bool) (colon : Bool)
    (ho : o.Valid) :
    (∀ (env : Env) (b : Bytes) (p : env.Path) (doc : env.File) (node : env.Node),
      env.ReadFile "a.yaml" = .ok b →
      env.PathString ("$." ++ "spec.image") = .ok p →
      env.ParseBytes b = .ok doc → env.FilterFile p doc = .ok node →
      getPosition env p b =
        .ok { Line := env.tokenLine node, Column := env.tokenColumn node } ∧
      lintMarshal env o
          [("a.yaml", [⟨"Failure", some ⟨[⟨"FieldValueInvalid", "must not be empty",
            "spec.image"⟩]⟩⟩])] =
        .ok (LintError.String ⟨"a.yaml", env.tokenLine node, env.tokenColumn node,
          "field \"spec.image\": (reason: \"FieldValueInvalid\"; must not be empty)"⟩)) ∧
    (∀ (files : List (String × String)) (p : List YamlSelector) (b : Bytes)
        (position : Position),
      getPosition (specEnv files tbl colon) p b = .ok position →
      1 ≤ position.Line ∧ 1 ≤ position.Column) ∧
    (specEnv exampleFiles tbl colon).ReadFile "a.yaml" = .ok exampleBytes ∧
    (specEnv exampleFiles tbl colon).PathString ("$." ++ "spec.image") =
      .ok [.key "spec", .key "image"] ∧
    getPosition (specEnv exampleFiles tbl colon) [.key "spec", .key "image"]
      exampleBytes = .ok ⟨2, 10⟩ ∧
    runeAt exampleBytes ⟨2, 10⟩ = some '"' ∧
    getPosition (specEnv exampleFiles tbl colon) [.key "spec", .key "name"] demoDoc =
      .ok ⟨3, 9⟩ ∧
    (specEnv exampleFiles tbl colon).PathString ("$." ++ "spec.containers[0].name") =
      .ok [.key "spec", .key "containers", .index 0, .key "name"] ∧
    getPosition (specEnv exampleFiles tbl colon)
      [.key "spec", .key "containers", .index 0, .key "name"] demoDoc = .ok ⟨5, 11⟩ ∧
    lintMarshal (specEnv exampleFiles tbl colon) o
        [("a.yaml", [⟨"Failure", some ⟨[⟨"FieldValueInvalid", "must not be empty",
          "spec.image"⟩]⟩⟩])] =
      .ok "a.yaml:2:10: field \"spec.image\": (reason: \"FieldValueInvalid\"; must not be empty)" := by
  refine ⟨fun env b p doc node hread hpath hparse hfilter => ?_,
    fun files p b position h => getPosition_specEnv_based files tbl colon p b position h,
    rfl, rfl, rfl, by decide, rfl, rfl, rfl, ?_⟩
  · have hpos := getPosition_ok env p b doc node hparse hfilter
    refine ⟨hpos, ?_⟩
    have hres : resolveCause env b ⟨"FieldValueInvalid", "must not be empty", "spec.image"⟩ =
        .ok { Line := env.tokenLine node, Column := env.tokenColumn node } := by
      simp only [resolveCause, hpath, hpos]
    rw [lintMarshal_single env o ho "a.yaml" "Failure"
      ⟨"FieldValueInvalid", "must not be empty", "spec.image"⟩ b _
      (by decide) (by decide) hread hres]
    simp only [renderCause]
    rw [fmtQuote_ascii env.printTable "spec.image" (by decide),
      fmtQuote_ascii env.printTable "FieldValueInvalid" (by decide)]
    have hmsg : "\"" ++ "spec.image" ++ "\"" = "\"spec.image\"" := by decide
    have hmessage : "field " ++ ("\"" ++ "spec.image" ++ "\"") ++ ": " ++
        ("(reason: " ++ ("\"" ++ "FieldValueInvalid" ++ "\"") ++ "; " ++
          "must not be empty" ++ ")") =
        "field \"spec.image\": (reason: \"FieldValueInvalid\"; must not be empty)" := by
      decide
    rw [hmessage]
  · rw [lintMarshal_single (specEnv exampleFiles tbl colon) o ho "a.yaml" "Failure"
      ⟨"FieldValueInvalid", "must not be empty", "spec.image"⟩ exampleBytes ⟨2, 10⟩
      (by decide) (by decide) rfl rfl]
    have htbl : (specEnv exampleFiles tbl colon).printTable = tbl := rfl
    simp only [renderCause, htbl]
    rw [fmtQuote_ascii tbl "spec.image" (by decide),
      fmtQuote_ascii tbl "FieldValueInvalid" (by decide)]
    decide

theorem example_position_and_line_witness :
    lintMarshal (specEnv exampleFiles (fun _ => false) true) reverseOrder
        [("a.yaml", [⟨"Failure", some ⟨[⟨"FieldValueInvalid", "must not be empty",
          "spec.image"⟩]⟩⟩])] =
      .ok "a.yaml:2:10: field \"spec.image\": (reason: \"FieldValueInvalid\"; must not be empty)" ∧
    lintMarshal (specEnv exampleFiles (fun _ => false) true) reverseOrder
        [("a.yaml", [⟨"Failure", some ⟨[⟨"FieldValueInvalid", "must not be empty",
          "spec.image"⟩]⟩⟩])] =
      .ok (LintError.String ⟨"a.yaml", 2, 10,
        "field \"spec.image\": (reason: \"FieldValueInvalid\"; must not be empty)"⟩) :=
  ⟨(example_position_and_line reverseOrder (fun _ => false) true
      reverseOrder_valid).2.2.2.2.2.2.2.2.2,
    ((example_position_and_line reverseOrder (fun _ => false) true reverseOrder_valid).1
      (specEnv exampleFiles (fun _ => false) true) exampleBytes
      [.key "spec", .key "image"]
      [⟨.key "spec" 5, 1, 1⟩, ⟨.key "image" 8, 2, 3⟩, ⟨.scalar, 2, 10⟩] ⟨.scalar, 2, 10⟩
      rfl rfl rfl rfl).2⟩

/-- C12. A reported file yields exactly one line per distinct resolved position: the
positions of its lines are pairwise distinct and are exactly the positions to which its
causes with a field resolve (all of them resolve), and the line of a position renders
exactly the causes with a field that resolve to that position, so two causes share a
line if and only if their lines and their columns are equal. -/
theorem one_line_per_position (env : Env) (o : IterOrder) (file : String)
    (status : List Status) (les : List LintError) (ho : o.Valid)
    (h : fileErrors env o file status = .ok les) (hne : les ≠ []) :
    ∃ b, env.ReadFile file = .ok b ∧
      (∀ c ∈ addressable (allCauses status), ∃ p, resolveCause env b c = .ok p) ∧
      (les.map LintError.position).Nodup ∧
      (∀ p, p ∈ les.map LintError.position ↔
        ∃ c ∈ addressable (allCauses status), resolveCause env b c = .ok p) ∧
      (∀ le ∈ les, ∃ cs, cs.Perm (causesAt env b status le.position) ∧
        le = renderLine env o file le.position cs) := by
  obtain ⟨b, errors, items, hread, _, _, _, hperm, hres, _, hnd, hkeys, hget, hles⟩ :=
    fileErrors_structure env o ho file status les h hne
  have hk : (sortPositions (o.errorsKeys file (mapKeys errors))).Perm (mapKeys errors) :=
    (sortPositions_perm _).trans (ho.errorsKeys file _)
  have hpos : les.map LintError.position =
      sortPositions (o.errorsKeys file (mapKeys errors)) := by
    rw [hles]
    exact lines_positions env o file errors _
  refine ⟨b, hread, hres, ?_, ?_, ?_⟩
  · rw [hpos]
    exact (hk.nodup_iff).mpr hnd
  · intro p
    rw [hpos, hk.mem_iff]
    exact hkeys p
  · intro le hle
    rw [hles] at hle
    obtain ⟨p, _, rfl⟩ := List.mem_map.mp hle
    refine ⟨mapGet errors p, ?_, rfl⟩
    rw [renderLine_position, hget p]
    exact hperm.filter _

theorem one_line_per_position_witness :
    ∃ b, demoEnv.ReadFile "a.yaml" = .ok b ∧
      (∀ c ∈ addressable (allCauses
          [⟨"Failure", some ⟨[⟨"FieldValueRequired", "Required value", "spec.name"⟩,
            ⟨"FieldValueInvalid", "must not be empty", "spec.image"⟩,
            ⟨"InternalError", "boom", "<nil>"⟩,
            ⟨"FieldValueInvalid", "must be a name", "spec.name"⟩]⟩⟩]),
        ∃ p, resolveCause demoEnv b c = .ok p) ∧
      ([⟨"a.yaml", 2, 3, "field \"spec.image\": (reason: \"FieldValueInvalid\"; must not be empty)"⟩,
        (⟨"a.yaml", 3, 3, "field \"spec.name\": (reason: \"FieldValueInvalid\"; must be a name), (reason: \"FieldValueRequired\"; Required value)"⟩ : LintError)].map
        LintError.position).Nodup :=
  let ⟨b, h1, h2, h3, _⟩ := one_line_per_position demoEnv reverseOrder "a.yaml"
    [⟨"Failure", some ⟨[⟨"FieldValueRequired", "Required value", "spec.name"⟩,
      ⟨"FieldValueInvalid", "must not be empty", "spec.image"⟩,
      ⟨"InternalError", "boom", "<nil>"⟩,
      ⟨"FieldValueInvalid", "must be a name", "spec.name"⟩]⟩⟩]
    [⟨"a.yaml", 2, 3, "field \"spec.image\": (reason: \"FieldValueInvalid\"; must not be empty)"⟩,
     ⟨"a.yaml", 3, 3, "field \"spec.name\": (reason: \"FieldValueInvalid\"; must be a name), (reason: \"FieldValueRequired\"; Required value)"⟩]
    reverseOrder_valid (by decide) (by decide)
  ⟨b, h1, h2, h3⟩

/-- C13. The message of every line consists of one group per distinct field name among
the causes of its position, the groups joined by `, `; the group of a field name is
`field <name>: ` followed by the renderings `(reason: <type>; <message>)` of the causes
of the position with that field name, joined by `, `. The field name and the type stand
in their `%q` rendering, which is the string itself between double quotes when all its
runes are printable and none is the double quote or the backslash; the message stands
as it is. -/
theorem message_is_field_groups (env : Env) (o : IterOrder) (file : String)
    (status : List Status) (les : List LintError) (le : LintError) (ho : o.Valid)
    (h : fileErrors env o file status = .ok les) (hle : le ∈ les) :
    ∃ (b : Bytes) (cs : List StatusCause) (fields : List String), env.ReadFile file = .ok b ∧
      cs.Perm (causesAt env b status le.position) ∧ cs ≠ [] ∧
      fields.Nodup ∧ (∀ f, f ∈ fields ↔ ∃ c ∈ cs, c.Field = f) ∧
      le.Message = stringsJoin (fields.map (fun f =>
        "field " ++ fmtQuote env.printTable f ++ ": " ++
          stringsJoin ((cs.filter (fun c => c.Field = f)).map (fun c =>
            "(reason: " ++ fmtQuote env.printTable c.Type' ++ "; " ++ c.Message ++ ")"))
            ", ")) ", " ∧
      (∀ s : String,
        (∀ r ∈ s.data, isPrint env.printTable r = true ∧ r ≠ '"' ∧ r ≠ '\\') →
        fmtQuote env.printTable s = "\"" ++ s ++ "\"") := by
  have hne : les ≠ [] := List.ne_nil_of_mem hle
  obtain ⟨b, errors, items, hread, _, _, _, hperm, hres, _, hnd, hkeys, hget, hles⟩ :=
    fileErrors_structure env o ho file status les h hne
  rw [hles] at hle
  obtain ⟨p, hp, rfl⟩ := List.mem_map.mp hle
  have hpk : p ∈ mapKeys errors :=
    ((sortPositions_perm _).trans (ho.errorsKeys file _)).subset hp
  obtain ⟨c₀, hc₀, hc₀p⟩ := (hkeys p).mp hpk
  have hcs : (mapGet errors p).Perm (causesAt env b status p) := by
    rw [hget p]
    exact hperm.filter _
  obtain ⟨fields, hfnd, hfmem, hmsg⟩ := renderLine_message env o ho file p (mapGet errors p)
  refine ⟨b, mapGet errors p, fields, hread, hcs, ?_, hfnd, hfmem, ?_,
    fun s hs => fmtQuote_plain env.printTable s hs⟩
  · intro hnil
    have hmem : c₀ ∈ causesAt env b status p := by
      simp only [causesAt, List.mem_filter, decide_eq_true_eq]
      exact ⟨hc₀, hc₀p⟩
    have := hcs.symm.subset hmem
    rw [hnil] at this
    simp at this
  · rw [hmsg]
    rfl

theorem message_is_field_groups_witness :
    ∃ (b : Bytes) (cs : List StatusCause) (fields : List String), demoEnv.ReadFile "a.yaml" = .ok b ∧
      cs.Perm (causesAt demoEnv b
        [⟨"Failure", some ⟨[⟨"FieldValueRequired", "Required value", "spec.containers[0]"⟩,
          ⟨"FieldValueInvalid", "must not be empty", "spec.containers[0].name"⟩,
          ⟨"FieldValueInvalid", "must be a name", "spec.containers[0].name"⟩]⟩⟩]
        (LintError.position ⟨"a.yaml", 5, 5, "field \"spec.containers[0]\": (reason: \"FieldValueRequired\"; Required value), field \"spec.containers[0].name\": (reason: \"FieldValueInvalid\"; must not be empty), (reason: \"FieldValueInvalid\"; must be a name)"⟩)) ∧
      cs ≠ [] ∧ fields.Nodup ∧ (∀ f, f ∈ fields ↔ ∃ c ∈ cs, c.Field = f) ∧
      "field \"spec.containers[0]\": (reason: \"FieldValueRequired\"; Required value), field \"spec.containers[0].name\": (reason: \"FieldValueInvalid\"; must not be empty), (reason: \"FieldValueInvalid\"; must be a name)" =
        stringsJoin (fields.map (fun f =>
          "field " ++ fmtQuote demoEnv.printTable f ++ ": " ++
            stringsJoin ((cs.filter (fun c => c.Field = f)).map (fun c =>
              "(reason: " ++ fmtQuote demoEnv.printTable c.Type' ++ "; " ++ c.Message ++ ")"))
              ", ")) ", " :=
  let ⟨b, cs, fields, h1, h2, h3, h4, h5, h6, _⟩ :=
    message_is_field_groups demoEnv reverseOrder "a.yaml"
    [⟨"Failure", some ⟨[⟨"FieldValueRequired", "Required value", "spec.containers[0]"⟩,
      ⟨"FieldValueInvalid", "must not be empty", "spec.containers[0].name"⟩,
      ⟨"FieldValueInvalid", "must be a name", "spec.containers[0].name"⟩]⟩⟩]
    [⟨"a.yaml", 5, 5, "field \"spec.containers[0]\": (reason: \"FieldValueRequired\"; Required value), field \"spec.containers[0].name\": (reason: \"FieldValueInvalid\"; must not be empty), (reason: \"FieldValueInvalid\"; must be a name)"⟩]
    ⟨"a.yaml", 5, 5, "field \"spec.containers[0]\": (reason: \"FieldValueRequired\"; Required value), field \"spec.containers[0].name\": (reason: \"FieldValueInvalid\"; must not be empty), (reason: \"FieldValueInvalid\"; must be a name)"⟩
    reverseOrder_valid (by decide) (by decide)
  ⟨b, cs, fields, h1, h2, h3, h4, h5, h6⟩

/-- C16. Every cause with a field of a reported file is rendered exactly once. The lines
of the file are the renderings of groups of causes, one group per line, and the groups
together are a rearrangement of the causes with a field of all statuses of the file; on
each line the `(reason: ...; ...)` entries are a rearrangement of the renderings of the
causes of its group. So the number of entries on the lines of the file is the number of
its causes with a field: none is dropped, none is duplicated, and identical causes are
rendered as often as they occur. -/
theorem every_cause_rendered_once (env : Env) (o : IterOrder) (file : String)
    (status : List Status) (les : List LintError) (ho : o.Valid)
    (h : fileErrors env o file status = .ok les) (hne : les ≠ []) :
    ∃ (b : Bytes) (groups : List (Position × List StatusCause)),
      env.ReadFile file = .ok b ∧
      les = groups.map (fun g => renderLine env o file g.1 g.2) ∧
      (groups.flatMap Prod.snd).Perm (addressable (allCauses status)) ∧
      (∀ g ∈ groups, ((o.messages file g.1 (buildMessages env [] g.2)).flatMap Prod.snd).Perm
        (g.2.map (renderCause env))) ∧
      (groups.map (fun g =>
        ((o.messages file g.1 (buildMessages env [] g.2)).flatMap Prod.snd).length)).sum =
        (addressable (allCauses status)).length := by
  obtain ⟨b, errors, items, hread, _, _, _, hperm, hres, herr, hnd, hkeys, hget, hles⟩ :=
    fileErrors_structure env o ho file status les h hne
  have hk : (sortPositions (o.errorsKeys file (mapKeys errors))).Perm (mapKeys errors) :=
    (sortPositions_perm _).trans (ho.errorsKeys file _)
  have hgroups : (((sortPositions (o.errorsKeys file (mapKeys errors))).map
      (fun p => (p, mapGet errors p))).flatMap Prod.snd).Perm
      (addressable (allCauses status)) := by
    rw [List.flatMap_map]
    refine (hk.flatMap_right _).trans ?_
    have h1 : (mapKeys errors).flatMap (fun p => (p, mapGet errors p).2) =
        errors.flatMap Prod.snd := flatMap_mapGet_keys errors hnd
    rw [h1, herr]
    refine (flatMap_snd_groupFold (positionOf env b) id [] items).trans ?_
    simpa using hperm
  have hentries : ∀ g : Position × List StatusCause,
      ((o.messages file g.1 (buildMessages env [] g.2)).flatMap Prod.snd).Perm
        (g.2.map (renderCause env)) :=
    fun g => entries_perm_renderings env o ho file g.1 g.2
  refine ⟨b, (sortPositions (o.errorsKeys file (mapKeys errors))).map
    (fun p => (p, mapGet errors p)), hread, ?_, hgroups, fun g _ => hentries g, ?_⟩
  · rw [hles, List.map_map]
    rfl
  · have hlen : ∀ g : Position × List StatusCause,
        ((o.messages file g.1 (buildMessages env [] g.2)).flatMap Prod.snd).length =
          (List.length ∘ Prod.snd) g := by
      intro g
      rw [(hentries g).length_eq, List.length_map]
      rfl
    rw [← hgroups.length_eq, List.length_flatMap]
    congr 1
    apply List.map_congr_left
    intro g _
    exact hlen g

theorem every_cause_rendered_once_witness :
    ∃ (b : Bytes) (groups : List (Position × List StatusCause)),
      demoEnv.ReadFile "a.yaml" = .ok b ∧
      [(⟨"a.yaml", 2, 3, "field \"spec.image\": (reason: \"FieldValueInvalid\"; must not be empty), (reason: \"FieldValueInvalid\"; must not be empty)"⟩ : LintError)] =
        groups.map (fun g => renderLine demoEnv reverseOrder "a.yaml" g.1 g.2) ∧
      (groups.flatMap Prod.snd).Perm (addressable (allCauses
        [⟨"Failure", some ⟨[⟨"FieldValueInvalid", "must not be empty", "spec.image"⟩,
          ⟨"InternalError", "boom", "<nil>"⟩]⟩⟩,
         ⟨"Failure", some ⟨[⟨"FieldValueInvalid", "must not be empty", "spec.image"⟩]⟩⟩])) :=
  let ⟨b, groups, h1, h2, h3, _⟩ := every_cause_rendered_once demoEnv reverseOrder "a.yaml"
    [⟨"Failure", some ⟨[⟨"FieldValueInvalid", "must not be empty", "spec.image"⟩,
      ⟨"InternalError", "boom", "<nil>"⟩]⟩⟩,
     ⟨"Failure", some ⟨[⟨"FieldValueInvalid", "must not be empty", "spec.image"⟩]⟩⟩]
    [⟨"a.yaml", 2, 3, "field \"spec.image\": (reason: \"FieldValueInvalid\"; must not be empty), (reason: \"FieldValueInvalid\"; must not be empty)"⟩]
    reverseOrder_valid (by decide) (by decide)
  ⟨b, groups, h1, h2, h3⟩

/-- C17. When, in every file that can be read, every cause with a field resolves and any
two causes with a field that resolve to the same position have the same `Field` and the
same `Type`, the result of `lintMarshal` is the same for every iteration order of its
maps; and the lines of every reported file are its canonical lines: one line per
position in ascending order, holding the single group of the field of the position with
the renderings of the causes of the position in input order (status order, then cause
order). -/
theorem deterministic_when_positions_separate (env : Env) (o₁ o₂ : IterOrder)
    (details : List (String × List Status)) (ho₁ : o₁.Valid) (ho₂ : o₂.Valid)
    (hres : ∀ e ∈ details, ∀ b, env.ReadFile e.1 = .ok b →
      (∀ c ∈ addressable (allCauses e.2), ∃ p, resolveCause env b c = .ok p) ∧
      (∀ c ∈ addressable (allCauses e.2), ∀ c' ∈ addressable (allCauses e.2),
        resolveCause env b c = resolveCause env b c' →
          c.Field = c'.Field ∧ c.Type' = c'.Type')) :
    lintMarshal env o₁ details = lintMarshal env o₂ details ∧
    (∀ file status b les, (file, status) ∈ details → env.ReadFile file = .ok b →
      fileErrors env o₁ file status = .ok les → les ≠ [] →
      les = canonicalLines env b file status) := by
  constructor
  · rw [lintMarshal_eq, lintMarshal_eq, sortFiles_congr (ho₁.detailsKeys _),
      sortFiles_congr (ho₂.detailsKeys _),
      reportLines_congr env o₁ o₂ details (sortFiles (mapKeys details))]
    intro f hf
    have hfk : f ∈ mapKeys details := (sortFiles_perm _).subset hf
    exact fileErrors_order_irrelevant env o₁ o₂ ho₁ ho₂ f _
      (hres _ (detailsGet_mem details f hfk))
  · intro file status b les hmem hread hles hne
    rcases fileErrors_ok_cases env o₁ file status les hles with h0 | ⟨causes, b', _, hc,
      hcne, hread', _, _⟩
    · exact absurd h0 hne
    · have hb : b' = b := by
        rw [hread] at hread'
        exact (Except.ok.inj hread').symm
      subst hb
      obtain ⟨h1, h2⟩ := hres (file, status) hmem b' hread
      have := fileErrors_canonical env o₁ ho₁ file status causes b' hc hcne hread h1 h2
      rw [this] at hles
      exact (Except.ok.inj hles).symm

theorem deterministic_when_positions_separate_witness :
    lintMarshal demoEnv insertionOrder
        [("a.yaml", [⟨"Failure", some ⟨[⟨"FieldValueInvalid", "must not be empty",
            "spec.image"⟩,
          ⟨"FieldValueRequired", "Required value", "spec.name"⟩,
          ⟨"FieldValueInvalid", "must be a reference", "spec.image"⟩]⟩⟩])] =
      lintMarshal demoEnv reverseOrder
        [("a.yaml", [⟨"Failure", some ⟨[⟨"FieldValueInvalid", "must not be empty",
            "spec.image"⟩,
          ⟨"FieldValueRequired", "Required value", "spec.name"⟩,
          ⟨"FieldValueInvalid", "must be a reference", "spec.image"⟩]⟩⟩])] ∧
    lintMarshal demoEnv reverseOrder
        [("a.yaml", [⟨"Failure", some ⟨[⟨"FieldValueInvalid", "must not be empty",
            "spec.image"⟩,
          ⟨"FieldValueRequired", "Required value", "spec.name"⟩,
          ⟨"FieldValueInvalid", "must be a reference", "spec.image"⟩]⟩⟩])] =
      .ok ("a.yaml:2:3: field \"spec.image\": (reason: \"FieldValueInvalid\"; " ++
        "must not be empty), (reason: \"FieldValueInvalid\"; must be a reference)\n" ++
        "a.yaml:3:3: field \"spec.name\": (reason: \"FieldValueRequired\"; Required value)") :=
  ⟨(deterministic_when_positions_separate demoEnv insertionOrder reverseOrder
      [("a.yaml", [⟨"Failure", some ⟨[⟨"FieldValueInvalid", "must not be empty",
          "spec.image"⟩,
        ⟨"FieldValueRequired", "Required value", "spec.name"⟩,
        ⟨"FieldValueInvalid", "must be a reference", "spec.image"⟩]⟩⟩])]
      insertionOrder_valid reverseOrder_valid
      (fun e he b hb => by
        rw [List.mem_singleton.mp he] at hb ⊢
        have hb' : b = demoDoc := (Except.ok.inj hb).symm
        subst hb'
        refine ⟨?_, by decide⟩
        intro c hc
        have hc' : c = ⟨"FieldValueInvalid", "must not be empty", "spec.image"⟩ ∨
            c = ⟨"FieldValueRequired", "Required value", "spec.name"⟩ ∨
            c = ⟨"FieldValueInvalid", "must be a reference", "spec.image"⟩ := by
          simpa [addressable, allCauses, nilValue] using hc
        rcases hc' with rfl | rfl | rfl
        · exact ⟨⟨2, 3⟩, by decide⟩
        · exact ⟨⟨3, 3⟩, by decide⟩
        · exact ⟨⟨2, 3⟩, by decide⟩)).1,
    by decide⟩

/-- C15. On inputs whose failed statuses all carry `Details`, `lintMarshal` returns an
error exactly when some file that is not skipped cannot be read or has a cause with a
field that does not resolve, and it returns a report in every other case. A failed
status without `Details` breaks this: the call panics with a nil dereference although
no file fails, a file that a later `Success` status would skip makes the call fail, and
the read error of an unreadable file is not returned when a file before it panics. -/
theorem error_iff_except_nil_details :
    (∀ (env : Env) (o : IterOrder) (details : List (String × List Status)),
      o.Valid → (mapKeys details).Nodup →
      (∀ e ∈ details, ∀ s ∈ e.2, s.Status ≠ StatusSuccess → s.Details ≠ none) →
      ((∃ err, lintMarshal env o details = .error (.err err)) ↔
        SomeFileFails env details) ∧
      (¬ SomeFileFails env details → ∃ out, lintMarshal env o details = .ok out)) ∧
    (¬ SomeFileFails demoEnv [("a.yaml", [⟨"Failure", none⟩])] ∧
      lintMarshal demoEnv insertionOrder [("a.yaml", [⟨"Failure", none⟩])] =
        .error .nilDeref) ∧
    (¬ SomeFileFails demoEnv [("a.yaml", [⟨"Failure", none⟩, ⟨"Success", none⟩])] ∧
      lintMarshal demoEnv insertionOrder
        [("a.yaml", [⟨"Failure", none⟩, ⟨"Success", none⟩])] = .error .nilDeref) ∧
    (SomeFileFails demoEnv
        [("a.yaml", [⟨"Failure", none⟩]),
         ("missing.yaml", [⟨"Failure", some ⟨[⟨"FieldValueRequired", "Required value",
          "spec.name"⟩]⟩⟩])] ∧
      lintMarshal demoEnv insertionOrder
        [("a.yaml", [⟨"Failure", none⟩]),
         ("missing.yaml", [⟨"Failure", some ⟨[⟨"FieldValueRequired", "Required value",
          "spec.name"⟩]⟩⟩])] = .error .nilDeref) := by
  refine ⟨?_, ⟨?_, by decide⟩, ⟨?_, by decide⟩, ⟨?_, by decide⟩⟩
  · intro env o details ho hnd hd
    have h := lintMarshal_error_iff env o ho details hnd hd
    exact ⟨h.1, h.2.1⟩
  · rintro ⟨e, he, _, h2, _⟩
    rw [List.mem_singleton.mp he] at h2
    exact h2 (by decide)
  · rintro ⟨e, he, h1, _, _⟩
    rw [List.mem_singleton.mp he] at h1
    exact h1 ⟨"Success", none⟩ (by decide) rfl
  · exact ⟨("missing.yaml", [⟨"Failure", some ⟨[⟨"FieldValueRequired", "Required value",
      "spec.name"⟩]⟩⟩]), by decide, by decide, by decide, Or.inl ⟨_, rfl⟩⟩
end KubectlValidate
